import Mathlib

/-!
Verification of the sudoku solver from this repository.

The source is a Rust program with two solvers:
* `src/main.rs` — a naive solver operating directly on the 81-cell board,
  recomputing allowed-number sets by scanning rows/columns/squares;
* `src/sudoku/solve.rs` — a bookkept solver maintaining 27 nine-bit
  candidate masks (per column, row and 3×3 box), an 81-bit open-cell
  bitset and an 81-bit dirty-cell ("updated allows") bitset.

Machine integers are embedded as `Nat` with explicit `% 2^w` where the
width matters.  Fallible operations (assertion failures, `unwrap` on
`None`, out-of-bounds array indexing) return `Option`, with `none`
modelling a panic.  The "no solution" outcome of the search is the inner
`Option` of `Option (Option _)`.  Recursive loops whose termination is
not structural are given explicit fuel; theorems below establish the
fuel bounds used by the definitions are never exhausted, so the fueled
definitions agree with the Rust loops.
-/

/-! ## Bitset helpers

`CoordBitsetIterator` in `solve.rs` iterates the set bits of a `u128` in
increasing order (repeatedly taking `trailing_zeros` and clearing the
lowest set bit).  For a value below `2^128` that sequence is exactly the
ascending list of set bit positions below 128. -/

/-- Ascending list of set-bit positions of a `u128` bitset, as produced by
`CoordBitsetIterator`. -/
def bitsBelow (w : Nat) (n : Nat) : List Nat :=
  (List.range w).filter (fun i => n.testBit i)

/-- Number of set bits among the low `w` bits. -/
def onesBelow (w : Nat) (n : Nat) : Nat :=
  (bitsBelow w n).length

/-- `u128` complement mask, for `!x` on `u128`. -/
def U128MAX : Nat := 2 ^ 128 - 1

/-- `AllowedNumbers::get_mask`: `1u16 << num.get()`.  Rust (release)
masks the shift amount of a `u16` shift to `num % 16`; the result always
fits in 16 bits. -/
def getMask (num : Nat) : Nat := 1 <<< (num % 16)

/-- `AllowedNumbers::all()`: bits 1..9 set (trailing zero because numbers
start at one). -/
def allAllowed : Nat := 0b1111111110

/-- `AllowedNumbers::disallow`: `self.0 &= !get_mask(num)` on `u16`. -/
def disallow (mask num : Nat) : Nat :=
  mask &&& (65535 ^^^ getMask num)

/-- `AllowedNumbersIterator::are_none_allowed`. -/
def areNoneAllowed (mask : Nat) : Bool := mask == 0

/-- `AllowedNumbersIterator::is_one_allowed`:
`self.0 != 0 && self.0 & (self.0 - 1) == 0`. -/
def isOneAllowed (mask : Nat) : Bool :=
  mask != 0 && mask &&& (mask - 1) == 0

/-- `u16::trailing_zeros` (16 when no bit is set). -/
def trailingZeros16 (m : Nat) : Nat :=
  ((List.range 16).find? (fun i => m.testBit i)).getD 16

/-- `AllowedNumbersIterator::next` followed by `.unwrap()`, as used in
`make_forced_choices`: for a non-zero mask the iterator yields
`Number::safe_new(trailing_zeros)`, which is `None` (and the `unwrap`
panics) exactly when the lowest set bit is bit 0. -/
def allowedNextUnwrap (m : Nat) : Option Nat :=
  if m = 0 then none
  else if m.testBit 0 then none
  else some (trailingZeros16 m)

/-- The list of numbers a Rust `for` loop draws from
`AllowedNumbersIterator`: the iterator yields `Number::safe_new`
of each set-bit position in ascending order, and `safe_new 0 = None`
terminates the loop immediately if bit 0 is set. -/
def allowedForList (m : Nat) : List Nat :=
  if m.testBit 0 then [] else bitsBelow 16 m

/-! ## Core data model (`src/sudoku/core.rs`) -/

/-- `Number::safe_new`: `NonZeroU8::new` on a `u8` input fails exactly
on 0. -/
def numberSafeNew (n : Nat) : Option Nat :=
  if n = 0 then none else some n

/-- `Number::new`: `safe_new(n).unwrap()`; `none` models the panic. -/
def numberNew (n : Nat) : Option Nat := numberSafeNew n

/-- `Space`: a cell is empty or holds a number. -/
inductive Space where
  | Empty : Space
  | Full : Nat → Space
deriving DecidableEq, Repr

/-- `Board`: the 81-cell grid, addressed by linear index `y * 9 + x`
(only indices below 81 are meaningful). -/
def Board : Type := Nat → Space

instance : Inhabited Board := ⟨fun _ => Space.Empty⟩

/-- `Board::new()`: all cells empty. -/
def Board.new : Board := fun _ => Space.Empty

/-- `Coord::x`. -/
def colOf (c : Nat) : Nat := c % 9
/-- `Coord::y`. -/
def rowOf (c : Nat) : Nat := c / 9
/-- `Coord::square`: `3 * (y / 3) + x / 3`. -/
def boxOf (c : Nat) : Nat := 3 * (rowOf c / 3) + colOf c / 3

/-! ## The bookkept solver (`src/sudoku/solve.rs`) -/

/-- `BookkeptBoard`: the board plus the open-cell `u128` bitset, the
dirty-cell `u128` bitset and the 27 nine-bit allowed masks.  The three
mask arrays are embedded as functions on `Nat`; the source indexes them
only with values below 9. -/
structure BookkeptBoard where
  board : Board
  openSpaces : Nat
  updatedAllows : Nat
  colAllowed : Nat → Nat
  rowAllowed : Nat → Nat
  boxAllowed : Nat → Nat

/-- `BookkeptBoard::new()`. -/
def BookkeptBoard.new : BookkeptBoard where
  board := Board.new
  openSpaces := (1 <<< 81) - 1
  updatedAllows := 0
  colAllowed := fun _ => allAllowed
  rowAllowed := fun _ => allAllowed
  boxAllowed := fun _ => allAllowed

/-- The `u128` constant `COL_MASK` of `add_col_updates`, shifted by the
column index: one bit per cell of column `x`. -/
def colMaskOf (c : Nat) : Nat :=
  (0b000000001000000001000000001000000001000000001000000001000000001000000001000000001 : Nat)
    <<< colOf c

/-- The `u128` constant `ROW_MASK` of `add_row_updates`, shifted by
`9 * y`: one bit per cell of row `y`. -/
def rowMaskOf (c : Nat) : Nat := (0b111111111 : Nat) <<< (9 * rowOf c)

/-- The `u128` constant `BOX_MASK` of `add_box_updates`, shifted by
`3 * (x / 3) + 27 * (y / 3)`: one bit per cell of the 3×3 box. -/
def boxMaskOf (c : Nat) : Nat :=
  (0b111000000111000000111 : Nat) <<< (3 * (colOf c / 3) + 27 * (rowOf c / 3))

/-- The state change of `BookkeptBoard::fill` once the assertion has
passed: mark the cell full, clear its open bit, mark its column, row and
box dirty, mask the dirty set to open cells, and remove the number from
the three allowed masks. -/
def fillRaw (s : BookkeptBoard) (c num : Nat) : BookkeptBoard :=
  let open' := s.openSpaces &&& (U128MAX ^^^ ((1 <<< c) % 2 ^ 128))
  { board := Function.update s.board c (Space.Full num)
    openSpaces := open'
    updatedAllows := (((s.updatedAllows ||| colMaskOf c) ||| rowMaskOf c) ||| boxMaskOf c) &&& open'
    colAllowed := Function.update s.colAllowed (colOf c) (disallow (s.colAllowed (colOf c)) num)
    rowAllowed := Function.update s.rowAllowed (rowOf c) (disallow (s.rowAllowed (rowOf c)) num)
    boxAllowed := Function.update s.boxAllowed (boxOf c) (disallow (s.boxAllowed (boxOf c)) num) }

/-- `BookkeptBoard::fill`.  `none` models a panic: indexing
`board[coord]` with a coordinate outside the 81-cell array, or the
`assert!(self.board[coord] == Space::Empty)` failing. -/
def fill (s : BookkeptBoard) (c num : Nat) : Option BookkeptBoard :=
  if 81 ≤ c then none
  else if s.board c = Space.Empty then some (fillRaw s c num)
  else none

/-- `BookkeptBoard::from_board`: replay every full cell of the input
through `fill`, in ascending coordinate order. -/
def fromBoard (b : Board) : Option BookkeptBoard :=
  (List.range 81).foldlM
    (fun s c =>
      match b c with
      | Space.Empty => some s
      | Space.Full num => fill s c num)
    BookkeptBoard.new

/-- `BookkeptBoard::allowed`: intersection of the column, row and box
masks of the coordinate. -/
def allowedMask (s : BookkeptBoard) (c : Nat) : Nat :=
  s.colAllowed (colOf c) &&& s.rowAllowed (rowOf c) &&& s.boxAllowed (boxOf c)

/-- `BookkeptBoard::any_updates`. -/
def anyUpdates (s : BookkeptBoard) : Bool := s.updatedAllows != 0

/-- One drain pass of `make_forced_choices`: iterate the snapshot list
taken by `take_updates`; on a zero-candidate cell return `None` (inner),
on a single-candidate cell fill it.  `allowed` indexes
`row_allowed[coord.y()]`, which is out of bounds for coordinates ≥ 81,
so those panic (outer `none`). -/
def passGo : List Nat → BookkeptBoard → Option (Option BookkeptBoard)
  | [], s => some (some s)
  | u :: rest, s =>
    if 81 ≤ u then none
    else
      let m := allowedMask s u
      if areNoneAllowed m then some none
      else if isOneAllowed m then
        match allowedNextUnwrap m with
        | none => none
        | some num =>
          match fill s u num with
          | none => none
          | some s' => passGo rest s'
      else passGo rest s

/-- The `while board.any_updates()` loop of `make_forced_choices`, with
fuel counting outer iterations.  Each continuing iteration fills at
least one cell, so `onesBelow 128 s.openSpaces + 1` iterations always
suffice (proved below); `none` at fuel 0 is unreachable from the actual
entry points. -/
def mfcGo : Nat → BookkeptBoard → Option (Option BookkeptBoard)
  | 0, _ => none
  | fuel + 1, s =>
    if anyUpdates s then
      match passGo (bitsBelow 128 s.updatedAllows) { s with updatedAllows := 0 } with
      | none => none
      | some none => some none
      | some (some s') => mfcGo fuel s'
    else some (some s)

/-- `make_forced_choices`. -/
def makeForcedChoices (s : BookkeptBoard) : Option (Option BookkeptBoard) :=
  mfcGo (onesBelow 128 s.openSpaces + 1) s

/-- `pick_open_space`: first open coordinate in ascending order. -/
def pickOpenSpace (s : BookkeptBoard) : Option Nat :=
  (bitsBelow 128 s.openSpaces).head?

/-- The `for possibility in allowed` loop of `solve_helper`: try each
candidate in turn, recursing through `helper`; the first solution wins.
A panic (`none`) in `fill` or in the recursive call propagates. -/
def tryGo (helper : BookkeptBoard → Option (Option BookkeptBoard))
    (s : BookkeptBoard) (c : Nat) : List Nat → Option (Option BookkeptBoard)
  | [] => some none
  | num :: rest =>
    match fill s c num with
    | none => none
    | some s' =>
      match helper s' with
      | none => none
      | some none => tryGo helper s c rest
      | some (some sol) => some (some sol)

/-- `solve_helper`, with fuel bounding the recursion depth.  Each
recursion fills the picked cell first, so the number of open cells
strictly decreases with depth and `onesBelow 128 s.openSpaces + 1` is
always enough fuel (proved below).  Coordinates ≥ 81 picked from the
open set would make `allowed` index out of bounds (panic). -/
def solveHelperGo : Nat → BookkeptBoard → Option (Option BookkeptBoard)
  | 0, _ => none
  | fuel + 1, s =>
    match makeForcedChoices s with
    | none => none
    | some none => some none
    | some (some s₁) =>
      match pickOpenSpace s₁ with
      | none => some (some s₁)
      | some c =>
        if 81 ≤ c then none
        else tryGo (solveHelperGo fuel) s₁ c (allowedForList (allowedMask s₁ c))

/-- `solve_helper` at its true recursion depth bound. -/
def solveHelper (s : BookkeptBoard) : Option (Option BookkeptBoard) :=
  solveHelperGo (onesBelow 128 s.openSpaces + 1) s

/-- `solve` (`src/sudoku/solve.rs`): wrap the grid in a `BookkeptBoard`
and run the search; outer `none` is a panic, inner `none` is "no
solution". -/
def solve (b : Board) : Option (Option Board) :=
  match fromBoard b with
  | none => none
  | some s =>
    match solveHelper s with
    | none => none
    | some none => some none
    | some (some t) => some (some t.board)

/-! ## The naive solver (`src/main.rs`)

`main.rs` carries its own copies of `Number`, `Space`, `Coord` and
`Board` with the same meaning; we reuse `Space`/`Board`.  Its
`AllowedNumbers` uses bit `n - 1` for number `n` (no trailing zero). -/

/-- `main.rs` `AllowedNumbers::get_mask`: `1u16 << (n - 1)` with the
`u16` shift amount masked. -/
def naiveGetMask (n : Nat) : Nat := 1 <<< ((n - 1) % 16)

/-- `main.rs` `AllowedNumbers::disallow`. -/
def naiveDisallow (mask n : Nat) : Nat := mask &&& (65535 ^^^ naiveGetMask n)

/-- `Board::get_col`: the nine cells of column `x`. -/
def regionCol (b : Board) (x : Nat) : List Space :=
  (List.range 9).map (fun y => b (y * 9 + x))

/-- `Board::get_row`: the nine cells of row `y`. -/
def regionRow (b : Board) (y : Nat) : List Space :=
  (List.range 9).map (fun x => b (y * 9 + x))

/-- `Board::get_square`: the nine cells of square `sq`, in the order the
source stores them (`reg[3 * x + y]`, so entry `i` is the cell at
`x = i / 3`, `y = i % 3` within the square). -/
def regionSquare (b : Board) (sq : Nat) : List Space :=
  (List.range 9).map
    (fun i => b ((3 * (sq / 3) + i % 3) * 9 + (3 * (sq % 3) + i / 3)))

/-- `main.rs` `Board::allowed`: start from all nine numbers and disallow
every full cell of the column, row and square of the coordinate. -/
def naiveAllowed (b : Board) (c : Nat) : Nat :=
  (regionCol b (colOf c) ++ regionRow b (rowOf c) ++ regionSquare b (boxOf c)).foldl
    (fun m sp =>
      match sp with
      | Space.Empty => m
      | Space.Full n => naiveDisallow m n)
    0b111111111

/-- `main.rs` `AllowedNumbers::allowed()`: numbers 1..9 in ascending
order, filtered by `is_allowed`. -/
def naiveAllowedList (m : Nat) : List Nat :=
  ((List.range 9).map (· + 1)).filter (fun v => m &&& naiveGetMask v != 0)

/-- Result of one full-board scan of the naive `make_forced_choices`:
a zero-candidate cell was found, or a forced cell was filled (and the
scan restarts), or the scan ran clean. -/
inductive NScan where
  | fail : NScan
  | filled : Board → NScan
  | clean : NScan

/-- One `for coord in Coord::all()` scan of `main.rs`
`make_forced_choices`; outer `none` models the `unwrap` panic. -/
def naiveScan : List Nat → Board → Option NScan
  | [], _ => some NScan.clean
  | c :: rest, b =>
    match b c with
    | Space.Full _ => naiveScan rest b
    | Space.Empty =>
      let m := naiveAllowed b c
      if onesBelow 16 m = 0 then some NScan.fail
      else if onesBelow 16 m = 1 then
        match (naiveAllowedList m).head? with
        | none => none
        | some v => some (NScan.filled (Function.update b c (Space.Full v)))
      else naiveScan rest b

/-- The `'look_for_forces` loop of `main.rs` `make_forced_choices`:
restart the scan after every fill.  Every restart has filled a cell, so
`emptyCount + 1` iterations suffice (proved below). -/
def naiveMfcGo : Nat → Board → Option (Option Board)
  | 0, _ => none
  | fuel + 1, b =>
    match naiveScan (List.range 81) b with
    | none => none
    | some NScan.fail => some none
    | some NScan.clean => some (some b)
    | some (NScan.filled b') => naiveMfcGo fuel b'

/-- Number of empty cells of the board. -/
def emptyCount (b : Board) : Nat :=
  (List.range 81).countP (fun i => b i == Space.Empty)

/-- `main.rs` `make_forced_choices`. -/
def naiveMfc (b : Board) : Option (Option Board) :=
  naiveMfcGo (emptyCount b + 1) b

/-- `main.rs` `pick_open_space`: first empty coordinate in ascending
order (its allowed set is recomputed at the use site, identically). -/
def naivePick (b : Board) : Option Nat :=
  (List.range 81).find? (fun c => b c == Space.Empty)

/-- The `for possibility in allowed.allowed()` loop of `main.rs`
`solve`: plain board assignment, no assertion. -/
def naiveTryGo (helper : Board → Option (Option Board)) (b : Board) (c : Nat) :
    List Nat → Option (Option Board)
  | [] => some none
  | v :: rest =>
    match helper (Function.update b c (Space.Full v)) with
    | none => none
    | some none => naiveTryGo helper b c rest
    | some (some sol) => some (some sol)

/-- `main.rs` `solve`, with fuel bounding the recursion depth. -/
def naiveSolveGo : Nat → Board → Option (Option Board)
  | 0, _ => none
  | fuel + 1, b =>
    match naiveMfc b with
    | none => none
    | some none => some none
    | some (some b₁) =>
      match naivePick b₁ with
      | none => some (some b₁)
      | some c => naiveTryGo (naiveSolveGo fuel) b₁ c (naiveAllowedList (naiveAllowed b₁ c))

/-- `main.rs` `solve` at its true recursion depth bound. -/
def naiveSolve (b : Board) : Option (Option Board) :=
  naiveSolveGo (emptyCount b + 1) b

/-! ## Bit-level lemmas -/

theorem testBit_false_of_ge {n w i : Nat} (h : n < 2 ^ w) (hw : w ≤ i) :
    n.testBit i = false :=
  Nat.testBit_eq_false_of_lt (lt_of_lt_of_le h (Nat.pow_le_pow_right (by norm_num) hw))

theorem lt_of_testBit_true {n w i : Nat} (h : n < 2 ^ w) (hb : n.testBit i = true) :
    i < w := by
  by_contra hx
  rw [testBit_false_of_ge h (le_of_not_lt hx)] at hb
  exact Bool.false_ne_true hb

theorem mem_bitsBelow {w n i : Nat} : i ∈ bitsBelow w n ↔ i < w ∧ n.testBit i = true := by
  simp [bitsBelow, List.mem_filter, List.mem_range]

theorem bitsBelow_sorted (w n : Nat) : List.Sorted (· < ·) (bitsBelow w n) :=
  (List.sorted_lt_range w).filter _

theorem bitsBelow_nodup (w n : Nat) : (bitsBelow w n).Nodup :=
  (List.nodup_range w).filter _

theorem bitsBelow_eq_nil {w n : Nat} (h : ∀ i, i < w → n.testBit i = false) :
    bitsBelow w n = [] := by
  apply List.eq_nil_iff_forall_not_mem.2
  intro i hi
  rcases mem_bitsBelow.1 hi with ⟨h1, h2⟩
  rw [h i h1] at h2
  exact Bool.false_ne_true h2

theorem bitsBelow_zero_right (w : Nat) : bitsBelow w 0 = [] :=
  bitsBelow_eq_nil (fun i _ => Nat.zero_testBit i)

theorem onesBelow_congr {w a b : Nat} (h : ∀ i, i < w → a.testBit i = b.testBit i) :
    onesBelow w a = onesBelow w b := by
  unfold onesBelow bitsBelow
  rw [List.filter_congr (fun i hi => h i (List.mem_range.1 hi))]

theorem length_filter_mono {α : Type} (l : List α) (p q : α → Bool)
    (h : ∀ a, p a = true → q a = true) :
    (l.filter p).length ≤ (l.filter q).length := by
  induction l with
  | nil => simp
  | cons a t ih =>
    by_cases hp : p a = true
    · rw [List.filter_cons_of_pos hp, List.filter_cons_of_pos (h a hp)]
      simpa using ih
    · rw [List.filter_cons_of_neg (by simp [hp])]
      by_cases hq : q a = true
      · rw [List.filter_cons_of_pos hq]
        exact le_trans ih (by simp)
      · rw [List.filter_cons_of_neg (by simp [hq])]
        exact ih

theorem onesBelow_le_of_subset {w a b : Nat}
    (h : ∀ i, a.testBit i = true → b.testBit i = true) :
    onesBelow w a ≤ onesBelow w b :=
  length_filter_mono _ _ _ (fun i hi => h i hi)

theorem bitsBelow_ne_nil {w n : Nat} (hn : n ≠ 0) (hlt : n < 2 ^ w) :
    bitsBelow w n ≠ [] := by
  intro hnil
  apply hn
  apply Nat.zero_of_testBit_eq_false
  intro i
  by_contra hb
  have hb' : n.testBit i = true := by
    cases h : n.testBit i with
    | false => exact absurd h hb
    | true => rfl
  have : i ∈ bitsBelow w n := mem_bitsBelow.2 ⟨lt_of_testBit_true hlt hb', hb'⟩
  rw [hnil] at this
  exact List.not_mem_nil i this

/-- Clearing one set bit decreases the population count by one. -/
theorem onesBelow_clear_bit {w n n' c : Nat} (hc : c < w) (hb : n.testBit c = true)
    (h : ∀ i, n'.testBit i = (n.testBit i && !(decide (i = c)))) :
    onesBelow w n' + 1 = onesBelow w n := by
  unfold onesBelow bitsBelow
  have : (List.range w).filter (fun i => n'.testBit i)
      = ((List.range w).filter (fun i => n.testBit i)).filter (fun i => !(decide (i = c))) := by
    rw [List.filter_filter]
    exact List.filter_congr (fun i _ => by rw [h i, Bool.and_comm])
  rw [this]
  have hcmem : c ∈ (List.range w).filter (fun i => n.testBit i) := by
    simp [List.mem_filter, List.mem_range, hc, hb]
  have hnd : ((List.range w).filter (fun i => n.testBit i)).Nodup :=
    (List.nodup_range w).filter _
  have herase : ((List.range w).filter (fun i => n.testBit i)).filter (fun i => !(decide (i = c)))
      = ((List.range w).filter (fun i => n.testBit i)).erase c := by
    rw [List.Nodup.erase_eq_filter hnd]
    exact List.filter_congr (fun i _ => by
      cases Nat.decEq i c with
      | isTrue h => subst h; simp
      | isFalse h => simp [h])
  rw [herase, List.length_erase_of_mem hcmem]
  have : 0 < ((List.range w).filter (fun i => n.testBit i)).length :=
    List.length_pos.2 (List.ne_nil_of_mem hcmem)
  omega

theorem allAllowed_testBit : ∀ i : Nat, allAllowed.testBit i = true ↔ (1 ≤ i ∧ i ≤ 9) := by
  have hsmall : ∀ i, i < 16 → (allAllowed.testBit i = true ↔ (1 ≤ i ∧ i ≤ 9)) := by decide
  intro i
  by_cases hi : i < 16
  · exact hsmall i hi
  · have : allAllowed.testBit i = false :=
      testBit_false_of_ge (w := 10) (by norm_num [allAllowed]) (by omega)
    rw [this]
    constructor
    · intro h; exact absurd h Bool.false_ne_true
    · intro h; omega

/-- A mask contained in `allAllowed` is at most `0b1111111110`. -/
theorem le_of_maskSub {m : Nat} (h : ∀ i, m.testBit i = true → allAllowed.testBit i = true) :
    m ≤ allAllowed := by
  have : m &&& allAllowed = m := by
    apply Nat.eq_of_testBit_eq
    intro i
    rw [Nat.testBit_land]
    cases hb : m.testBit i with
    | false => simp
    | true => simp [h i hb]
  calc m = m &&& allAllowed := this.symm
    _ ≤ allAllowed := Nat.and_le_right

set_option maxRecDepth 40000 in
theorem isOneAllowed_char : ∀ m, m < 1024 → (isOneAllowed m = true ↔ ∃ k, k < 10 ∧ m = 2 ^ k) := by
  decide

theorem trailingZeros16_pow : ∀ k, k < 16 → trailingZeros16 (2 ^ k) = k := by
  decide

theorem allowedNextUnwrap_pow : ∀ k, 1 ≤ k → k < 16 →
    allowedNextUnwrap (2 ^ k) = some k := by
  decide

theorem allowedForList_pow : ∀ k, 1 ≤ k → k < 16 → allowedForList (2 ^ k) = [k] := by
  decide

theorem testBit_pow_self {k n : Nat} : (2 ^ k).testBit n = true ↔ n = k := by
  rw [Nat.testBit_two_pow]
  simp [eq_comm]

/-! ## Region masks and cell units -/

/-- Cells sharing a column, row or box constrain each other. -/
def sameUnit (i j : Nat) : Prop :=
  colOf i = colOf j ∨ rowOf i = rowOf j ∨ boxOf i = boxOf j

instance (i j : Nat) : Decidable (sameUnit i j) := by
  unfold sameUnit; infer_instance

theorem colMaskOf_testBit {c : Nat} (hc : c < 81) (j : Nat) :
    (colMaskOf c).testBit j = (decide (j < 81) && decide (colOf j = colOf c)) := by
  have h9 : c % 9 < 9 := Nat.mod_lt _ (by norm_num)
  by_cases hj : j < 128
  · have key : ∀ x, x < 9 → ∀ j, j < 128 →
        ((0b000000001000000001000000001000000001000000001000000001000000001000000001000000001 : Nat)
          <<< x).testBit j = (decide (j < 81) && decide (j % 9 = x)) := by decide
    have := key (c % 9) h9 j hj
    simpa [colMaskOf, colOf] using this
  · have hb : ∀ x, x < 9 →
        ((0b000000001000000001000000001000000001000000001000000001000000001000000001000000001 : Nat)
          <<< x) < 2 ^ 128 := by decide
    have : (colMaskOf c).testBit j = false := by
      apply testBit_false_of_ge (w := 128) _ (by omega)
      simpa [colMaskOf, colOf] using hb (c % 9) h9
    rw [this]
    have : ¬(j < 81) := by omega
    simp [this]

theorem rowMaskOf_testBit {c : Nat} (hc : c < 81) (j : Nat) :
    (rowMaskOf c).testBit j = (decide (j < 81) && decide (rowOf j = rowOf c)) := by
  have h9 : c / 9 < 9 := by omega
  by_cases hj : j < 128
  · have key : ∀ y, y < 9 → ∀ j, j < 128 →
        ((0b111111111 : Nat) <<< (9 * y)).testBit j = (decide (j < 81) && decide (j / 9 = y)) := by
      decide
    have := key (c / 9) h9 j hj
    simpa [rowMaskOf, rowOf] using this
  · have hb : ∀ y, y < 9 → ((0b111111111 : Nat) <<< (9 * y)) < 2 ^ 128 := by decide
    have : (rowMaskOf c).testBit j = false := by
      apply testBit_false_of_ge (w := 128) _ (by omega)
      simpa [rowMaskOf, rowOf] using hb (c / 9) h9
    rw [this]
    have : ¬(j < 81) := by omega
    simp [this]

theorem boxMaskOf_testBit {c : Nat} (hc : c < 81) (j : Nat) :
    (boxMaskOf c).testBit j = (decide (j < 81) && decide (boxOf j = boxOf c)) := by
  have ha : c % 9 / 3 < 3 := by omega
  have hb9 : c / 9 / 3 < 3 := by omega
  by_cases hj : j < 128
  · have key : ∀ a, a < 3 → ∀ b, b < 3 → ∀ j, j < 128 →
        ((0b111000000111000000111 : Nat) <<< (3 * a + 27 * b)).testBit j
          = (decide (j < 81) && decide (3 * (j / 9 / 3) + j % 9 / 3 = 3 * b + a)) := by
      decide
    have := key (c % 9 / 3) ha (c / 9 / 3) hb9 j hj
    have hbox : boxOf c = 3 * (c / 9 / 3) + c % 9 / 3 := by
      simp [boxOf, rowOf, colOf]
    simpa [boxMaskOf, colOf, rowOf, boxOf] using this
  · have hb : ∀ a, a < 3 → ∀ b, b < 3 →
        ((0b111000000111000000111 : Nat) <<< (3 * a + 27 * b)) < 2 ^ 128 := by decide
    have : (boxMaskOf c).testBit j = false := by
      apply testBit_false_of_ge (w := 128) _ (by omega)
      simpa [boxMaskOf, colOf, rowOf] using hb (c % 9 / 3) ha (c / 9 / 3) hb9
    rw [this]
    have : ¬(j < 81) := by omega
    simp [this]

/-- The union of the three region masks of `c` covers exactly the cells
sharing a unit with `c`. -/
theorem unitMasks_testBit {c : Nat} (hc : c < 81) (j : Nat) :
    (colMaskOf c ||| rowMaskOf c ||| boxMaskOf c).testBit j
      = (decide (j < 81) && decide (sameUnit j c)) := by
  rw [Nat.testBit_lor, Nat.testBit_lor, colMaskOf_testBit hc, rowMaskOf_testBit hc,
    boxMaskOf_testBit hc]
  by_cases hj : j < 81
  · by_cases h1 : colOf j = colOf c <;> by_cases h2 : rowOf j = rowOf c <;>
      by_cases h3 : boxOf j = boxOf c <;> simp [hj, sameUnit, h1, h2, h3]
  · simp [hj]

/-! ## State invariants -/

theorem U128MAX_testBit (j : Nat) : U128MAX.testBit j = decide (j < 128) := by
  unfold U128MAX
  exact Nat.testBit_two_pow_sub_one 128 j

/-- Masks only ever hold number bits 1..9. -/
def MaskSub (m : Nat) : Prop :=
  ∀ i, m.testBit i = true → allAllowed.testBit i = true

theorem maskSub_le {m : Nat} (h : MaskSub m) : m ≤ allAllowed := le_of_maskSub h

theorem maskSub_allAllowed : MaskSub allAllowed := fun _ h => h

theorem maskSub_land_left {a b : Nat} (h : MaskSub a) : MaskSub (a &&& b) := by
  intro i hi
  rw [Nat.testBit_land] at hi
  exact h i (Bool.and_elim_left hi)

/-- Basic structural invariant of a `BookkeptBoard`: the open bitset fits
in 81 bits and mirrors the empty cells, the dirty bitset is a subset of
the open bitset, and the 27 masks hold only bits 1..9. -/
structure Binv (s : BookkeptBoard) : Prop where
  openLt : s.openSpaces < 2 ^ 81
  openIff : ∀ i, i < 81 → (s.board i = Space.Empty ↔ s.openSpaces.testBit i = true)
  updSub : ∀ i, s.updatedAllows.testBit i = true → s.openSpaces.testBit i = true
  colSub : ∀ k, MaskSub (s.colAllowed k)
  rowSub : ∀ k, MaskSub (s.rowAllowed k)
  boxSub : ∀ k, MaskSub (s.boxAllowed k)

/-- Every open cell whose effective candidate set is empty or a
singleton is marked dirty.  This is the bookkeeping property that makes
quiescence of `make_forced_choices` meaningful. -/
def DirtyInv (s : BookkeptBoard) : Prop :=
  ∀ i, i < 81 → s.openSpaces.testBit i = true →
    (allowedMask s i = 0 ∨ isOneAllowed (allowedMask s i) = true) →
    s.updatedAllows.testBit i = true

/-- The 27 masks reflect the board exactly: number `n` is allowed in a
line iff `n` is in range and not yet placed on that line. -/
structure MaskInv (s : BookkeptBoard) : Prop where
  col : ∀ k n, (s.colAllowed k).testBit n = true ↔
    (1 ≤ n ∧ n ≤ 9 ∧ ∀ i, i < 81 → colOf i = k → s.board i ≠ Space.Full n)
  row : ∀ k n, (s.rowAllowed k).testBit n = true ↔
    (1 ≤ n ∧ n ≤ 9 ∧ ∀ i, i < 81 → rowOf i = k → s.board i ≠ Space.Full n)
  box : ∀ k n, (s.boxAllowed k).testBit n = true ↔
    (1 ≤ n ∧ n ≤ 9 ∧ ∀ i, i < 81 → boxOf i = k → s.board i ≠ Space.Full n)

/-- No unit of the board carries the same number twice. -/
def NoTwo (b : Board) : Prop :=
  ∀ i j n, i < 81 → j < 81 → i ≠ j → sameUnit i j →
    b i = Space.Full n → b j ≠ Space.Full n

/-- All numbers on the board are in 1..9. -/
def ValRange (b : Board) : Prop :=
  ∀ i n, i < 81 → b i = Space.Full n → 1 ≤ n ∧ n ≤ 9

theorem MaskInv.maskSubCol {s : BookkeptBoard} (h : MaskInv s) (k : Nat) :
    MaskSub (s.colAllowed k) := by
  intro i hi
  rcases (h.col k i).1 hi with ⟨h1, h2, _⟩
  exact (allAllowed_testBit i).2 ⟨h1, h2⟩

/-- The effective candidate set at a cell, via `MaskInv`: a number is
allowed iff it is in 1..9 and not placed in any unit of the cell. -/
theorem allowedMask_char {s : BookkeptBoard} (hM : MaskInv s) {c : Nat} (hc : c < 81) (n : Nat) :
    (allowedMask s c).testBit n = true ↔
      (1 ≤ n ∧ n ≤ 9 ∧ ∀ i, i < 81 → sameUnit i c → s.board i ≠ Space.Full n) := by
  unfold allowedMask
  rw [Nat.testBit_land, Nat.testBit_land, Bool.and_eq_true, Bool.and_eq_true,
    hM.col (colOf c) n, hM.row (rowOf c) n, hM.box (boxOf c) n]
  constructor
  · rintro ⟨⟨⟨h1, h2, hcol⟩, ⟨_, _, hrow⟩⟩, ⟨_, _, hbox⟩⟩
    refine ⟨h1, h2, ?_⟩
    intro i hi hu
    rcases hu with h | h | h
    · exact hcol i hi h
    · exact hrow i hi h
    · exact hbox i hi h
  · rintro ⟨h1, h2, hall⟩
    exact ⟨⟨⟨h1, h2, fun i hi h => hall i hi (Or.inl h)⟩,
      ⟨h1, h2, fun i hi h => hall i hi (Or.inr (Or.inl h))⟩⟩,
      ⟨h1, h2, fun i hi h => hall i hi (Or.inr (Or.inr h))⟩⟩

theorem allowedMask_maskSub {s : BookkeptBoard} (hB : Binv s) (c : Nat) :
    MaskSub (allowedMask s c) := by
  unfold allowedMask
  exact maskSub_land_left (maskSub_land_left (hB.colSub (colOf c)))

theorem allowedMask_testBit0 {s : BookkeptBoard} (hB : Binv s) (c : Nat) :
    (allowedMask s c).testBit 0 = false := by
  cases h : (allowedMask s c).testBit 0 with
  | false => rfl
  | true =>
    have := allowedMask_maskSub hB c 0 h
    rw [allAllowed_testBit] at this
    omega

theorem allowedMask_lt {s : BookkeptBoard} (hB : Binv s) (c : Nat) :
    allowedMask s c < 1024 :=
  lt_of_le_of_lt (maskSub_le (allowedMask_maskSub hB c)) (by norm_num [allAllowed])

/-! ## Effect of `fill` on the state -/

theorem shiftLeft_mod_u128 {c : Nat} (hc : c < 128) : (1 <<< c) % 2 ^ 128 = 2 ^ c := by
  rw [Nat.shiftLeft_eq, one_mul]
  exact Nat.mod_eq_of_lt (Nat.pow_lt_pow_right (by norm_num) hc)

theorem fillRaw_board_apply (s : BookkeptBoard) (c num i : Nat) :
    (fillRaw s c num).board i = if i = c then Space.Full num else s.board i := by
  simp only [fillRaw]
  rw [Function.update_apply]

theorem fillRaw_open_testBit {s : BookkeptBoard} (hopen : s.openSpaces < 2 ^ 81)
    {c : Nat} (hc : c < 81) (num j : Nat) :
    (fillRaw s c num).openSpaces.testBit j = (s.openSpaces.testBit j && !(decide (j = c))) := by
  have hproj : (fillRaw s c num).openSpaces
      = s.openSpaces &&& (U128MAX ^^^ ((1 <<< c) % 2 ^ 128)) := rfl
  rw [hproj, shiftLeft_mod_u128 (by omega), Nat.testBit_land, Nat.testBit_xor,
    U128MAX_testBit, Nat.testBit_two_pow]
  by_cases hj : j < 128
  · have : (decide (j < 128)).xor (decide (c = j)) = !(decide (j = c)) := by
      by_cases h : j = c
      · subst h; simp [hj]
      · have h' : ¬(c = j) := fun hx => h hx.symm
        simp [hj, h, h']
    rw [this]
  · have h1 : s.openSpaces.testBit j = false :=
      testBit_false_of_ge hopen (by omega)
    rw [h1]
    simp

theorem fillRaw_openLt {s : BookkeptBoard} (hopen : s.openSpaces < 2 ^ 81) (c num : Nat) :
    (fillRaw s c num).openSpaces < 2 ^ 81 := by
  have hproj : (fillRaw s c num).openSpaces
      = s.openSpaces &&& (U128MAX ^^^ ((1 <<< c) % 2 ^ 128)) := rfl
  rw [hproj]
  exact lt_of_le_of_lt Nat.and_le_left hopen

theorem fillRaw_upd_testBit {s : BookkeptBoard} (hopen : s.openSpaces < 2 ^ 81)
    {c : Nat} (hc : c < 81) (num j : Nat) :
    (fillRaw s c num).updatedAllows.testBit j
      = ((s.updatedAllows.testBit j || (decide (j < 81) && decide (sameUnit j c)))
          && (fillRaw s c num).openSpaces.testBit j) := by
  have hproj : (fillRaw s c num).updatedAllows
      = (((s.updatedAllows ||| colMaskOf c) ||| rowMaskOf c) ||| boxMaskOf c)
          &&& (fillRaw s c num).openSpaces := rfl
  rw [hproj, Nat.testBit_land, Nat.testBit_lor, Nat.testBit_lor, Nat.testBit_lor]
  congr 1
  simp only [Bool.or_assoc]
  congr 1
  rw [← Bool.or_assoc, ← Nat.testBit_lor, ← Nat.testBit_lor]
  exact unitMasks_testBit hc j

/-- For numbers in range, `disallow` clears exactly the number's bit of a
well-formed mask. -/
theorem disallow_testBit {m : Nat} (hm : MaskSub m) {num : Nat}
    (h1 : 1 ≤ num) (h9 : num ≤ 9) (i : Nat) :
    (disallow m num).testBit i = (m.testBit i && !(decide (i = num))) := by
  unfold disallow getMask
  have hmod : num % 16 = num := Nat.mod_eq_of_lt (by omega)
  rw [hmod, Nat.testBit_land, Nat.testBit_xor]
  have h65535 : (65535 : Nat) = 2 ^ 16 - 1 := by norm_num
  rw [h65535, Nat.testBit_two_pow_sub_one, Nat.shiftLeft_eq, one_mul, Nat.testBit_two_pow]
  by_cases hi : i < 16
  · have : (decide (i < 16)).xor (decide (num = i)) = !(decide (i = num)) := by
      by_cases h : i = num
      · subst h; simp [hi]
      · have h' : ¬(num = i) := fun hx => h hx.symm
        simp [hi, h, h']
    rw [this]
  · have hfalse : m.testBit i = false := by
      cases hb : m.testBit i with
      | false => rfl
      | true =>
        have := hm i hb
        rw [allAllowed_testBit] at this
        omega
    rw [hfalse]
    simp

/-- `disallow` never adds bits (for any number). -/
theorem disallow_sub {m num i : Nat} (h : (disallow m num).testBit i = true) :
    m.testBit i = true := by
  unfold disallow at h
  rw [Nat.testBit_land] at h
  exact Bool.and_elim_left h

theorem fillRaw_colAllowed_apply (s : BookkeptBoard) (c num k : Nat) :
    (fillRaw s c num).colAllowed k
      = if k = colOf c then disallow (s.colAllowed (colOf c)) num else s.colAllowed k := by
  have hproj : (fillRaw s c num).colAllowed
      = Function.update s.colAllowed (colOf c) (disallow (s.colAllowed (colOf c)) num) := rfl
  rw [hproj, Function.update_apply]

theorem fillRaw_rowAllowed_apply (s : BookkeptBoard) (c num k : Nat) :
    (fillRaw s c num).rowAllowed k
      = if k = rowOf c then disallow (s.rowAllowed (rowOf c)) num else s.rowAllowed k := by
  have hproj : (fillRaw s c num).rowAllowed
      = Function.update s.rowAllowed (rowOf c) (disallow (s.rowAllowed (rowOf c)) num) := rfl
  rw [hproj, Function.update_apply]

theorem fillRaw_boxAllowed_apply (s : BookkeptBoard) (c num k : Nat) :
    (fillRaw s c num).boxAllowed k
      = if k = boxOf c then disallow (s.boxAllowed (boxOf c)) num else s.boxAllowed k := by
  have hproj : (fillRaw s c num).boxAllowed
      = Function.update s.boxAllowed (boxOf c) (disallow (s.boxAllowed (boxOf c)) num) := rfl
  rw [hproj, Function.update_apply]

/-- Filling a cell leaves the effective candidates of cells outside its
units untouched. -/
theorem allowedMask_fillRaw_far {s : BookkeptBoard} {c i : Nat} (h : ¬sameUnit i c) (num : Nat) :
    allowedMask (fillRaw s c num) i = allowedMask s i := by
  have h1 : ¬(colOf i = colOf c) := fun hx => h (Or.inl hx)
  have h2 : ¬(rowOf i = rowOf c) := fun hx => h (Or.inr (Or.inl hx))
  have h3 : ¬(boxOf i = boxOf c) := fun hx => h (Or.inr (Or.inr hx))
  unfold allowedMask
  rw [fillRaw_colAllowed_apply, fillRaw_rowAllowed_apply, fillRaw_boxAllowed_apply,
    if_neg h1, if_neg h2, if_neg h3]

/-- Filling a cell only shrinks effective candidate sets. -/
theorem allowedMask_fillRaw_sub {s : BookkeptBoard} (c num i n : Nat)
    (h : (allowedMask (fillRaw s c num) i).testBit n = true) :
    (allowedMask s i).testBit n = true := by
  unfold allowedMask at h ⊢
  rw [Nat.testBit_land, Nat.testBit_land, Bool.and_eq_true, Bool.and_eq_true] at h ⊢
  rcases h with ⟨⟨hcol, hrow⟩, hbox⟩
  refine ⟨⟨?_, ?_⟩, ?_⟩
  · rw [fillRaw_colAllowed_apply] at hcol
    by_cases hk : colOf i = colOf c
    · rw [if_pos hk] at hcol; rw [hk]; exact disallow_sub hcol
    · rwa [if_neg hk] at hcol
  · rw [fillRaw_rowAllowed_apply] at hrow
    by_cases hk : rowOf i = rowOf c
    · rw [if_pos hk] at hrow; rw [hk]; exact disallow_sub hrow
    · rwa [if_neg hk] at hrow
  · rw [fillRaw_boxAllowed_apply] at hbox
    by_cases hk : boxOf i = boxOf c
    · rw [if_pos hk] at hbox; rw [hk]; exact disallow_sub hbox
    · rwa [if_neg hk] at hbox

theorem sameUnit_symm {i j : Nat} (h : sameUnit i j) : sameUnit j i := by
  rcases h with h | h | h
  · exact Or.inl h.symm
  · exact Or.inr (Or.inl h.symm)
  · exact Or.inr (Or.inr h.symm)

theorem fill_eq_some {s : BookkeptBoard} {c num : Nat} {s' : BookkeptBoard} :
    fill s c num = some s' ↔ (c < 81 ∧ s.board c = Space.Empty ∧ s' = fillRaw s c num) := by
  unfold fill
  by_cases h81 : 81 ≤ c
  · simp only [if_pos h81]
    constructor
    · intro h; exact absurd h (by simp)
    · rintro ⟨hlt, _, _⟩; omega
  · by_cases hemp : s.board c = Space.Empty
    · simp only [if_neg h81, if_pos hemp, Option.some.injEq]
      constructor
      · intro h; exact ⟨by omega, hemp, h.symm⟩
      · rintro ⟨_, _, h⟩; exact h.symm
    · simp only [if_neg h81, if_neg hemp]
      constructor
      · intro h; exact absurd h (by simp)
      · rintro ⟨_, h, _⟩; exact absurd h hemp

theorem Binv_fillRaw {s : BookkeptBoard} (hB : Binv s) {c : Nat} (hc : c < 81)
    (hemp : s.board c = Space.Empty) (num : Nat) : Binv (fillRaw s c num) := by
  refine ⟨fillRaw_openLt hB.openLt c num, ?_, ?_, ?_, ?_, ?_⟩
  · intro i hi
    rw [fillRaw_board_apply, fillRaw_open_testBit hB.openLt hc]
    by_cases h : i = c
    · simp [h]
    · simp only [if_neg h, decide_eq_true_eq]
      rw [hB.openIff i hi]
      simp [h]
  · intro i hup
    rw [fillRaw_upd_testBit hB.openLt hc] at hup
    exact Bool.and_elim_right hup
  · intro k
    rw [fillRaw_colAllowed_apply]
    by_cases h : k = colOf c
    · rw [if_pos h]
      exact fun i hi => hB.colSub (colOf c) i (disallow_sub hi)
    · rw [if_neg h]
      exact hB.colSub k
  · intro k
    rw [fillRaw_rowAllowed_apply]
    by_cases h : k = rowOf c
    · rw [if_pos h]
      exact fun i hi => hB.rowSub (rowOf c) i (disallow_sub hi)
    · rw [if_neg h]
      exact hB.rowSub k
  · intro k
    rw [fillRaw_boxAllowed_apply]
    by_cases h : k = boxOf c
    · rw [if_pos h]
      exact fun i hi => hB.boxSub (boxOf c) i (disallow_sub hi)
    · rw [if_neg h]
      exact hB.boxSub k

theorem DirtyInv_fillRaw {s : BookkeptBoard} (hB : Binv s) (hD : DirtyInv s) {c : Nat}
    (hc : c < 81) (num : Nat) : DirtyInv (fillRaw s c num) := by
  intro i hi hopen hmask
  have hopen' := hopen
  rw [fillRaw_open_testBit hB.openLt hc, Bool.and_eq_true] at hopen'
  rcases hopen' with ⟨hob, hne⟩
  rw [fillRaw_upd_testBit hB.openLt hc, Bool.and_eq_true]
  refine ⟨?_, hopen⟩
  by_cases hu : sameUnit i c
  · simp [hi, hu]
  · have hfar := @allowedMask_fillRaw_far s _ _ hu num
    rw [hfar] at hmask
    have := hD i hi hob hmask
    simp [this]

theorem openSub_fillRaw {s : BookkeptBoard} (hB : Binv s) {c : Nat} (hc : c < 81) (num : Nat) :
    ∀ j, (fillRaw s c num).openSpaces.testBit j = true → s.openSpaces.testBit j = true := by
  intro j h
  rw [fillRaw_open_testBit hB.openLt hc] at h
  exact Bool.and_elim_left h

theorem openCount_fillRaw {s : BookkeptBoard} (hB : Binv s) {c : Nat} (hc : c < 81)
    (hemp : s.board c = Space.Empty) (num : Nat) :
    onesBelow 128 (fillRaw s c num).openSpaces + 1 = onesBelow 128 s.openSpaces := by
  apply onesBelow_clear_bit (c := c) (by omega) ((hB.openIff c hc).1 hemp)
  exact fun i => fillRaw_open_testBit hB.openLt hc num i

theorem board_mono_fillRaw (s : BookkeptBoard) (c num : Nat)
    (hemp : s.board c = Space.Empty) :
    ∀ i, s.board i ≠ Space.Empty → (fillRaw s c num).board i = s.board i := by
  intro i hfull
  rw [fillRaw_board_apply]
  by_cases h : i = c
  · subst h; exact absurd hemp hfull
  · rw [if_neg h]

theorem MaskInv.maskSubRow {s : BookkeptBoard} (h : MaskInv s) (k : Nat) :
    MaskSub (s.rowAllowed k) := by
  intro i hi
  rcases (h.row k i).1 hi with ⟨h1, h2, _⟩
  exact (allAllowed_testBit i).2 ⟨h1, h2⟩

theorem MaskInv.maskSubBox {s : BookkeptBoard} (h : MaskInv s) (k : Nat) :
    MaskSub (s.boxAllowed k) := by
  intro i hi
  rcases (h.box k i).1 hi with ⟨h1, h2, _⟩
  exact (allAllowed_testBit i).2 ⟨h1, h2⟩

/-- Generic preservation of one mask-family invariant (columns, rows or
boxes) under a fill: the filled cell's unit loses the number's bit, all
other units are untouched. -/
theorem maskComponent_update {b : Board} {oldMask unitOf : Nat → Nat} {c num : Nat}
    (hc : c < 81) (h1 : 1 ≤ num) (h9 : num ≤ 9) (hemp : b c = Space.Empty)
    (hsub : MaskSub (oldMask (unitOf c)))
    (hInv : ∀ k n, (oldMask k).testBit n = true ↔
      (1 ≤ n ∧ n ≤ 9 ∧ ∀ i, i < 81 → unitOf i = k → b i ≠ Space.Full n)) :
    ∀ k n, ((Function.update oldMask (unitOf c) (disallow (oldMask (unitOf c)) num)) k).testBit n
        = true ↔
      (1 ≤ n ∧ n ≤ 9 ∧ ∀ i, i < 81 → unitOf i = k →
        Function.update b c (Space.Full num) i ≠ Space.Full n) := by
  intro k n
  rw [Function.update_apply]
  by_cases hk : k = unitOf c
  · rw [if_pos hk, disallow_testBit hsub h1 h9, Bool.and_eq_true, hInv (unitOf c) n]
    have hbconv : ((!decide (n = num)) = true) ↔ n ≠ num := by simp
    rw [hbconv]
    constructor
    · rintro ⟨⟨ha, hb, hold⟩, hne⟩
      refine ⟨ha, hb, ?_⟩
      intro i hi hik
      rw [Function.update_apply]
      by_cases h : i = c
      · rw [if_pos h]
        intro hcon
        injection hcon with hv
        exact hne hv.symm
      · rw [if_neg h]
        rw [hk] at hik
        exact hold i hi hik
    · rintro ⟨ha, hb, hnew⟩
      have hcc := hnew c hc hk.symm
      rw [Function.update_apply, if_pos rfl] at hcc
      have hne : n ≠ num := fun h => hcc (by rw [h])
      refine ⟨⟨ha, hb, ?_⟩, hne⟩
      intro i hi hik
      have hx := hnew i hi (by rw [hk]; exact hik)
      rw [Function.update_apply] at hx
      by_cases h : i = c
      · subst h
        rw [hemp]
        intro hcon
        exact Space.noConfusion hcon
      · rwa [if_neg h] at hx
  · rw [if_neg hk, hInv k n]
    have hcne : ∀ i, unitOf i = k → i ≠ c := by
      intro i hik hcon
      subst hcon
      exact hk hik.symm
    constructor
    · rintro ⟨ha, hb, hold⟩
      refine ⟨ha, hb, ?_⟩
      intro i hi hik
      rw [Function.update_apply, if_neg (hcne i hik)]
      exact hold i hi hik
    · rintro ⟨ha, hb, hnew⟩
      refine ⟨ha, hb, ?_⟩
      intro i hi hik
      have hx := hnew i hi hik
      rwa [Function.update_apply, if_neg (hcne i hik)] at hx

theorem MaskInv_fillRaw {s : BookkeptBoard} (hM : MaskInv s) {c num : Nat} (hc : c < 81)
    (hemp : s.board c = Space.Empty) (h1 : 1 ≤ num) (h9 : num ≤ 9) :
    MaskInv (fillRaw s c num) := by
  refine ⟨?_, ?_, ?_⟩
  · intro k n
    rw [fillRaw_colAllowed_apply]
    have := @maskComponent_update s.board _ colOf _ _ hc h1 h9 hemp
      (hM.maskSubCol (colOf c)) hM.col k n
    rw [Function.update_apply] at this
    rw [this]
    constructor
    · rintro ⟨ha, hb, hnew⟩
      exact ⟨ha, hb, fun i hi hik => by
        rw [fillRaw_board_apply]
        have := hnew i hi hik
        rwa [Function.update_apply] at this⟩
    · rintro ⟨ha, hb, hnew⟩
      exact ⟨ha, hb, fun i hi hik => by
        rw [Function.update_apply]
        have := hnew i hi hik
        rwa [fillRaw_board_apply] at this⟩
  · intro k n
    rw [fillRaw_rowAllowed_apply]
    have := @maskComponent_update s.board _ rowOf _ _ hc h1 h9 hemp
      (hM.maskSubRow (rowOf c)) hM.row k n
    rw [Function.update_apply] at this
    rw [this]
    constructor
    · rintro ⟨ha, hb, hnew⟩
      exact ⟨ha, hb, fun i hi hik => by
        rw [fillRaw_board_apply]
        have := hnew i hi hik
        rwa [Function.update_apply] at this⟩
    · rintro ⟨ha, hb, hnew⟩
      exact ⟨ha, hb, fun i hi hik => by
        rw [Function.update_apply]
        have := hnew i hi hik
        rwa [fillRaw_board_apply] at this⟩
  · intro k n
    rw [fillRaw_boxAllowed_apply]
    have := @maskComponent_update s.board _ boxOf _ _ hc h1 h9 hemp
      (hM.maskSubBox (boxOf c)) hM.box k n
    rw [Function.update_apply] at this
    rw [this]
    constructor
    · rintro ⟨ha, hb, hnew⟩
      exact ⟨ha, hb, fun i hi hik => by
        rw [fillRaw_board_apply]
        have := hnew i hi hik
        rwa [Function.update_apply] at this⟩
    · rintro ⟨ha, hb, hnew⟩
      exact ⟨ha, hb, fun i hi hik => by
        rw [Function.update_apply]
        have := hnew i hi hik
        rwa [fillRaw_board_apply] at this⟩

theorem NoTwo_fillRaw {s : BookkeptBoard} (hM : MaskInv s) (hN : NoTwo s.board)
    {c num : Nat} (hc : c < 81) (hbit : (allowedMask s c).testBit num = true) :
    NoTwo (fillRaw s c num).board := by
  rcases (allowedMask_char hM hc num).1 hbit with ⟨h1, h9, hfree⟩
  intro i j n hi hj hij hu hfi
  rw [fillRaw_board_apply] at hfi ⊢
  by_cases hic : i = c
  · rw [if_pos hic] at hfi
    injection hfi with hv
    have hjc : j ≠ c := fun h => hij (hic.trans h.symm)
    rw [if_neg hjc, ← hv]
    apply hfree j hj
    have hs : sameUnit j i := sameUnit_symm hu
    rwa [hic] at hs
  · rw [if_neg hic] at hfi
    by_cases hjc : j = c
    · rw [if_pos hjc]
      intro hcon
      injection hcon with hv
      rw [hjc] at hu
      rw [← hv] at hfi
      exact hfree i hi hu hfi
    · rw [if_neg hjc]
      exact hN i j n hi hj hij hu hfi

theorem ValRange_fillRaw {s : BookkeptBoard} (hV : ValRange s.board)
    {c num : Nat} (h1 : 1 ≤ num) (h9 : num ≤ 9) :
    ValRange (fillRaw s c num).board := by
  intro i n hi hfi
  rw [fillRaw_board_apply] at hfi
  by_cases h : i = c
  · rw [if_pos h] at hfi
    injection hfi with hv
    omega
  · rw [if_neg h] at hfi
    exact hV i n hi hfi

/-! ## The propagation pass -/

theorem singleMask_eq_pow {m : Nat} (hsub : MaskSub m) (h : isOneAllowed m = true) :
    ∃ k, 1 ≤ k ∧ k ≤ 9 ∧ m = 2 ^ k := by
  have hlt : m < 1024 := lt_of_le_of_lt (maskSub_le hsub) (by norm_num [allAllowed])
  rcases (isOneAllowed_char m hlt).1 h with ⟨k, hk, hm⟩
  have hbit : m.testBit k = true := by
    rw [hm]
    exact testBit_pow_self.2 rfl
  have := hsub k hbit
  rw [allAllowed_testBit] at this
  exact ⟨k, this.1, this.2, hm⟩

theorem passGo_cons (u : Nat) (rest : List Nat) (s : BookkeptBoard) :
    passGo (u :: rest) s =
      if 81 ≤ u then none
      else if areNoneAllowed (allowedMask s u) then some none
      else if isOneAllowed (allowedMask s u) then
        match allowedNextUnwrap (allowedMask s u) with
        | none => none
        | some num =>
          match fill s u num with
          | none => none
          | some s' => passGo rest s'
      else passGo rest s := rfl

/-- In the single-candidate case of the pass, the forced number is
well-defined and the fill goes through. -/
theorem pass_forced {s : BookkeptBoard} (hB : Binv s) {u : Nat} (hu : u < 81)
    (hopen : s.openSpaces.testBit u = true)
    (hone : isOneAllowed (allowedMask s u) = true) :
    ∃ num, 1 ≤ num ∧ num ≤ 9 ∧ allowedMask s u = 2 ^ num ∧
      allowedNextUnwrap (allowedMask s u) = some num ∧
      fill s u num = some (fillRaw s u num) ∧
      (allowedMask s u).testBit num = true := by
  rcases singleMask_eq_pow (allowedMask_maskSub hB u) hone with ⟨num, h1, h9, hm⟩
  refine ⟨num, h1, h9, hm, ?_, ?_, ?_⟩
  · rw [hm]
    exact allowedNextUnwrap_pow num h1 (by omega)
  · rw [fill_eq_some.2 ⟨hu, ((hB.openIff u hu).2 hopen), rfl⟩]
  · rw [hm]
    exact testBit_pow_self.2 rfl

/-- Main specification of one drain pass: it never panics, and on the
continue path it preserves the basic invariant, only removes open bits,
only fills empty cells, only shrinks candidate sets, and either leaves
the state untouched or strictly decreases the open-cell count. -/
theorem passGo_spec : ∀ (l : List Nat) (s : BookkeptBoard),
    Binv s → l.Nodup → (∀ u ∈ l, u < 81 ∧ s.openSpaces.testBit u = true) →
    passGo l s ≠ none ∧
    (∀ s', passGo l s = some (some s') →
      Binv s' ∧
      (s' = s ∨ onesBelow 128 s'.openSpaces < onesBelow 128 s.openSpaces) ∧
      (∀ j, s'.openSpaces.testBit j = true → s.openSpaces.testBit j = true) ∧
      (∀ i, s.board i ≠ Space.Empty → s'.board i = s.board i) ∧
      (∀ i n, (allowedMask s' i).testBit n = true → (allowedMask s i).testBit n = true)) := by
  intro l
  induction l with
  | nil =>
    intro s hB _ _
    refine ⟨by simp [passGo], ?_⟩
    intro s' h
    simp only [passGo, Option.some.injEq] at h
    subst h
    exact ⟨hB, Or.inl rfl, fun j h => h, fun i _ => rfl, fun i n h => h⟩
  | cons u rest ih =>
    intro s hB hnd hmem
    rcases hmem u (by simp) with ⟨hu81, huopen⟩
    have h81 : ¬(81 ≤ u) := by omega
    rw [passGo_cons, if_neg h81]
    by_cases hzero : areNoneAllowed (allowedMask s u) = true
    · rw [if_pos hzero]
      exact ⟨by simp, fun s' h => by simp at h⟩
    · rw [if_neg hzero]
      by_cases hone : isOneAllowed (allowedMask s u) = true
      · rw [if_pos hone]
        rcases pass_forced hB hu81 huopen hone with ⟨num, h1, h9, hm, hnext, hfill, hbit⟩
        rw [hnext]
        simp only []
        rw [hfill]
        simp only []
        have hemp : s.board u = Space.Empty := (hB.openIff u hu81).2 huopen
        have hB' : Binv (fillRaw s u num) := Binv_fillRaw hB hu81 hemp num
        have hndr : rest.Nodup := (List.nodup_cons.1 hnd).2
        have hnotmem : u ∉ rest := (List.nodup_cons.1 hnd).1
        have hmem' : ∀ v ∈ rest, v < 81 ∧ (fillRaw s u num).openSpaces.testBit v = true := by
          intro v hv
          rcases hmem v (by simp [hv]) with ⟨hv81, hvopen⟩
          refine ⟨hv81, ?_⟩
          rw [fillRaw_open_testBit hB.openLt hu81]
          have hvu : v ≠ u := fun h => hnotmem (h ▸ hv)
          simp [hvopen, hvu]
        rcases ih (fillRaw s u num) hB' hndr hmem' with ⟨hnp, hrest⟩
        refine ⟨hnp, ?_⟩
        intro s' h
        rcases hrest s' h with ⟨hB₂, hdec, hsub, hmono, hmsub⟩
        refine ⟨hB₂, ?_, ?_, ?_, ?_⟩
        · right
          have hcnt := openCount_fillRaw hB hu81 hemp num
          rcases hdec with h | h
          · rw [h]; omega
          · omega
        · intro j hj
          exact openSub_fillRaw hB hu81 num j (hsub j hj)
        · intro i hful
          rw [hmono i, board_mono_fillRaw s u num hemp i hful]
          rw [board_mono_fillRaw s u num hemp i hful]
          exact hful
        · intro i n hbit'
          exact allowedMask_fillRaw_sub u num i n (hmsub i n hbit')
      · rw [if_neg hone]
        have hndr : rest.Nodup := (List.nodup_cons.1 hnd).2
        have hmem' : ∀ v ∈ rest, v < 81 ∧ s.openSpaces.testBit v = true := by
          intro v hv
          exact hmem v (by simp [hv])
        exact ih s hB hndr hmem'

/-- Dirty-cell bookkeeping across one drain pass: if every open
zero-or-one-candidate cell is either dirty or still in the work list,
then at the end of the pass every such cell is dirty again. -/
theorem passGo_dirty : ∀ (l : List Nat) (s : BookkeptBoard),
    Binv s → l.Nodup → (∀ u ∈ l, u < 81 ∧ s.openSpaces.testBit u = true) →
    (∀ i, i < 81 → s.openSpaces.testBit i = true →
      (allowedMask s i = 0 ∨ isOneAllowed (allowedMask s i) = true) →
      (s.updatedAllows.testBit i = true ∨ i ∈ l)) →
    ∀ s', passGo l s = some (some s') → DirtyInv s' := by
  intro l
  induction l with
  | nil =>
    intro s _ _ _ hJ s' h
    simp only [passGo, Option.some.injEq] at h
    subst h
    intro i hi hopen hmask
    rcases hJ i hi hopen hmask with h | h
    · exact h
    · exact absurd h (List.not_mem_nil i)
  | cons u rest ih =>
    intro s hB hnd hmem hJ s' h
    rcases hmem u (by simp) with ⟨hu81, huopen⟩
    have h81 : ¬(81 ≤ u) := by omega
    rw [passGo_cons, if_neg h81] at h
    by_cases hzero : areNoneAllowed (allowedMask s u) = true
    · rw [if_pos hzero] at h
      simp at h
    · rw [if_neg hzero] at h
      by_cases hone : isOneAllowed (allowedMask s u) = true
      · rw [if_pos hone] at h
        rcases pass_forced hB hu81 huopen hone with ⟨num, h1, h9, hm, hnext, hfill, hbit⟩
        rw [hnext] at h
        simp only [] at h
        rw [hfill] at h
        simp only [] at h
        have hemp : s.board u = Space.Empty := (hB.openIff u hu81).2 huopen
        have hB' : Binv (fillRaw s u num) := Binv_fillRaw hB hu81 hemp num
        have hndr : rest.Nodup := (List.nodup_cons.1 hnd).2
        have hnotmem : u ∉ rest := (List.nodup_cons.1 hnd).1
        have hmem' : ∀ v ∈ rest, v < 81 ∧ (fillRaw s u num).openSpaces.testBit v = true := by
          intro v hv
          rcases hmem v (by simp [hv]) with ⟨hv81, hvopen⟩
          refine ⟨hv81, ?_⟩
          rw [fillRaw_open_testBit hB.openLt hu81]
          have hvu : v ≠ u := fun hx => hnotmem (hx ▸ hv)
          simp [hvopen, hvu]
        apply ih (fillRaw s u num) hB' hndr hmem' _ s' h
        intro i hi hiopen himask
        have hiopen0 : s.openSpaces.testBit i = true :=
          openSub_fillRaw hB hu81 num i hiopen
        have hine : i ≠ u := by
          intro hx
          subst hx
          rw [fillRaw_open_testBit hB.openLt hu81] at hiopen
          simp at hiopen
        by_cases hunit : sameUnit i u
        · left
          rw [fillRaw_upd_testBit hB.openLt hu81]
          simp [hi, hunit, hiopen]
        · have hfar := @allowedMask_fillRaw_far s _ _ hunit num
          rw [hfar] at himask
          rcases hJ i hi hiopen0 himask with hup | hmem2
          · left
            rw [fillRaw_upd_testBit hB.openLt hu81]
            simp [hup, hiopen]
          · right
            rcases List.mem_cons.1 hmem2 with hx | hx
            · exact absurd hx hine
            · exact hx
      · rw [if_neg hone] at h
        have hndr : rest.Nodup := (List.nodup_cons.1 hnd).2
        have hmem' : ∀ v ∈ rest, v < 81 ∧ s.openSpaces.testBit v = true := by
          intro v hv
          exact hmem v (by simp [hv])
        apply ih s hB hndr hmem' _ s' h
        intro i hi hiopen himask
        rcases hJ i hi hiopen himask with hup | hmem2
        · exact Or.inl hup
        · rcases List.mem_cons.1 hmem2 with hx | hx
          · subst hx
            rcases himask with hz | ho
            · rw [hz] at hzero
              simp [areNoneAllowed] at hzero
            · exact absurd ho hone
          · exact Or.inr hx

/-! ## The propagation loop -/

theorem upd_zero_of_onesBelow {s : BookkeptBoard} (hB : Binv s)
    (h : onesBelow 128 s.openSpaces = 0) : s.updatedAllows = 0 := by
  apply Nat.zero_of_testBit_eq_false
  intro i
  cases hb : s.updatedAllows.testBit i with
  | false => rfl
  | true =>
    have hob := hB.updSub i hb
    have hi : i < 81 := lt_of_testBit_true hB.openLt hob
    have : i ∈ bitsBelow 128 s.openSpaces := mem_bitsBelow.2 ⟨by omega, hob⟩
    unfold onesBelow at h
    rw [List.length_eq_zero] at h
    rw [h] at this
    exact absurd this (List.not_mem_nil i)

theorem mfcGo_quiet {s : BookkeptBoard} (h : s.updatedAllows = 0) {fuel : Nat}
    (hf : 1 ≤ fuel) : mfcGo fuel s = some (some s) := by
  cases fuel with
  | zero => omega
  | succ f =>
    have : anyUpdates s = false := by simp [anyUpdates, h]
    simp [mfcGo, this]

theorem snapshot_Binv {s : BookkeptBoard} (hB : Binv s) :
    Binv { s with updatedAllows := 0 } := by
  refine ⟨hB.openLt, hB.openIff, ?_, hB.colSub, hB.rowSub, hB.boxSub⟩
  intro i h
  simp at h

theorem snapshot_mem {s : BookkeptBoard} (hB : Binv s) :
    ∀ u ∈ bitsBelow 128 s.updatedAllows, u < 81 ∧ s.openSpaces.testBit u = true := by
  intro u hu
  rcases mem_bitsBelow.1 hu with ⟨_, hb⟩
  have hob := hB.updSub u hb
  exact ⟨lt_of_testBit_true hB.openLt hob, hob⟩

/-- Once past the stated fuel bound, extra fuel does not change the
result of the propagation loop: each continuing iteration consumes an
open cell. -/
theorem mfcGo_fuel_eq : ∀ (N : Nat) (s : BookkeptBoard) (f₁ f₂ : Nat),
    onesBelow 128 s.openSpaces ≤ N → Binv s → N + 1 ≤ f₁ → N + 1 ≤ f₂ →
    mfcGo f₁ s = mfcGo f₂ s := by
  intro N
  induction N with
  | zero =>
    intro s f₁ f₂ hcnt hB h1 h2
    have hupd : s.updatedAllows = 0 := upd_zero_of_onesBelow hB (by omega)
    rw [mfcGo_quiet hupd h1, mfcGo_quiet hupd h2]
  | succ N ih =>
    intro s f₁ f₂ hcnt hB h1 h2
    by_cases hupd : s.updatedAllows = 0
    · rw [mfcGo_quiet hupd (by omega), mfcGo_quiet hupd (by omega)]
    · cases f₁ with
      | zero => omega
      | succ a =>
        cases f₂ with
        | zero => omega
        | succ b =>
          have hany : anyUpdates s = true := by simp [anyUpdates, hupd]
          rw [mfcGo, mfcGo]
          simp only [hany, if_pos]
          rcases passGo_spec (bitsBelow 128 s.updatedAllows) { s with updatedAllows := 0 }
            (snapshot_Binv hB) (bitsBelow_nodup 128 s.updatedAllows) (snapshot_mem hB)
            with ⟨hnp, hres⟩
          cases hpass : passGo (bitsBelow 128 s.updatedAllows) { s with updatedAllows := 0 } with
          | none => exact absurd hpass hnp
          | some r =>
            cases r with
            | none => rfl
            | some s₁ =>
              simp only []
              rcases hres s₁ hpass with ⟨hB₁, hdec, _, _, _⟩
              rcases hdec with heq | hlt
              · have hupd₁ : s₁.updatedAllows = 0 := by rw [heq]
                rw [mfcGo_quiet hupd₁ (by omega), mfcGo_quiet hupd₁ (by omega)]
              · have hcnt₁ : onesBelow 128 s₁.openSpaces ≤ N := by
                  have : onesBelow 128 ({ s with updatedAllows := 0 } : BookkeptBoard).openSpaces
                      = onesBelow 128 s.openSpaces := rfl
                  omega
                exact ih s₁ a b hcnt₁ hB₁ (by omega) (by omega)

/-- Main specification of the propagation loop: with enough fuel it
never panics, and on success the result satisfies the invariants, is
quiescent (no dirty cells), and relates to the input by fills only. -/
theorem mfcGo_spec : ∀ (N : Nat) (s : BookkeptBoard) (fuel : Nat),
    onesBelow 128 s.openSpaces ≤ N → N + 1 ≤ fuel → Binv s → DirtyInv s →
    mfcGo fuel s ≠ none ∧
    (∀ s', mfcGo fuel s = some (some s') →
      Binv s' ∧ DirtyInv s' ∧ s'.updatedAllows = 0 ∧
      (∀ j, s'.openSpaces.testBit j = true → s.openSpaces.testBit j = true) ∧
      (∀ i, s.board i ≠ Space.Empty → s'.board i = s.board i) ∧
      (∀ i n, (allowedMask s' i).testBit n = true → (allowedMask s i).testBit n = true)) := by
  intro N
  induction N with
  | zero =>
    intro s fuel hcnt hf hB hD
    have hupd : s.updatedAllows = 0 := upd_zero_of_onesBelow hB (by omega)
    rw [mfcGo_quiet hupd hf]
    refine ⟨by simp, ?_⟩
    intro s' h
    simp only [Option.some.injEq] at h
    subst h
    exact ⟨hB, hD, hupd, fun j hj => hj, fun i _ => rfl, fun i n h => h⟩
  | succ N ih =>
    intro s fuel hcnt hf hB hD
    by_cases hupd : s.updatedAllows = 0
    · rw [mfcGo_quiet hupd (by omega)]
      refine ⟨by simp, ?_⟩
      intro s' h
      simp only [Option.some.injEq] at h
      subst h
      exact ⟨hB, hD, hupd, fun j hj => hj, fun i _ => rfl, fun i n h => h⟩
    · cases fuel with
      | zero => omega
      | succ a =>
        have hany : anyUpdates s = true := by simp [anyUpdates, hupd]
        rw [mfcGo]
        simp only [hany, if_pos]
        rcases passGo_spec (bitsBelow 128 s.updatedAllows) { s with updatedAllows := 0 }
          (snapshot_Binv hB) (bitsBelow_nodup 128 s.updatedAllows) (snapshot_mem hB)
          with ⟨hnp, hres⟩
        have hJ : ∀ i, i < 81 →
            ({ s with updatedAllows := 0 } : BookkeptBoard).openSpaces.testBit i = true →
            (allowedMask { s with updatedAllows := 0 } i = 0 ∨
              isOneAllowed (allowedMask { s with updatedAllows := 0 } i) = true) →
            (({ s with updatedAllows := 0 } : BookkeptBoard).updatedAllows.testBit i = true ∨
              i ∈ bitsBelow 128 s.updatedAllows) := by
          intro i hi hio him
          right
          have := hD i hi hio him
          exact mem_bitsBelow.2 ⟨by omega, this⟩
        cases hpass : passGo (bitsBelow 128 s.updatedAllows) { s with updatedAllows := 0 } with
        | none => exact absurd hpass hnp
        | some r =>
          cases r with
          | none => exact ⟨by simp, fun s' h => by simp at h⟩
          | some s₁ =>
            simp only []
            rcases hres s₁ hpass with ⟨hB₁, hdec, hosub, hbmono, hmsub⟩
            have hD₁ : DirtyInv s₁ :=
              passGo_dirty (bitsBelow 128 s.updatedAllows) { s with updatedAllows := 0 }
                (snapshot_Binv hB) (bitsBelow_nodup 128 s.updatedAllows) (snapshot_mem hB)
                hJ s₁ hpass
            have hcnt0 : onesBelow 128 ({ s with updatedAllows := 0 } : BookkeptBoard).openSpaces
                = onesBelow 128 s.openSpaces := rfl
            rcases hdec with heq | hlt
            · have hupd₁ : s₁.updatedAllows = 0 := by rw [heq]
              rw [mfcGo_quiet hupd₁ (by omega)]
              refine ⟨by simp, ?_⟩
              intro s' h
              simp only [Option.some.injEq] at h
              subst h
              rw [heq]
              exact ⟨snapshot_Binv hB, by rw [← heq]; exact hD₁, by simp, fun j hj => hj,
                fun i _ => rfl, fun i n h => h⟩
            · rcases ih s₁ a (by omega) (by omega) hB₁ hD₁ with ⟨hnp₂, hres₂⟩
              refine ⟨hnp₂, ?_⟩
              intro s' h
              rcases hres₂ s' h with ⟨hB₂, hD₂, hupd₂, hosub₂, hbmono₂, hmsub₂⟩
              refine ⟨hB₂, hD₂, hupd₂, ?_, ?_, ?_⟩
              · intro j hj
                exact hosub j (hosub₂ j hj)
              · intro i hful
                have h1 : s₁.board i = s.board i := hbmono i hful
                have : s₁.board i ≠ Space.Empty := by rw [h1]; exact hful
                rw [hbmono₂ i this, h1]
              · intro i n hbit
                exact hmsub i n (hmsub₂ i n hbit)

/-! ## Abstract forced-move semantics

Propagation in both solvers performs "naked single" forced moves.  We
capture one forced move as a relation on plain boards; both the
bookkept and the naive propagation loops realize reflexive-transitive
sequences of such moves, and the relation is confluent enough for the
two solvers to agree. -/

/-- Number `v` may legally be placed at cell `c`: in range and not
already present in the cell's column, row or box. -/
def CanPlace (b : Board) (c v : Nat) : Prop :=
  1 ≤ v ∧ v ≤ 9 ∧ ∀ i, i < 81 → sameUnit i c → b i ≠ Space.Full v

/-- Cell `c` is open and `v` is its unique legal number. -/
def ForcedAt (b : Board) (c v : Nat) : Prop :=
  c < 81 ∧ b c = Space.Empty ∧ CanPlace b c v ∧ ∀ w, CanPlace b c w → w = v

/-- One forced move. -/
def StepP (b b' : Board) : Prop :=
  ∃ c v, ForcedAt b c v ∧ b' = Function.update b c (Space.Full v)

/-- A sequence of forced moves. -/
def Steps : Board → Board → Prop := Relation.ReflTransGen StepP

/-- Some open cell has no legal number: a contradiction. -/
def FailAt (b : Board) : Prop :=
  ∃ c, c < 81 ∧ b c = Space.Empty ∧ ∀ v, ¬CanPlace b c v

/-- Propagation from `b` can reach a contradiction. -/
def Fails (b : Board) : Prop :=
  ∃ u, Steps b u ∧ FailAt u

/-- No open cell is failed or forced: propagation is quiescent. -/
def Quiescent (b : Board) : Prop :=
  ∀ c, c < 81 → b c = Space.Empty →
    ∃ v w, CanPlace b c v ∧ CanPlace b c w ∧ v ≠ w

/-- The effective candidate mask agrees with `CanPlace`. -/
theorem allowedMask_canPlace {s : BookkeptBoard} (hM : MaskInv s) {c : Nat} (hc : c < 81)
    (n : Nat) : (allowedMask s c).testBit n = true ↔ CanPlace s.board c n :=
  allowedMask_char hM hc n

/-- A zero effective mask at an open cell is an abstract contradiction. -/
theorem failAt_of_zero_mask {s : BookkeptBoard} (hM : MaskInv s) {c : Nat} (hc : c < 81)
    (hemp : s.board c = Space.Empty) (hzero : allowedMask s c = 0) : FailAt s.board := by
  refine ⟨c, hc, hemp, ?_⟩
  intro v hv
  have : (allowedMask s c).testBit v = true := (allowedMask_canPlace hM hc v).2 hv
  rw [hzero] at this
  rw [Nat.zero_testBit] at this
  exact Bool.false_ne_true this

/-- A singleton effective mask at an open cell is an abstract forced move. -/
theorem forcedAt_of_single_mask {s : BookkeptBoard} (hB : Binv s) (hM : MaskInv s)
    {c num : Nat} (hc : c < 81) (hemp : s.board c = Space.Empty)
    (hm : allowedMask s c = 2 ^ num) (h1 : 1 ≤ num) (h9 : num ≤ 9) :
    ForcedAt s.board c num := by
  refine ⟨hc, hemp, ?_, ?_⟩
  · apply (allowedMask_canPlace hM hc num).1
    rw [hm]
    exact testBit_pow_self.2 rfl
  · intro w hw
    have := (allowedMask_canPlace hM hc w).2 hw
    rw [hm] at this
    exact testBit_pow_self.1 this

/-- The search-level facts about a drain pass: mask exactness, no-dup
and range of the board are preserved, the pass performs abstract forced
moves, and a `None` outcome means an abstract contradiction was
reached. -/
theorem passGo_search : ∀ (l : List Nat) (s : BookkeptBoard),
    Binv s → MaskInv s → l.Nodup →
    (∀ u ∈ l, u < 81 ∧ s.openSpaces.testBit u = true) →
    (∀ s', passGo l s = some (some s') →
      MaskInv s' ∧ (NoTwo s.board → NoTwo s'.board) ∧
      (ValRange s.board → ValRange s'.board) ∧ Steps s.board s'.board) ∧
    (passGo l s = some none → Fails s.board) := by
  intro l
  induction l with
  | nil =>
    intro s _ hM _ _
    constructor
    · intro s' h
      simp only [passGo, Option.some.injEq] at h
      subst h
      exact ⟨hM, fun h => h, fun h => h, Relation.ReflTransGen.refl⟩
    · intro h
      simp [passGo] at h
  | cons u rest ih =>
    intro s hB hM hnd hmem
    rcases hmem u (by simp) with ⟨hu81, huopen⟩
    have h81 : ¬(81 ≤ u) := by omega
    rw [passGo_cons, if_neg h81]
    have hemp : s.board u = Space.Empty := (hB.openIff u hu81).2 huopen
    by_cases hzero : areNoneAllowed (allowedMask s u) = true
    · rw [if_pos hzero]
      constructor
      · intro s' h; simp at h
      · intro _
        have hz : allowedMask s u = 0 := by
          simpa [areNoneAllowed] using hzero
        exact ⟨s.board, Relation.ReflTransGen.refl, failAt_of_zero_mask hM hu81 hemp hz⟩
    · rw [if_neg hzero]
      by_cases hone : isOneAllowed (allowedMask s u) = true
      · rw [if_pos hone]
        rcases pass_forced hB hu81 huopen hone with ⟨num, h1, h9, hm, hnext, hfill, hbit⟩
        rw [hnext]
        simp only []
        rw [hfill]
        simp only []
        have hB' : Binv (fillRaw s u num) := Binv_fillRaw hB hu81 hemp num
        have hM' : MaskInv (fillRaw s u num) := MaskInv_fillRaw hM hu81 hemp h1 h9
        have hndr : rest.Nodup := (List.nodup_cons.1 hnd).2
        have hnotmem : u ∉ rest := (List.nodup_cons.1 hnd).1
        have hmem' : ∀ v ∈ rest, v < 81 ∧ (fillRaw s u num).openSpaces.testBit v = true := by
          intro v hv
          rcases hmem v (by simp [hv]) with ⟨hv81, hvopen⟩
          refine ⟨hv81, ?_⟩
          rw [fillRaw_open_testBit hB.openLt hu81]
          have hvu : v ≠ u := fun hx => hnotmem (hx ▸ hv)
          simp [hvopen, hvu]
        have hstep : StepP s.board (fillRaw s u num).board := by
          refine ⟨u, num, forcedAt_of_single_mask hB hM hu81 hemp hm h1 h9, ?_⟩
          rfl
        rcases ih (fillRaw s u num) hB' hM' hndr hmem' with ⟨hsome, hfail⟩
        constructor
        · intro s' h
          rcases hsome s' h with ⟨hM₂, hN₂, hV₂, hsteps⟩
          refine ⟨hM₂, ?_, ?_, ?_⟩
          · intro hN
            exact hN₂ (NoTwo_fillRaw hM hN hu81 hbit)
          · intro hV
            exact hV₂ (ValRange_fillRaw hV h1 h9)
          · exact Relation.ReflTransGen.head hstep hsteps
        · intro h
          rcases hfail h with ⟨w, hsw, hfw⟩
          exact ⟨w, Relation.ReflTransGen.head hstep hsw, hfw⟩
      · rw [if_neg hone]
        have hndr : rest.Nodup := (List.nodup_cons.1 hnd).2
        have hmem' : ∀ v ∈ rest, v < 81 ∧ s.openSpaces.testBit v = true := by
          intro v hv
          exact hmem v (by simp [hv])
        exact ih s hB hM hndr hmem'

/-- Search-level facts across the whole propagation loop. -/
theorem mfcGo_search : ∀ (N : Nat) (s : BookkeptBoard) (fuel : Nat),
    onesBelow 128 s.openSpaces ≤ N → N + 1 ≤ fuel → Binv s → DirtyInv s → MaskInv s →
    (∀ s', mfcGo fuel s = some (some s') →
      MaskInv s' ∧ (NoTwo s.board → NoTwo s'.board) ∧
      (ValRange s.board → ValRange s'.board) ∧ Steps s.board s'.board) ∧
    (mfcGo fuel s = some none → Fails s.board) := by
  intro N
  induction N with
  | zero =>
    intro s fuel hcnt hf hB hD hM
    have hupd : s.updatedAllows = 0 := upd_zero_of_onesBelow hB (by omega)
    rw [mfcGo_quiet hupd hf]
    constructor
    · intro s' h
      simp only [Option.some.injEq] at h
      subst h
      exact ⟨hM, fun h => h, fun h => h, Relation.ReflTransGen.refl⟩
    · intro h; simp at h
  | succ N ih =>
    intro s fuel hcnt hf hB hD hM
    by_cases hupd : s.updatedAllows = 0
    · rw [mfcGo_quiet hupd (by omega)]
      constructor
      · intro s' h
        simp only [Option.some.injEq] at h
        subst h
        exact ⟨hM, fun h => h, fun h => h, Relation.ReflTransGen.refl⟩
      · intro h; simp at h
    · cases fuel with
      | zero => omega
      | succ a =>
        have hany : anyUpdates s = true := by simp [anyUpdates, hupd]
        rw [mfcGo]
        simp only [hany, if_pos]
        have hM0 : MaskInv { s with updatedAllows := 0 } := ⟨hM.col, hM.row, hM.box⟩
        rcases passGo_spec (bitsBelow 128 s.updatedAllows) { s with updatedAllows := 0 }
          (snapshot_Binv hB) (bitsBelow_nodup 128 s.updatedAllows) (snapshot_mem hB)
          with ⟨hnp, hres⟩
        rcases passGo_search (bitsBelow 128 s.updatedAllows) { s with updatedAllows := 0 }
          (snapshot_Binv hB) hM0 (bitsBelow_nodup 128 s.updatedAllows) (snapshot_mem hB)
          with ⟨hsrch, hfail⟩
        have hJ : ∀ i, i < 81 →
            ({ s with updatedAllows := 0 } : BookkeptBoard).openSpaces.testBit i = true →
            (allowedMask { s with updatedAllows := 0 } i = 0 ∨
              isOneAllowed (allowedMask { s with updatedAllows := 0 } i) = true) →
            (({ s with updatedAllows := 0 } : BookkeptBoard).updatedAllows.testBit i = true ∨
              i ∈ bitsBelow 128 s.updatedAllows) := by
          intro i hi hio him
          right
          have := hD i hi hio him
          exact mem_bitsBelow.2 ⟨by omega, this⟩
        cases hpass : passGo (bitsBelow 128 s.updatedAllows) { s with updatedAllows := 0 } with
        | none => exact absurd hpass hnp
        | some r =>
          cases r with
          | none =>
            constructor
            · intro s' h; simp at h
            · intro _
              exact hfail hpass
          | some s₁ =>
            simp only []
            rcases hres s₁ hpass with ⟨hB₁, hdec, hosub, hbmono, hmsub⟩
            rcases hsrch s₁ hpass with ⟨hM₁, hN₁, hV₁, hsteps₁⟩
            have hD₁ : DirtyInv s₁ :=
              passGo_dirty (bitsBelow 128 s.updatedAllows) { s with updatedAllows := 0 }
                (snapshot_Binv hB) (bitsBelow_nodup 128 s.updatedAllows) (snapshot_mem hB)
                hJ s₁ hpass
            have hcnt0 : onesBelow 128 ({ s with updatedAllows := 0 } : BookkeptBoard).openSpaces
                = onesBelow 128 s.openSpaces := rfl
            rcases hdec with heq | hlt
            · have hupd₁ : s₁.updatedAllows = 0 := by rw [heq]
              rw [mfcGo_quiet hupd₁ (by omega)]
              constructor
              · intro s' h
                simp only [Option.some.injEq] at h
                subst h
                exact ⟨hM₁, hN₁, hV₁, hsteps₁⟩
              · intro h; simp at h
            · rcases ih s₁ a (by omega) (by omega) hB₁ hD₁ hM₁ with ⟨hsome₂, hfail₂⟩
              constructor
              · intro s' h
                rcases hsome₂ s' h with ⟨hM₂, hN₂, hV₂, hsteps₂⟩
                exact ⟨hM₂, fun hN => hN₂ (hN₁ hN), fun hV => hV₂ (hV₁ hV),
                  Relation.ReflTransGen.trans hsteps₁ hsteps₂⟩
              · intro h
                rcases hfail₂ h with ⟨w, hsw, hfw⟩
                exact ⟨w, Relation.ReflTransGen.trans hsteps₁ hsw, hfw⟩

set_option maxRecDepth 100000 in
theorem twoBits_of_notOne : ∀ m, m < 1024 → m ≠ 0 → isOneAllowed m = false →
    ∃ j, j < 10 ∧ m.testBit j = true ∧ ∃ k, k < 10 ∧ m.testBit k = true ∧ j ≠ k := by
  decide

/-! ## `make_forced_choices` -/

theorem makeForcedChoices_spec {s : BookkeptBoard} (hB : Binv s) (hD : DirtyInv s) :
    makeForcedChoices s ≠ none ∧
    (∀ s', makeForcedChoices s = some (some s') →
      Binv s' ∧ DirtyInv s' ∧ s'.updatedAllows = 0 ∧
      (∀ j, s'.openSpaces.testBit j = true → s.openSpaces.testBit j = true) ∧
      (∀ i, s.board i ≠ Space.Empty → s'.board i = s.board i) ∧
      (∀ i n, (allowedMask s' i).testBit n = true → (allowedMask s i).testBit n = true)) :=
  mfcGo_spec (onesBelow 128 s.openSpaces) s (onesBelow 128 s.openSpaces + 1) le_rfl le_rfl hB hD

theorem makeForcedChoices_search {s : BookkeptBoard} (hB : Binv s) (hD : DirtyInv s)
    (hM : MaskInv s) :
    (∀ s', makeForcedChoices s = some (some s') →
      MaskInv s' ∧ (NoTwo s.board → NoTwo s'.board) ∧
      (ValRange s.board → ValRange s'.board) ∧ Steps s.board s'.board) ∧
    (makeForcedChoices s = some none → Fails s.board) :=
  mfcGo_search (onesBelow 128 s.openSpaces) s (onesBelow 128 s.openSpaces + 1) le_rfl le_rfl
    hB hD hM

/-- C4 in raw form: a successful propagation leaves no open cell with an
empty or singleton effective candidate set. -/
theorem makeForcedChoices_noForced {s s' : BookkeptBoard} (hB : Binv s) (hD : DirtyInv s)
    (h : makeForcedChoices s = some (some s')) :
    ∀ i, i < 81 → s'.openSpaces.testBit i = true →
      allowedMask s' i ≠ 0 ∧ isOneAllowed (allowedMask s' i) = false := by
  rcases (makeForcedChoices_spec hB hD).2 s' h with ⟨hB', hD', hupd', _, _, _⟩
  intro i hi hopen
  constructor
  · intro hz
    have := hD' i hi hopen (Or.inl hz)
    rw [hupd'] at this
    rw [Nat.zero_testBit] at this
    exact Bool.false_ne_true this
  · cases ho : isOneAllowed (allowedMask s' i) with
    | false => rfl
    | true =>
      have := hD' i hi hopen (Or.inr ho)
      rw [hupd'] at this
      rw [Nat.zero_testBit] at this
      exact absurd this (by simp)

/-- A successful propagation is quiescent in the abstract sense: every
open cell keeps at least two legal numbers. -/
theorem makeForcedChoices_quiescent {s s' : BookkeptBoard} (hB : Binv s) (hD : DirtyInv s)
    (hM : MaskInv s) (h : makeForcedChoices s = some (some s')) :
    Quiescent s'.board := by
  rcases (makeForcedChoices_spec hB hD).2 s' h with ⟨hB', _, _, _, _, _⟩
  rcases (makeForcedChoices_search hB hD hM).1 s' h with ⟨hM', _, _, _⟩
  intro c hc hemp
  have hopen : s'.openSpaces.testBit c = true := (hB'.openIff c hc).1 hemp
  rcases makeForcedChoices_noForced hB hD h c hc hopen with ⟨hnz, hno⟩
  rcases twoBits_of_notOne (allowedMask s' c) (allowedMask_lt hB' c) hnz hno
    with ⟨j, _, hj, k, _, hk, hjk⟩
  exact ⟨j, k, (allowedMask_canPlace hM' hc j).1 hj, (allowedMask_canPlace hM' hc k).1 hk, hjk⟩

/-! ## `from_board` -/

/-- Well-formed clues: numbers in range and no duplicate in any unit. -/
def GoodClues (b : Board) : Prop := ValRange b ∧ NoTwo b

theorem Binv_new : Binv BookkeptBoard.new := by
  have hopen : (BookkeptBoard.new).openSpaces = 2 ^ 81 - 1 := by
    show (1 <<< 81) - 1 = 2 ^ 81 - 1
    decide
  refine ⟨?_, ?_, ?_, ?_, ?_, ?_⟩
  · rw [hopen]; omega
  · intro i hi
    constructor
    · intro _
      rw [hopen, Nat.testBit_two_pow_sub_one]
      simp [hi]
    · intro _
      rfl
  · intro i h
    have : (BookkeptBoard.new).updatedAllows = 0 := rfl
    rw [this] at h
    rw [Nat.zero_testBit] at h
    exact absurd h (by simp)
  · intro k; exact maskSub_allAllowed
  · intro k; exact maskSub_allAllowed
  · intro k; exact maskSub_allAllowed

theorem allowedMask_new (i : Nat) : allowedMask BookkeptBoard.new i = allAllowed := by
  show allAllowed &&& allAllowed &&& allAllowed = allAllowed
  decide

theorem DirtyInv_new : DirtyInv BookkeptBoard.new := by
  intro i hi _ hmask
  rw [allowedMask_new] at hmask
  rcases hmask with h | h
  · exact absurd h (by norm_num [allAllowed])
  · exact absurd h (by decide)

theorem MaskInv_new : MaskInv BookkeptBoard.new := by
  refine ⟨?_, ?_, ?_⟩ <;>
  · intro k n
    show allAllowed.testBit n = true ↔ _
    rw [allAllowed_testBit]
    constructor
    · intro ⟨h1, h2⟩
      exact ⟨h1, h2, fun i _ _ => by intro h; exact Space.noConfusion h⟩
    · intro ⟨h1, h2, _⟩
      exact ⟨h1, h2⟩

theorem optBind_some {α β : Type} (a : α) (f : α → Option β) : (some a >>= f) = f a := rfl

/-- The replay fold of `from_board`, over any remaining work list. -/
theorem fromBoard_go (b : Board) : ∀ (l : List Nat) (s : BookkeptBoard),
    Binv s → DirtyInv s → l.Nodup → (∀ c ∈ l, c < 81 ∧ s.board c = Space.Empty) →
    (∀ i, i < 81 → s.board i = b i ∨ s.board i = Space.Empty) →
    (l.foldlM (fun s c =>
      match b c with
      | Space.Empty => some s
      | Space.Full num => fill s c num) s ≠ none) ∧
    (∀ t, l.foldlM (fun s c =>
      match b c with
      | Space.Empty => some s
      | Space.Full num => fill s c num) s = some t →
      Binv t ∧ DirtyInv t ∧
      (∀ i, i ∈ l → t.board i = b i) ∧
      (∀ i, i ∉ l → t.board i = s.board i) ∧
      (MaskInv s → ValRange b → MaskInv t) ∧
      (MaskInv s → ValRange b → NoTwo b → NoTwo s.board → NoTwo t.board) ∧
      (ValRange b → ValRange s.board → ValRange t.board)) := by
  intro l
  induction l with
  | nil =>
    intro s hB hD _ _ _
    refine ⟨by simp, ?_⟩
    intro t h
    simp only [List.foldlM, Option.pure_def, Option.some.injEq] at h
    subst h
    exact ⟨hB, hD, fun i hi => absurd hi (List.not_mem_nil i), fun i _ => rfl,
      fun hM _ => hM, fun _ _ _ hN => hN, fun _ hV => hV⟩
  | cons c rest ih =>
    intro s hB hD hnd hmem hagree
    rcases hmem c (by simp) with ⟨hc81, hcemp⟩
    have hnotmem : c ∉ rest := (List.nodup_cons.1 hnd).1
    have hndr : rest.Nodup := (List.nodup_cons.1 hnd).2
    rw [List.foldlM_cons]
    cases hbc : b c with
    | Empty =>
      rw [optBind_some]
      have hmem' : ∀ v ∈ rest, v < 81 ∧ s.board v = Space.Empty := by
        intro v hv
        exact hmem v (by simp [hv])
      rcases ih s hB hD hndr hmem' hagree with ⟨hnp, hres⟩
      refine ⟨hnp, ?_⟩
      intro t h
      rcases hres t h with ⟨hB', hD', hinl, hout, hMk, hNt, hVr⟩
      refine ⟨hB', hD', ?_, ?_, hMk, hNt, hVr⟩
      · intro i hi
        rcases List.mem_cons.1 hi with hx | hx
        · subst hx
          rw [hout i hnotmem, hcemp, hbc]
        · exact hinl i hx
      · intro i hi
        exact hout i (fun hx => hi (List.mem_cons.2 (Or.inr hx)))
    | Full num =>
      simp only []
      have hfill : fill s c num = some (fillRaw s c num) := fill_eq_some.2 ⟨hc81, hcemp, rfl⟩
      rw [hfill, optBind_some]
      have hB' : Binv (fillRaw s c num) := Binv_fillRaw hB hc81 hcemp num
      have hD' : DirtyInv (fillRaw s c num) := DirtyInv_fillRaw hB hD hc81 num
      have hmem' : ∀ v ∈ rest, v < 81 ∧ (fillRaw s c num).board v = Space.Empty := by
        intro v hv
        rcases hmem v (by simp [hv]) with ⟨hv81, hvemp⟩
        refine ⟨hv81, ?_⟩
        rw [fillRaw_board_apply]
        have hvc : v ≠ c := fun hx => hnotmem (hx ▸ hv)
        rw [if_neg hvc]
        exact hvemp
      have hagree' : ∀ i, i < 81 → (fillRaw s c num).board i = b i ∨
          (fillRaw s c num).board i = Space.Empty := by
        intro i hi
        rw [fillRaw_board_apply]
        by_cases hx : i = c
        · left; rw [if_pos hx, hx, hbc]
        · rw [if_neg hx]; exact hagree i hi
      rcases ih (fillRaw s c num) hB' hD' hndr hmem' hagree' with ⟨hnp, hres⟩
      refine ⟨hnp, ?_⟩
      intro t h
      rcases hres t h with ⟨hB₂, hD₂, hinl, hout, hMk, hNt, hVr⟩
      have hboardc : (fillRaw s c num).board c = Space.Full num := by
        rw [fillRaw_board_apply, if_pos rfl]
      refine ⟨hB₂, hD₂, ?_, ?_, ?_, ?_, ?_⟩
      · intro i hi
        rcases List.mem_cons.1 hi with hx | hx
        · subst hx
          rw [hout i hnotmem, hboardc, hbc]
        · exact hinl i hx
      · intro i hi
        have hic : i ≠ c := fun hx => hi (hx ▸ List.mem_cons_self c rest)
        rw [hout i (fun hx => hi (List.mem_cons.2 (Or.inr hx))), fillRaw_board_apply,
          if_neg hic]
      · intro hM hVb
        rcases hVb c num hc81 hbc with ⟨h1, h9⟩
        exact hMk (MaskInv_fillRaw hM hc81 hcemp h1 h9) hVb
      · intro hM hVb hNb hNs
        rcases hVb c num hc81 hbc with ⟨h1, h9⟩
        have hM' : MaskInv (fillRaw s c num) := MaskInv_fillRaw hM hc81 hcemp h1 h9
        have hbit : (allowedMask s c).testBit num = true := by
          apply (allowedMask_canPlace hM hc81 num).2
          refine ⟨h1, h9, ?_⟩
          intro i hi hui
          rcases hagree i hi with hx | hx
          · rw [hx]
            intro hcon
            have hic : i ≠ c := by
              intro hic
              rw [hic] at hx
              rw [hcemp, hbc] at hx
              exact Space.noConfusion hx
            exact hNb c i num hc81 hi (fun hh => hic hh.symm) (sameUnit_symm hui) hbc hcon
          · rw [hx]
            intro hcon
            exact Space.noConfusion hcon
        exact hNt hM' hVb hNb (NoTwo_fillRaw hM hNs hc81 hbit)
      · intro hVb hVs
        rcases hVb c num hc81 hbc with ⟨h1, h9⟩
        exact hVr hVb (ValRange_fillRaw hVs h1 h9)

/-- `from_board` never panics and establishes all state invariants; the
resulting board agrees with the input below 81 and is empty above. -/
theorem fromBoard_spec (b : Board) :
    fromBoard b ≠ none ∧
    (∀ s, fromBoard b = some s →
      Binv s ∧ DirtyInv s ∧
      (∀ i, i < 81 → s.board i = b i) ∧
      (∀ i, 81 ≤ i → s.board i = Space.Empty) ∧
      (ValRange b → MaskInv s) ∧
      (GoodClues b → NoTwo s.board) ∧
      (ValRange b → ValRange s.board)) := by
  have hnew : ∀ i, BookkeptBoard.new.board i = Space.Empty := fun _ => rfl
  rcases fromBoard_go b (List.range 81) BookkeptBoard.new Binv_new DirtyInv_new
    (List.nodup_range 81)
    (fun c hc => ⟨List.mem_range.1 hc, hnew c⟩)
    (fun i _ => Or.inr (hnew i)) with ⟨hnp, hres⟩
  refine ⟨hnp, ?_⟩
  intro s h
  rcases hres s h with ⟨hB, hD, hinl, hout, hMk, hNt, hVr⟩
  refine ⟨hB, hD, ?_, ?_, ?_, ?_, ?_⟩
  · intro i hi
    exact hinl i (List.mem_range.2 hi)
  · intro i hi
    rw [hout i (fun hx => by have := List.mem_range.1 hx; omega), hnew i]
  · intro hVb
    exact hMk MaskInv_new hVb
  · intro hG
    apply hNt MaskInv_new hG.1 hG.2
    intro i j n _ _ _ _ hfi
    rw [hnew i] at hfi
    exact Space.noConfusion hfi
  · intro hVb
    apply hVr hVb
    intro i n _ hfi
    rw [hnew i] at hfi
    exact Space.noConfusion hfi

/-! ## `pick_open_space` and the candidate list -/

theorem zero_of_onesBelow {x : Nat} (hlt : x < 2 ^ 81) (h : onesBelow 128 x = 0) : x = 0 := by
  apply Nat.zero_of_testBit_eq_false
  intro i
  cases hb : x.testBit i with
  | false => rfl
  | true =>
    have hi : i < 81 := lt_of_testBit_true hlt hb
    have : i ∈ bitsBelow 128 x := mem_bitsBelow.2 ⟨by omega, hb⟩
    unfold onesBelow at h
    rw [List.length_eq_zero] at h
    rw [h] at this
    exact absurd this (List.not_mem_nil i)

theorem onesBelow_pos {w x i : Nat} (hi : i < w) (hb : x.testBit i = true) :
    1 ≤ onesBelow w x := by
  have : i ∈ bitsBelow w x := mem_bitsBelow.2 ⟨hi, hb⟩
  unfold onesBelow
  exact List.length_pos.2 (List.ne_nil_of_mem this)

theorem pickOpenSpace_none {s : BookkeptBoard} (hB : Binv s) :
    pickOpenSpace s = none ↔ s.openSpaces = 0 := by
  unfold pickOpenSpace
  rw [List.head?_eq_none_iff]
  constructor
  · intro h
    by_contra hne
    exact bitsBelow_ne_nil hne (lt_of_lt_of_le hB.openLt (by norm_num)) h
  · intro h
    rw [h]
    exact bitsBelow_zero_right 128

theorem pickOpenSpace_some {s : BookkeptBoard} (hB : Binv s) {c : Nat}
    (h : pickOpenSpace s = some c) :
    c < 81 ∧ s.openSpaces.testBit c = true ∧
      ∀ j, j < c → s.openSpaces.testBit j = false := by
  unfold pickOpenSpace at h
  cases hl : bitsBelow 128 s.openSpaces with
  | nil => rw [hl] at h; simp at h
  | cons a t =>
    rw [hl] at h
    simp only [List.head?_cons, Option.some.injEq] at h
    have hmem : c ∈ bitsBelow 128 s.openSpaces := by
      rw [hl, ← h]
      exact List.mem_cons_self a t
    rcases mem_bitsBelow.1 hmem with ⟨_, hbit⟩
    refine ⟨lt_of_testBit_true hB.openLt hbit, hbit, ?_⟩
    intro j hj
    cases hjb : s.openSpaces.testBit j with
    | false => rfl
    | true =>
      have hjmem : j ∈ bitsBelow 128 s.openSpaces := mem_bitsBelow.2 ⟨by omega, hjb⟩
      rw [hl] at hjmem
      have hsorted := bitsBelow_sorted 128 s.openSpaces
      rw [hl] at hsorted
      rcases List.mem_cons.1 hjmem with hx | hx
      · omega
      · have := (List.sorted_cons.1 hsorted).1 j hx
        omega

theorem allowedForList_eq {s : BookkeptBoard} (hB : Binv s) (c : Nat) :
    allowedForList (allowedMask s c) = bitsBelow 16 (allowedMask s c) := by
  unfold allowedForList
  rw [allowedMask_testBit0 hB c]
  simp

theorem mem_allowedForList {s : BookkeptBoard} (hB : Binv s) (c n : Nat) :
    n ∈ allowedForList (allowedMask s c) ↔ (allowedMask s c).testBit n = true := by
  rw [allowedForList_eq hB c, mem_bitsBelow]
  constructor
  · exact fun h => h.2
  · intro h
    refine ⟨?_, h⟩
    have := allowedMask_maskSub hB c n h
    rw [allAllowed_testBit] at this
    omega

/-! ## `solve_helper` -/

theorem tryGo_congr {h₁ h₂ : BookkeptBoard → Option (Option BookkeptBoard)}
    {s : BookkeptBoard} {c : Nat} :
    ∀ l : List Nat,
    (∀ num ∈ l, ∀ s₂, fill s c num = some s₂ → h₁ s₂ = h₂ s₂) →
    tryGo h₁ s c l = tryGo h₂ s c l := by
  intro l
  induction l with
  | nil => intro _; rfl
  | cons num rest ih =>
    intro hag
    rw [tryGo, tryGo]
    cases hf : fill s c num with
    | none => rfl
    | some s₂ =>
      simp only []
      rw [hag num (by simp) s₂ hf]
      cases h₂ s₂ with
      | none => rfl
      | some r =>
        cases r with
        | none =>
          simp only []
          exact ih (fun v hv => hag v (by simp [hv]))
        | some sol => rfl

/-- The branch loop of `solve_helper`: given the outer recursion is
well-behaved on every state one fill deeper, the loop never panics and
any solution it returns is full and preserves existing cells. -/
theorem tryGo_spec {f M : Nat} {s₁ : BookkeptBoard} {c : Nat}
    (hB₁ : Binv s₁) (hD₁ : DirtyInv s₁) (hc : c < 81) (hemp : s₁.board c = Space.Empty)
    (hf : onesBelow 128 s₁.openSpaces ≤ M)
    (hrec : ∀ s₂, Binv s₂ → DirtyInv s₂ → onesBelow 128 s₂.openSpaces + 1 ≤ M →
      solveHelperGo f s₂ ≠ none ∧ (∀ t, solveHelperGo f s₂ = some (some t) →
        Binv t ∧ t.openSpaces = 0 ∧
        (∀ i, s₂.board i ≠ Space.Empty → t.board i = s₂.board i))) :
    ∀ l : List Nat,
    tryGo (solveHelperGo f) s₁ c l ≠ none ∧
    (∀ t, tryGo (solveHelperGo f) s₁ c l = some (some t) →
      Binv t ∧ t.openSpaces = 0 ∧
      (∀ i, s₁.board i ≠ Space.Empty → t.board i = s₁.board i)) := by
  intro l
  induction l with
  | nil =>
    refine ⟨by simp [tryGo], ?_⟩
    intro t h
    simp [tryGo] at h
  | cons num rest ih =>
    rw [tryGo]
    have hfill : fill s₁ c num = some (fillRaw s₁ c num) := fill_eq_some.2 ⟨hc, hemp, rfl⟩
    rw [hfill]
    simp only []
    have hB₂ : Binv (fillRaw s₁ c num) := Binv_fillRaw hB₁ hc hemp num
    have hD₂ : DirtyInv (fillRaw s₁ c num) := DirtyInv_fillRaw hB₁ hD₁ hc num
    have hcnt₂ : onesBelow 128 (fillRaw s₁ c num).openSpaces + 1
        = onesBelow 128 s₁.openSpaces := openCount_fillRaw hB₁ hc hemp num
    rcases hrec (fillRaw s₁ c num) hB₂ hD₂ (by omega) with ⟨hnp, hsol⟩
    cases hhelper : solveHelperGo f (fillRaw s₁ c num) with
    | none => exact absurd hhelper hnp
    | some r =>
      cases r with
      | none =>
        simp only []
        exact ih
      | some sol =>
        simp only []
        refine ⟨by simp, ?_⟩
        intro t h
        simp only [Option.some.injEq] at h
        rw [← h]
        rcases hsol sol hhelper with ⟨hBt, hOt, hmono⟩
        refine ⟨hBt, hOt, ?_⟩
        intro i hful
        have h1 : (fillRaw s₁ c num).board i = s₁.board i :=
          board_mono_fillRaw s₁ c num hemp i hful
        have h2 : (fillRaw s₁ c num).board i ≠ Space.Empty := by rw [h1]; exact hful
        rw [hmono i h2, h1]

/-- The search recursion with fuel `onesBelow openSpaces + 1` never
panics, and any solution it returns has no open cell and preserves the
already-filled cells. -/
theorem solveHelperGo_spec : ∀ (N : Nat) (s : BookkeptBoard) (fuel : Nat),
    onesBelow 128 s.openSpaces ≤ N → N + 1 ≤ fuel → Binv s → DirtyInv s →
    solveHelperGo fuel s ≠ none ∧
    (∀ t, solveHelperGo fuel s = some (some t) →
      Binv t ∧ t.openSpaces = 0 ∧
      (∀ i, s.board i ≠ Space.Empty → t.board i = s.board i)) := by
  intro N
  induction N with
  | zero =>
    intro s fuel hcnt hfuel hB hD
    cases fuel with
    | zero => omega
    | succ f =>
      rw [solveHelperGo]
      rcases makeForcedChoices_spec hB hD with ⟨hnp, hres⟩
      cases hmfc : makeForcedChoices s with
      | none => exact absurd hmfc hnp
      | some r =>
        cases r with
        | none => exact ⟨by simp, fun t h => by simp at h⟩
        | some s₁ =>
          simp only []
          rcases hres s₁ hmfc with ⟨hB₁, hD₁, hupd₁, hosub, hbmono, _⟩
          have hcnt₁ : onesBelow 128 s₁.openSpaces = 0 := by
            have := onesBelow_le_of_subset (w := 128) hosub
            omega
          have hopen₁ : s₁.openSpaces = 0 := zero_of_onesBelow hB₁.openLt hcnt₁
          have hpick : pickOpenSpace s₁ = none := (pickOpenSpace_none hB₁).2 hopen₁
          rw [hpick]
          refine ⟨by simp, ?_⟩
          intro t h
          simp only [Option.some.injEq] at h
          rw [← h]
          exact ⟨hB₁, hopen₁, hbmono⟩
  | succ N ih =>
    intro s fuel hcnt hfuel hB hD
    cases fuel with
    | zero => omega
    | succ f =>
      rw [solveHelperGo]
      rcases makeForcedChoices_spec hB hD with ⟨hnp, hres⟩
      cases hmfc : makeForcedChoices s with
      | none => exact absurd hmfc hnp
      | some r =>
        cases r with
        | none => exact ⟨by simp, fun t h => by simp at h⟩
        | some s₁ =>
          simp only []
          rcases hres s₁ hmfc with ⟨hB₁, hD₁, hupd₁, hosub, hbmono, _⟩
          have hcnt₁ : onesBelow 128 s₁.openSpaces ≤ N + 1 := by
            have := onesBelow_le_of_subset (w := 128) hosub
            omega
          cases hpick : pickOpenSpace s₁ with
          | none =>
            refine ⟨by simp, ?_⟩
            intro t h
            simp only [Option.some.injEq] at h
            rw [← h]
            have hopen₁ : s₁.openSpaces = 0 := (pickOpenSpace_none hB₁).1 hpick
            exact ⟨hB₁, hopen₁, hbmono⟩
          | some c =>
            simp only []
            rcases pickOpenSpace_some hB₁ hpick with ⟨hc81, hcopen, _⟩
            have h81 : ¬(81 ≤ c) := by omega
            rw [if_neg h81]
            have hemp : s₁.board c = Space.Empty := (hB₁.openIff c hc81).2 hcopen
            have hcpos : 1 ≤ onesBelow 128 s₁.openSpaces :=
              onesBelow_pos (by omega) hcopen
            have hrec : ∀ s₂, Binv s₂ → DirtyInv s₂ →
                onesBelow 128 s₂.openSpaces + 1 ≤ N + 1 →
                solveHelperGo f s₂ ≠ none ∧ (∀ t, solveHelperGo f s₂ = some (some t) →
                  Binv t ∧ t.openSpaces = 0 ∧
                  (∀ i, s₂.board i ≠ Space.Empty → t.board i = s₂.board i)) := by
              intro s₂ hB₂ hD₂ hcnt₂
              exact ih s₂ f (by omega) (by omega) hB₂ hD₂
            rcases tryGo_spec hB₁ hD₁ hc81 hemp (by omega) hrec
              (allowedForList (allowedMask s₁ c)) with ⟨hnp₂, hres₂⟩
            refine ⟨hnp₂, ?_⟩
            intro t h
            rcases hres₂ t h with ⟨hBt, hOt, hmono⟩
            refine ⟨hBt, hOt, ?_⟩
            intro i hful
            have h1 : s₁.board i = s.board i := hbmono i hful
            have h2 : s₁.board i ≠ Space.Empty := by rw [h1]; exact hful
            rw [hmono i h2, h1]

/-- Extra fuel beyond the open-cell count does not change the result of
the search: the recursion depth is bounded by the number of open cells. -/
theorem solveHelperGo_fuel_eq : ∀ (N : Nat) (s : BookkeptBoard) (f₁ f₂ : Nat),
    onesBelow 128 s.openSpaces ≤ N → Binv s → DirtyInv s → N + 1 ≤ f₁ → N + 1 ≤ f₂ →
    solveHelperGo f₁ s = solveHelperGo f₂ s := by
  intro N
  induction N with
  | zero =>
    intro s f₁ f₂ hcnt hB hD h1 h2
    cases f₁ with
    | zero => omega
    | succ a =>
      cases f₂ with
      | zero => omega
      | succ b =>
        rw [solveHelperGo, solveHelperGo]
        rcases makeForcedChoices_spec hB hD with ⟨hnp, hres⟩
        cases hmfc : makeForcedChoices s with
        | none => rfl
        | some r =>
          cases r with
          | none => rfl
          | some s₁ =>
            simp only []
            rcases hres s₁ hmfc with ⟨hB₁, hD₁, hupd₁, hosub, _, _⟩
            have hcnt₁ : onesBelow 128 s₁.openSpaces = 0 := by
              have := onesBelow_le_of_subset (w := 128) hosub
              omega
            have hopen₁ : s₁.openSpaces = 0 := zero_of_onesBelow hB₁.openLt hcnt₁
            rw [(pickOpenSpace_none hB₁).2 hopen₁]
  | succ N ih =>
    intro s f₁ f₂ hcnt hB hD h1 h2
    cases f₁ with
    | zero => omega
    | succ a =>
      cases f₂ with
      | zero => omega
      | succ b =>
        rw [solveHelperGo, solveHelperGo]
        rcases makeForcedChoices_spec hB hD with ⟨hnp, hres⟩
        cases hmfc : makeForcedChoices s with
        | none => rfl
        | some r =>
          cases r with
          | none => rfl
          | some s₁ =>
            simp only []
            rcases hres s₁ hmfc with ⟨hB₁, hD₁, hupd₁, hosub, _, _⟩
            have hcnt₁ : onesBelow 128 s₁.openSpaces ≤ N + 1 := by
              have := onesBelow_le_of_subset (w := 128) hosub
              omega
            cases hpick : pickOpenSpace s₁ with
            | none => rfl
            | some c =>
              simp only []
              rcases pickOpenSpace_some hB₁ hpick with ⟨hc81, hcopen, _⟩
              have h81 : ¬(81 ≤ c) := by omega
              rw [if_neg h81, if_neg h81]
              have hemp : s₁.board c = Space.Empty := (hB₁.openIff c hc81).2 hcopen
              apply tryGo_congr
              intro num hnum s₂ hfill
              rcases fill_eq_some.1 hfill with ⟨_, _, hs₂⟩
              subst hs₂
              have hB₂ : Binv (fillRaw s₁ c num) := Binv_fillRaw hB₁ hc81 hemp num
              have hD₂ : DirtyInv (fillRaw s₁ c num) := DirtyInv_fillRaw hB₁ hD₁ hc81 num
              have hcnt₂ : onesBelow 128 (fillRaw s₁ c num).openSpaces + 1
                  = onesBelow 128 s₁.openSpaces := openCount_fillRaw hB₁ hc81 hemp num
              exact ih (fillRaw s₁ c num) a b (by omega) hB₂ hD₂ (by omega) (by omega)

/-! ## Grid-level specifications -/

/-- `g` keeps every full cell of `b`. -/
def ExtendsB (b g : Board) : Prop :=
  ∀ i n, i < 81 → b i = Space.Full n → g i = Space.Full n

/-- A fully filled grid with in-range symbols and no duplicate in any
unit. -/
def FullValid (g : Board) : Prop :=
  (∀ i, i < 81 → g i ≠ Space.Empty) ∧ GoodClues g

/-- A valid completion of a starting grid. -/
def Completion (b g : Board) : Prop := FullValid g ∧ ExtendsB b g

/-- The cells of row `k`. -/
def rowCells (k : Nat) : List Nat := (List.range 9).map (fun x => k * 9 + x)
/-- The cells of column `k`. -/
def colCells (k : Nat) : List Nat := (List.range 9).map (fun y => y * 9 + k)
/-- The cells of box `k`. -/
def boxCells (k : Nat) : List Nat :=
  (List.range 9).map (fun i => (3 * (k / 3) + i / 3) * 9 + (3 * (k % 3) + i % 3))

/-- Number of occurrences of symbol `n` among the given cells. -/
def countSym (g : Board) (cells : List Nat) (n : Nat) : Nat :=
  cells.countP (fun i => g i == Space.Full n)

/-- The validity property of the spec: every row, column and box
contains each symbol 1–9 exactly once. -/
def ValidGrid (g : Board) : Prop :=
  ∀ k n, k < 9 → 1 ≤ n → n ≤ 9 →
    countSym g (rowCells k) n = 1 ∧ countSym g (colCells k) n = 1 ∧
    countSym g (boxCells k) n = 1

theorem rowCells_facts : ∀ k, k < 9 →
    (rowCells k).Nodup ∧ (rowCells k).length = 9 ∧
    (∀ i ∈ rowCells k, i < 81 ∧ rowOf i = k) := by decide

theorem colCells_facts : ∀ k, k < 9 →
    (colCells k).Nodup ∧ (colCells k).length = 9 ∧
    (∀ i ∈ colCells k, i < 81 ∧ colOf i = k) := by decide

theorem boxCells_facts : ∀ k, k < 9 →
    (boxCells k).Nodup ∧ (boxCells k).length = 9 ∧
    (∀ i ∈ boxCells k, i < 81 ∧ boxOf i = k) := by decide

/-- Nine distinct cells in one unit, all full, in range, without
duplicates: each symbol 1..9 occurs exactly once (pigeonhole). -/
theorem unit_count_one {g : Board} {cells : List Nat}
    (hnd : cells.Nodup) (hlen : cells.length = 9)
    (hin : ∀ i ∈ cells, i < 81)
    (hfull : ∀ i ∈ cells, g i ≠ Space.Empty)
    (hrange : ∀ i n, i < 81 → g i = Space.Full n → 1 ≤ n ∧ n ≤ 9)
    (hdist : ∀ i j, i ∈ cells → j ∈ cells → i ≠ j →
      ∀ n, g i = Space.Full n → g j ≠ Space.Full n) :
    ∀ n, 1 ≤ n → n ≤ 9 → countSym g cells n = 1 := by
  classical
  set f : Nat → Nat := fun i => match g i with
    | Space.Empty => 0
    | Space.Full n => n with hf
  have hmaps : ∀ i ∈ cells, f i ∈ Finset.Icc 1 9 := by
    intro i hi
    cases hgi : g i with
    | Empty => exact absurd hgi (hfull i hi)
    | Full n =>
      have := hrange i n (hin i hi) hgi
      simp [hf, hgi, Finset.mem_Icc]
      omega
  have hinj : ∀ i ∈ cells, ∀ j ∈ cells, f i = f j → i = j := by
    intro i hi j hj hij
    by_contra hne
    cases hgi : g i with
    | Empty => exact absurd hgi (hfull i hi)
    | Full n =>
      cases hgj : g j with
      | Empty => exact absurd hgj (hfull j hj)
      | Full m =>
        rw [hf] at hij
        simp only [hgi, hgj] at hij
        subst hij
        exact hdist i j hi hj hne n hgi hgj
  have himage : cells.toFinset.image f = Finset.Icc 1 9 := by
    apply Finset.eq_of_subset_of_card_le
    · intro v hv
      rcases Finset.mem_image.1 hv with ⟨i, hi, hfi⟩
      rw [← hfi]
      exact hmaps i (List.mem_toFinset.1 hi)
    · have hcard : (cells.toFinset.image f).card = cells.toFinset.card := by
        apply Finset.card_image_of_injOn
        intro i hi j hj
        exact hinj i (List.mem_toFinset.1 hi) j (List.mem_toFinset.1 hj)
      rw [hcard, List.toFinset_card_of_nodup hnd, hlen]
      simp
  intro n h1 h9
  have hnmem : n ∈ cells.toFinset.image f := by
    rw [himage, Finset.mem_Icc]
    omega
  rcases Finset.mem_image.1 hnmem with ⟨i0, hi0, hfi0⟩
  have hi0mem : i0 ∈ cells := List.mem_toFinset.1 hi0
  have hgi0 : g i0 = Space.Full n := by
    cases hgi : g i0 with
    | Empty => exact absurd hgi (hfull i0 hi0mem)
    | Full m =>
      rw [hf] at hfi0
      simp only [hgi] at hfi0
      rw [hfi0]
  unfold countSym
  rw [List.countP_eq_length_filter]
  have hfilter : cells.filter (fun i => g i == Space.Full n) = [i0] := by
    have hsub : ∀ j ∈ cells.filter (fun i => g i == Space.Full n), j = i0 := by
      intro j hj
      rcases List.mem_filter.1 hj with ⟨hjc, hjeq⟩
      rw [beq_iff_eq] at hjeq
      by_contra hne
      exact hdist j i0 hjc hi0mem hne n hjeq hgi0
    have hi0f : i0 ∈ cells.filter (fun i => g i == Space.Full n) := by
      rw [List.mem_filter]
      exact ⟨hi0mem, by rw [beq_iff_eq]; exact hgi0⟩
    rcases hl : cells.filter (fun i => g i == Space.Full n) with _ | ⟨a, t⟩
    · rw [hl] at hi0f
      exact absurd hi0f (List.not_mem_nil i0)
    · rw [hl] at hsub hi0f
      have ha : a = i0 := hsub a (by simp)
      cases t with
      | nil => rw [ha]
      | cons a2 t2 =>
        have ha2 : a2 = i0 := hsub a2 (by simp)
        have hndf : (cells.filter (fun i => g i == Space.Full n)).Nodup := hnd.filter _
        rw [hl] at hndf
        rcases List.nodup_cons.1 hndf with ⟨hna, _⟩
        exact absurd (by rw [ha, ha2]; exact List.mem_cons_self i0 t2 : a ∈ a2 :: t2)
          (by rw [ha2] at hna ⊢; exact fun hx => hna hx)
  rw [hfilter]
  rfl

/-- A complete board with in-range symbols and no unit duplicates is a
valid grid in the counting sense. -/
theorem validGrid_of_parts {g : Board} (hfull : ∀ i, i < 81 → g i ≠ Space.Empty)
    (hrange : ValRange g) (hN : NoTwo g) : ValidGrid g := by
  intro k n hk h1 h9
  refine ⟨?_, ?_, ?_⟩
  · rcases rowCells_facts k hk with ⟨hnd, hlen, hmem⟩
    apply unit_count_one hnd hlen (fun i hi => (hmem i hi).1)
      (fun i hi => hfull i (hmem i hi).1) hrange _ n h1 h9
    intro i j hi hj hne m hgi
    exact hN i j m (hmem i hi).1 (hmem j hj).1 hne
      (Or.inr (Or.inl (by rw [(hmem i hi).2, (hmem j hj).2]))) hgi
  · rcases colCells_facts k hk with ⟨hnd, hlen, hmem⟩
    apply unit_count_one hnd hlen (fun i hi => (hmem i hi).1)
      (fun i hi => hfull i (hmem i hi).1) hrange _ n h1 h9
    intro i j hi hj hne m hgi
    exact hN i j m (hmem i hi).1 (hmem j hj).1 hne
      (Or.inl (by rw [(hmem i hi).2, (hmem j hj).2])) hgi
  · rcases boxCells_facts k hk with ⟨hnd, hlen, hmem⟩
    apply unit_count_one hnd hlen (fun i hi => (hmem i hi).1)
      (fun i hi => hfull i (hmem i hi).1) hrange _ n h1 h9
    intro i j hi hj hne m hgi
    exact hN i j m (hmem i hi).1 (hmem j hj).1 hne
      (Or.inr (Or.inr (by rw [(hmem i hi).2, (hmem j hj).2]))) hgi

/-! ## Completions and forced moves -/

theorem extends_canPlace {g sb : Board} {c w : Nat} (hg : FullValid g) (hext : ExtendsB sb g)
    (hc : c < 81) (hemp : sb c = Space.Empty) (hw : g c = Space.Full w) : CanPlace sb c w := by
  refine ⟨(hg.2.1 c w hc hw).1, (hg.2.1 c w hc hw).2, ?_⟩
  intro i hi hu hcon
  have hgi : g i = Space.Full w := hext i w hi hcon
  have hic : i ≠ c := by
    intro hx
    rw [hx, hemp] at hcon
    exact Space.noConfusion hcon
  exact hg.2.2 i c w hi hc hic hu hgi hw

theorem extendsB_update {sb g : Board} {c v : Nat} (hext : ExtendsB sb g)
    (hv : g c = Space.Full v) : ExtendsB (Function.update sb c (Space.Full v)) g := by
  intro i n hi hcon
  rw [Function.update_apply] at hcon
  by_cases h : i = c
  · rw [if_pos h] at hcon
    injection hcon with hvv
    rw [h, ← hvv]
    exact hv
  · rw [if_neg h] at hcon
    exact hext i n hi hcon

theorem stepP_extends {sb sb' g : Board} (hg : FullValid g) (hstep : StepP sb sb')
    (hext : ExtendsB sb g) : ExtendsB sb' g := by
  rcases hstep with ⟨c, v, ⟨hc, hemp, _, huniq⟩, hb'⟩
  cases hgc : g c with
  | Empty => exact absurd hgc (fun h => hg.1 c hc h)
  | Full w =>
    have hcp : CanPlace sb c w := extends_canPlace hg hext hc hemp hgc
    have hwv : w = v := huniq w hcp
    rw [hb']
    exact extendsB_update hext (by rw [← hwv]; exact hgc)

theorem steps_extends {sb sb' g : Board} (hsteps : Steps sb sb') (hg : FullValid g)
    (hext : ExtendsB sb g) : ExtendsB sb' g := by
  induction hsteps with
  | refl => exact hext
  | tail _ hstep ih => exact stepP_extends hg hstep ih

theorem not_failAt_of_completion {sb g : Board} (hg : FullValid g) (hext : ExtendsB sb g) :
    ¬FailAt sb := by
  rintro ⟨c, hc, hemp, hnone⟩
  cases hgc : g c with
  | Empty => exact absurd hgc (fun h => hg.1 c hc h)
  | Full w => exact hnone w (extends_canPlace hg hext hc hemp hgc)

theorem not_fails_of_completion {sb g : Board} (hg : FullValid g) (hext : ExtendsB sb g) :
    ¬Fails sb := by
  rintro ⟨u, hsteps, hfail⟩
  exact not_failAt_of_completion hg (steps_extends hsteps hg hext) hfail

/-! ## Search preserves validity -/

theorem tryGo_sound {f M : Nat} {s₁ : BookkeptBoard} {c : Nat}
    (hB₁ : Binv s₁) (hD₁ : DirtyInv s₁) (hM₁ : MaskInv s₁) (hN₁ : NoTwo s₁.board)
    (hV₁ : ValRange s₁.board) (hc : c < 81) (hemp : s₁.board c = Space.Empty)
    (hf : onesBelow 128 s₁.openSpaces ≤ M)
    (hrec : ∀ s₂, Binv s₂ → DirtyInv s₂ → MaskInv s₂ → NoTwo s₂.board → ValRange s₂.board →
      onesBelow 128 s₂.openSpaces + 1 ≤ M →
      ∀ t, solveHelperGo f s₂ = some (some t) →
        MaskInv t ∧ NoTwo t.board ∧ ValRange t.board) :
    ∀ l : List Nat, (∀ num ∈ l, (allowedMask s₁ c).testBit num = true) →
    ∀ t, tryGo (solveHelperGo f) s₁ c l = some (some t) →
      MaskInv t ∧ NoTwo t.board ∧ ValRange t.board := by
  intro l
  induction l with
  | nil =>
    intro _ t h
    simp [tryGo] at h
  | cons num rest ih =>
    intro hmem t h
    have hbit : (allowedMask s₁ c).testBit num = true := hmem num (by simp)
    have hnum : 1 ≤ num ∧ num ≤ 9 := by
      have := allowedMask_maskSub hB₁ c num hbit
      rw [allAllowed_testBit] at this
      exact this
    rw [tryGo] at h
    have hfill : fill s₁ c num = some (fillRaw s₁ c num) := fill_eq_some.2 ⟨hc, hemp, rfl⟩
    rw [hfill] at h
    simp only [] at h
    have hB₂ : Binv (fillRaw s₁ c num) := Binv_fillRaw hB₁ hc hemp num
    have hD₂ : DirtyInv (fillRaw s₁ c num) := DirtyInv_fillRaw hB₁ hD₁ hc num
    have hM₂ : MaskInv (fillRaw s₁ c num) := MaskInv_fillRaw hM₁ hc hemp hnum.1 hnum.2
    have hN₂ : NoTwo (fillRaw s₁ c num).board := NoTwo_fillRaw hM₁ hN₁ hc hbit
    have hV₂ : ValRange (fillRaw s₁ c num).board := ValRange_fillRaw hV₁ hnum.1 hnum.2
    have hcnt₂ : onesBelow 128 (fillRaw s₁ c num).openSpaces + 1
        = onesBelow 128 s₁.openSpaces := openCount_fillRaw hB₁ hc hemp num
    cases hhelper : solveHelperGo f (fillRaw s₁ c num) with
    | none => rw [hhelper] at h; simp at h
    | some r =>
      rw [hhelper] at h
      cases r with
      | none =>
        simp only [] at h
        exact ih (fun v hv => hmem v (by simp [hv])) t h
      | some sol =>
        simp only [Option.some.injEq] at h
        rw [← h]
        exact hrec (fillRaw s₁ c num) hB₂ hD₂ hM₂ hN₂ hV₂ (by omega) sol hhelper

theorem solveHelperGo_sound : ∀ (N : Nat) (s : BookkeptBoard) (fuel : Nat),
    onesBelow 128 s.openSpaces ≤ N → N + 1 ≤ fuel → Binv s → DirtyInv s → MaskInv s →
    NoTwo s.board → ValRange s.board →
    ∀ t, solveHelperGo fuel s = some (some t) →
      MaskInv t ∧ NoTwo t.board ∧ ValRange t.board := by
  intro N
  induction N with
  | zero =>
    intro s fuel hcnt hfuel hB hD hM hN hV t h
    cases fuel with
    | zero => omega
    | succ f =>
      rw [solveHelperGo] at h
      rcases makeForcedChoices_spec hB hD with ⟨hnp, hres⟩
      cases hmfc : makeForcedChoices s with
      | none => exact absurd hmfc hnp
      | some r =>
        rw [hmfc] at h
        cases r with
        | none => simp at h
        | some s₁ =>
          simp only [] at h
          rcases hres s₁ hmfc with ⟨hB₁, hD₁, hupd₁, hosub, hbmono, _⟩
          rcases (makeForcedChoices_search hB hD hM).1 s₁ hmfc with ⟨hM₁, hN₁, hV₁, _⟩
          have hcnt₁ : onesBelow 128 s₁.openSpaces = 0 := by
            have := onesBelow_le_of_subset (w := 128) hosub
            omega
          have hopen₁ : s₁.openSpaces = 0 := zero_of_onesBelow hB₁.openLt hcnt₁
          rw [(pickOpenSpace_none hB₁).2 hopen₁] at h
          simp only [Option.some.injEq] at h
          rw [← h]
          exact ⟨hM₁, hN₁ hN, hV₁ hV⟩
  | succ N ih =>
    intro s fuel hcnt hfuel hB hD hM hN hV t h
    cases fuel with
    | zero => omega
    | succ f =>
      rw [solveHelperGo] at h
      rcases makeForcedChoices_spec hB hD with ⟨hnp, hres⟩
      cases hmfc : makeForcedChoices s with
      | none => exact absurd hmfc hnp
      | some r =>
        rw [hmfc] at h
        cases r with
        | none => simp at h
        | some s₁ =>
          simp only [] at h
          rcases hres s₁ hmfc with ⟨hB₁, hD₁, hupd₁, hosub, hbmono, _⟩
          rcases (makeForcedChoices_search hB hD hM).1 s₁ hmfc with ⟨hM₁, hN₁, hV₁, _⟩
          have hcnt₁ : onesBelow 128 s₁.openSpaces ≤ N + 1 := by
            have := onesBelow_le_of_subset (w := 128) hosub
            omega
          cases hpick : pickOpenSpace s₁ with
          | none =>
            rw [hpick] at h
            simp only [Option.some.injEq] at h
            rw [← h]
            exact ⟨hM₁, hN₁ hN, hV₁ hV⟩
          | some c =>
            rw [hpick] at h
            simp only [] at h
            rcases pickOpenSpace_some hB₁ hpick with ⟨hc81, hcopen, _⟩
            have h81 : ¬(81 ≤ c) := by omega
            rw [if_neg h81] at h
            have hemp : s₁.board c = Space.Empty := (hB₁.openIff c hc81).2 hcopen
            apply tryGo_sound hB₁ hD₁ hM₁ (hN₁ hN) (hV₁ hV) hc81 hemp hcnt₁
              (fun s₂ hB₂ hD₂ hM₂ hN₂ hV₂ hcnt₂ => ih s₂ f (by omega) (by omega)
                hB₂ hD₂ hM₂ hN₂ hV₂)
              (allowedForList (allowedMask s₁ c))
              (fun num hnum => (mem_allowedForList hB₁ c num).1 hnum) t h

/-! ## Completeness of the search -/

theorem tryGo_complete {f M : Nat} {s₁ : BookkeptBoard} {c : Nat} {g : Board}
    (hB₁ : Binv s₁) (hD₁ : DirtyInv s₁) (hc : c < 81) (hemp : s₁.board c = Space.Empty)
    (hg : FullValid g) (hf : onesBelow 128 s₁.openSpaces ≤ M)
    (hnp : ∀ s₂, Binv s₂ → DirtyInv s₂ → onesBelow 128 s₂.openSpaces + 1 ≤ M →
      solveHelperGo f s₂ ≠ none)
    (hcompl : ∀ s₂, Binv s₂ → DirtyInv s₂ → MaskInv s₂ →
      onesBelow 128 s₂.openSpaces + 1 ≤ M → ExtendsB s₂.board g →
      ∃ t, solveHelperGo f s₂ = some (some t))
    (hM₁ : MaskInv s₁) {w : Nat} (hw : g c = Space.Full w) :
    ∀ l : List Nat, w ∈ l → (∀ num ∈ l, (allowedMask s₁ c).testBit num = true) →
    ExtendsB s₁.board g →
    ∃ t, tryGo (solveHelperGo f) s₁ c l = some (some t) := by
  intro l
  induction l with
  | nil =>
    intro hwmem _ _
    exact absurd hwmem (List.not_mem_nil w)
  | cons num rest ih =>
    intro hwmem hmem hext
    have hbit : (allowedMask s₁ c).testBit num = true := hmem num (by simp)
    have hnum : 1 ≤ num ∧ num ≤ 9 := by
      have := allowedMask_maskSub hB₁ c num hbit
      rw [allAllowed_testBit] at this
      exact this
    rw [tryGo]
    have hfill : fill s₁ c num = some (fillRaw s₁ c num) := fill_eq_some.2 ⟨hc, hemp, rfl⟩
    rw [hfill]
    simp only []
    have hB₂ : Binv (fillRaw s₁ c num) := Binv_fillRaw hB₁ hc hemp num
    have hD₂ : DirtyInv (fillRaw s₁ c num) := DirtyInv_fillRaw hB₁ hD₁ hc num
    have hM₂ : MaskInv (fillRaw s₁ c num) := MaskInv_fillRaw hM₁ hc hemp hnum.1 hnum.2
    have hcnt₂ : onesBelow 128 (fillRaw s₁ c num).openSpaces + 1
        = onesBelow 128 s₁.openSpaces := openCount_fillRaw hB₁ hc hemp num
    cases hhelper : solveHelperGo f (fillRaw s₁ c num) with
    | none => exact absurd hhelper (hnp (fillRaw s₁ c num) hB₂ hD₂ (by omega))
    | some r =>
      cases r with
      | none =>
        simp only []
        by_cases hnw : num = w
        · exfalso
          have hext₂ : ExtendsB (fillRaw s₁ c num).board g := by
            have : (fillRaw s₁ c num).board
                = Function.update s₁.board c (Space.Full num) := rfl
            rw [this, hnw]
            exact extendsB_update hext hw
          rcases hcompl (fillRaw s₁ c num) hB₂ hD₂ hM₂ (by omega) hext₂ with ⟨t, ht⟩
          rw [ht] at hhelper
          exact Option.noConfusion (Option.some.inj hhelper)
        · have hwrest : w ∈ rest := by
            rcases List.mem_cons.1 hwmem with hx | hx
            · exact absurd hx.symm hnw
            · exact hx
          exact ih hwrest (fun v hv => hmem v (by simp [hv])) hext
      | some sol => exact ⟨sol, rfl⟩

theorem solveHelperGo_complete : ∀ (N : Nat) (s : BookkeptBoard) (fuel : Nat) (g : Board),
    onesBelow 128 s.openSpaces ≤ N → N + 1 ≤ fuel → Binv s → DirtyInv s → MaskInv s →
    FullValid g → ExtendsB s.board g →
    ∃ t, solveHelperGo fuel s = some (some t) := by
  intro N
  induction N with
  | zero =>
    intro s fuel g hcnt hfuel hB hD hM hg hext
    cases fuel with
    | zero => omega
    | succ f =>
      rw [solveHelperGo]
      rcases makeForcedChoices_spec hB hD with ⟨hnp, hres⟩
      cases hmfc : makeForcedChoices s with
      | none => exact absurd hmfc hnp
      | some r =>
        cases r with
        | none =>
          exfalso
          exact not_fails_of_completion hg hext ((makeForcedChoices_search hB hD hM).2 hmfc)
        | some s₁ =>
          simp only []
          rcases hres s₁ hmfc with ⟨hB₁, _, _, hosub, _, _⟩
          have hcnt₁ : onesBelow 128 s₁.openSpaces = 0 := by
            have := onesBelow_le_of_subset (w := 128) hosub
            omega
          have hopen₁ : s₁.openSpaces = 0 := zero_of_onesBelow hB₁.openLt hcnt₁
          rw [(pickOpenSpace_none hB₁).2 hopen₁]
          exact ⟨s₁, rfl⟩
  | succ N ih =>
    intro s fuel g hcnt hfuel hB hD hM hg hext
    cases fuel with
    | zero => omega
    | succ f =>
      rw [solveHelperGo]
      rcases makeForcedChoices_spec hB hD with ⟨hnp, hres⟩
      cases hmfc : makeForcedChoices s with
      | none => exact absurd hmfc hnp
      | some r =>
        cases r with
        | none =>
          exfalso
          exact not_fails_of_completion hg hext ((makeForcedChoices_search hB hD hM).2 hmfc)
        | some s₁ =>
          simp only []
          rcases hres s₁ hmfc with ⟨hB₁, hD₁, hupd₁, hosub, hbmono, _⟩
          rcases (makeForcedChoices_search hB hD hM).1 s₁ hmfc with ⟨hM₁, _, _, hsteps₁⟩
          have hext₁ : ExtendsB s₁.board g := steps_extends hsteps₁ hg hext
          have hcnt₁ : onesBelow 128 s₁.openSpaces ≤ N + 1 := by
            have := onesBelow_le_of_subset (w := 128) hosub
            omega
          cases hpick : pickOpenSpace s₁ with
          | none => exact ⟨s₁, rfl⟩
          | some c =>
            simp only []
            rcases pickOpenSpace_some hB₁ hpick with ⟨hc81, hcopen, _⟩
            have h81 : ¬(81 ≤ c) := by omega
            rw [if_neg h81]
            have hemp : s₁.board c = Space.Empty := (hB₁.openIff c hc81).2 hcopen
            cases hgc : g c with
            | Empty => exact absurd hgc (fun h => hg.1 c hc81 h)
            | Full w =>
              have hcp : CanPlace s₁.board c w := extends_canPlace hg hext₁ hc81 hemp hgc
              have hwbit : (allowedMask s₁ c).testBit w = true :=
                (allowedMask_canPlace hM₁ hc81 w).2 hcp
              apply tryGo_complete hB₁ hD₁ hc81 hemp hg hcnt₁ _ _ hM₁ hgc
                (allowedForList (allowedMask s₁ c))
                ((mem_allowedForList hB₁ c w).2 hwbit)
                (fun num hnum => (mem_allowedForList hB₁ c num).1 hnum) hext₁
              · intro s₂ hB₂ hD₂ hcnt₂
                exact (solveHelperGo_spec N s₂ f (by omega) (by omega) hB₂ hD₂).1
              · intro s₂ hB₂ hD₂ hM₂ hcnt₂ hext₂
                exact ih s₂ f g (by omega) (by omega) hB₂ hD₂ hM₂ hg hext₂

/-! ## Top-level facts about `solve` -/

theorem solveHelper_eq (s : BookkeptBoard) :
    solveHelper s = solveHelperGo (onesBelow 128 s.openSpaces + 1) s := rfl

theorem solve_noPanic (b : Board) : solve b ≠ none := by
  unfold solve
  rcases fromBoard_spec b with ⟨hnp, hres⟩
  cases hfb : fromBoard b with
  | none => exact absurd hfb hnp
  | some s =>
    simp only []
    rcases hres s hfb with ⟨hB, hD, _⟩
    have hsh := (solveHelperGo_spec (onesBelow 128 s.openSpaces) s
      (onesBelow 128 s.openSpaces + 1) le_rfl le_rfl hB hD).1
    rw [← solveHelper_eq] at hsh
    cases h : solveHelper s with
    | none => exact absurd h hsh
    | some r =>
      cases r with
      | none => simp
      | some t => simp

/-- Any grid returned by `solve` is fully filled and preserves every
clue of the input. -/
theorem solve_full_preserves {b g : Board} (h : solve b = some (some g)) :
    (∀ i, i < 81 → g i ≠ Space.Empty) ∧ ExtendsB b g := by
  unfold solve at h
  rcases fromBoard_spec b with ⟨hnp, hres⟩
  cases hfb : fromBoard b with
  | none => exact absurd hfb hnp
  | some s =>
    rw [hfb] at h
    simp only [] at h
    rcases hres s hfb with ⟨hB, hD, hagree, _, _, _, _⟩
    cases hsh : solveHelper s with
    | none => rw [hsh] at h; exact Option.noConfusion h
    | some r =>
      rw [hsh] at h
      cases r with
      | none => simp at h
      | some t =>
        simp only [Option.some.injEq] at h
        rw [solveHelper_eq] at hsh
        rcases (solveHelperGo_spec (onesBelow 128 s.openSpaces) s
          (onesBelow 128 s.openSpaces + 1) le_rfl le_rfl hB hD).2 t hsh
          with ⟨hBt, hOt, hmono⟩
        constructor
        · intro i hi hempty
          rw [← h] at hempty
          have := (hBt.openIff i hi).1 hempty
          rw [hOt] at this
          rw [Nat.zero_testBit] at this
          exact Bool.false_ne_true this
        · intro i n hi hfi
          have hsb : s.board i = Space.Full n := by rw [hagree i hi]; exact hfi
          have hne : s.board i ≠ Space.Empty := by
            rw [hsb]
            exact fun hx => Space.noConfusion hx
          have ht2 : t.board i = s.board i := hmono i hne
          rw [← h, ht2, hsb]

/-- With well-formed clues, any grid returned by `solve` is a valid
grid: every row, column and box holds each symbol exactly once. -/
theorem solve_validGrid {b g : Board} (hGC : GoodClues b) (h : solve b = some (some g)) :
    ValidGrid g := by
  rcases solve_full_preserves h with ⟨hfull, _⟩
  unfold solve at h
  rcases fromBoard_spec b with ⟨hnp, hres⟩
  cases hfb : fromBoard b with
  | none => exact absurd hfb hnp
  | some s =>
    rw [hfb] at h
    simp only [] at h
    rcases hres s hfb with ⟨hB, hD, hagree, _, hMk, hNt, hVr⟩
    cases hsh : solveHelper s with
    | none => rw [hsh] at h; exact Option.noConfusion h
    | some r =>
      rw [hsh] at h
      cases r with
      | none => simp at h
      | some t =>
        simp only [Option.some.injEq] at h
        rw [solveHelper_eq] at hsh
        rcases solveHelperGo_sound (onesBelow 128 s.openSpaces) s
          (onesBelow 128 s.openSpaces + 1) le_rfl le_rfl hB hD (hMk hGC.1)
          (hNt hGC) (hVr hGC.1) t hsh with ⟨_, hNoTwo, hValR⟩
        rw [← h]
        exact validGrid_of_parts (by rw [← h] at hfull; exact hfull) hValR hNoTwo

/-- Completeness: a solvable grid is solved. -/
theorem solve_complete {b g : Board} (hc : Completion b g) :
    ∃ g', solve b = some (some g') := by
  rcases hc with ⟨hg, hext⟩
  have hGC : GoodClues b := by
    constructor
    · intro i n hi hfi
      exact hg.2.1 i n hi (hext i n hi hfi)
    · intro i j n hi hj hij hu hfi hfj
      exact hg.2.2 i j n hi hj hij hu (hext i n hi hfi) (hext j n hj hfj)
  unfold solve
  rcases fromBoard_spec b with ⟨hnp, hres⟩
  cases hfb : fromBoard b with
  | none => exact absurd hfb hnp
  | some s =>
    simp only []
    rcases hres s hfb with ⟨hB, hD, hagree, _, hMk, _, _⟩
    have hexts : ExtendsB s.board g := by
      intro i n hi hfi
      apply hext i n hi
      rw [← hagree i hi]
      exact hfi
    rcases solveHelperGo_complete (onesBelow 128 s.openSpaces) s
      (onesBelow 128 s.openSpaces + 1) g le_rfl le_rfl hB hD (hMk hGC.1) hg hexts
      with ⟨t, ht⟩
    rw [← solveHelper_eq] at ht
    rw [ht]
    exact ⟨t.board, rfl⟩

/-! ## Concrete boards for witnesses and counterexamples -/

/-- Every cell holds 1: a fully filled, invalid grid. -/
def onesGrid : Board := fun _ => Space.Full 1

/-- Every cell holds 2: a fully filled, invalid grid. -/
def twosGrid : Board := fun _ => Space.Full 2

/-- A classic fully filled valid sudoku grid:
cell `(r, c)` holds `(3 * (r % 3) + r / 3 + c) % 9 + 1`. -/
def baseGrid : Board := fun i =>
  if i < 81 then Space.Full ((3 * (i / 9 % 3) + i / 9 / 3 + i % 9) % 9 + 1) else Space.Empty

/-- A second valid full grid (shifted variant of `baseGrid`). -/
def base2Grid : Board := fun i =>
  if i < 81 then Space.Full ((3 * (i / 9 % 3) + i / 9 / 3 + i % 9 + 1) % 9 + 1)
  else Space.Empty

/-- `baseGrid` with cell 40 removed. -/
def grid80 : Board := fun i => if i = 40 then Space.Empty else baseGrid i

/-- `baseGrid` with cells 40 and 41 removed. -/
def grid79 : Board := fun i => if i = 40 ∨ i = 41 then Space.Empty else baseGrid i

set_option maxRecDepth 400000 in
theorem baseGrid_good : GoodClues baseGrid := by
  constructor
  · intro i n hi hf
    simp only [baseGrid, if_pos hi] at hf
    injection hf with h
    omega
  · have key : ∀ i, i < 81 → ∀ j, j < 81 → i ≠ j → sameUnit i j →
        (3 * (i / 9 % 3) + i / 9 / 3 + i % 9) % 9 ≠
          (3 * (j / 9 % 3) + j / 9 / 3 + j % 9) % 9 := by decide
    intro i j n hi hj hij hu hfi hfj
    simp only [baseGrid, if_pos hi] at hfi
    simp only [baseGrid, if_pos hj] at hfj
    injection hfi with h1
    injection hfj with h2
    have := key i hi j hj hij hu
    omega

set_option maxRecDepth 400000 in
theorem base2Grid_good : GoodClues base2Grid := by
  constructor
  · intro i n hi hf
    simp only [base2Grid, if_pos hi] at hf
    injection hf with h
    omega
  · have key : ∀ i, i < 81 → ∀ j, j < 81 → i ≠ j → sameUnit i j →
        (3 * (i / 9 % 3) + i / 9 / 3 + i % 9 + 1) % 9 ≠
          (3 * (j / 9 % 3) + j / 9 / 3 + j % 9 + 1) % 9 := by decide
    intro i j n hi hj hij hu hfi hfj
    simp only [base2Grid, if_pos hi] at hfi
    simp only [base2Grid, if_pos hj] at hfj
    injection hfi with h1
    injection hfj with h2
    have := key i hi j hj hij hu
    omega

theorem baseGrid_fullValid : FullValid baseGrid := by
  refine ⟨?_, baseGrid_good⟩
  intro i hi
  simp only [baseGrid, if_pos hi]
  exact fun h => Space.noConfusion h

theorem base2Grid_fullValid : FullValid base2Grid := by
  refine ⟨?_, base2Grid_good⟩
  intro i hi
  simp only [base2Grid, if_pos hi]
  exact fun h => Space.noConfusion h

theorem grid80_completion : Completion grid80 baseGrid := by
  refine ⟨baseGrid_fullValid, ?_⟩
  intro i n hi hf
  simp only [grid80] at hf
  by_cases h : i = 40
  · rw [if_pos h] at hf
    exact Space.noConfusion hf
  · rwa [if_neg h] at hf

theorem grid79_completion : Completion grid79 baseGrid := by
  refine ⟨baseGrid_fullValid, ?_⟩
  intro i n hi hf
  simp only [grid79] at hf
  by_cases h : i = 40 ∨ i = 41
  · rw [if_pos h] at hf
    exact Space.noConfusion hf
  · rwa [if_neg h] at hf

/-- With well-formed clues, a returned grid also has well-formed cells
(range and no duplicates). -/
theorem solve_sound {b g : Board} (hGC : GoodClues b) (h : solve b = some (some g)) :
    GoodClues g := by
  unfold solve at h
  rcases fromBoard_spec b with ⟨hnp, hres⟩
  cases hfb : fromBoard b with
  | none => exact absurd hfb hnp
  | some s =>
    rw [hfb] at h
    simp only [] at h
    rcases hres s hfb with ⟨hB, hD, hagree, _, hMk, hNt, hVr⟩
    cases hsh : solveHelper s with
    | none => rw [hsh] at h; exact Option.noConfusion h
    | some r =>
      rw [hsh] at h
      cases r with
      | none => simp at h
      | some t =>
        simp only [Option.some.injEq] at h
        rw [solveHelper_eq] at hsh
        rcases solveHelperGo_sound (onesBelow 128 s.openSpaces) s
          (onesBelow 128 s.openSpaces + 1) le_rfl le_rfl hB hD (hMk hGC.1)
          (hNt hGC) (hVr hGC.1) t hsh with ⟨_, hNoTwo, hValR⟩
        rw [← h]
        exact ⟨hValR, hNoTwo⟩

theorem goodClues_of_completion {b g : Board} (hc : Completion b g) : GoodClues b := by
  rcases hc with ⟨hg, hext⟩
  constructor
  · intro i n hi hfi
    exact hg.2.1 i n hi (hext i n hi hfi)
  · intro i j n hi hj hij hu hfi hfj
    exact hg.2.2 i j n hi hj hij hu (hext i n hi hfi) (hext j n hj hfj)

/-! ## The claims -/

/-- Output of `solve` on the all-ones grid. -/
def c1cxOut : Board :=
  match solve onesGrid with
  | some (some g) => g
  | _ => Board.new

set_option maxRecDepth 1000000 in
/-- C1, counterexample: on the fully filled all-ones grid — whose every
cell was `Full` in the input — `solve` returns `Some` of a grid whose
row 0 contains the symbol 1 nine times, not exactly once.  The claim
that every grid returned by `solve` has each symbol exactly once per
row is therefore false as stated. -/
theorem claim_C1_counterexample :
    onesGrid 0 = Space.Full 1 ∧ onesGrid 1 = Space.Full 1 ∧
    solve onesGrid = some (some c1cxOut) ∧
    countSym c1cxOut (rowCells 0) 1 = 9 := by
  refine ⟨rfl, rfl, rfl, by decide⟩

/-- C1 (amended): for every input grid whose clues are in range 1..9 and
duplicate-free in every row, column and box, any grid returned by
`solve` is fully filled, contains each symbol 1–9 exactly once in every
row, column and box, and retains every original clue. -/
theorem claim_C1_amended : ∀ b r : Board, GoodClues b → solve b = some (some r) →
    (∀ i, i < 81 → r i ≠ Space.Empty) ∧ ValidGrid r ∧ ExtendsB b r := by
  intro b r hGC h
  exact ⟨(solve_full_preserves h).1, solve_validGrid hGC h, (solve_full_preserves h).2⟩

/-- Output of `solve` on `baseGrid`. -/
def c1Out : Board :=
  match solve baseGrid with
  | some (some g) => g
  | _ => Board.new

/-- C1 (amended), witness at `baseGrid`. -/
theorem claim_C1_witness :
    GoodClues baseGrid ∧ solve baseGrid = some (some c1Out) ∧
    ((∀ i, i < 81 → c1Out i ≠ Space.Empty) ∧ ValidGrid c1Out ∧ ExtendsB baseGrid c1Out) := by
  rcases solve_complete ⟨baseGrid_fullValid, fun i n _ h => h⟩ with ⟨g', heq⟩
  have hvv : c1Out = g' := by
    unfold c1Out
    rw [heq]
  have heq' : solve baseGrid = some (some c1Out) := by rw [hvv]; exact heq
  exact ⟨baseGrid_good, heq', claim_C1_amended baseGrid c1Out baseGrid_good heq'⟩

/-- C2: any grid with at least one valid completion is solved — `solve`
returns `Some` of a valid completion, never the no-solution outcome and
never a panic. -/
theorem claim_C2 : ∀ b : Board, (∃ g, Completion b g) →
    ∃ g', solve b = some (some g') ∧ Completion b g' := by
  intro b hex
  rcases hex with ⟨g, hc⟩
  rcases solve_complete hc with ⟨g', h⟩
  refine ⟨g', h, ⟨⟨(solve_full_preserves h).1, ?_⟩, (solve_full_preserves h).2⟩⟩
  exact solve_sound (goodClues_of_completion hc) h

/-- Output of `solve` on `grid80`. -/
def c2Out : Board :=
  match solve grid80 with
  | some (some g) => g
  | _ => Board.new

/-- C2, witness at `grid80` (a valid grid with one cell removed). -/
theorem claim_C2_witness :
    solve grid80 = some (some c2Out) ∧ Completion grid80 c2Out := by
  rcases claim_C2 grid80 ⟨baseGrid, grid80_completion⟩ with ⟨g', heq, hcomp⟩
  have hvv : c2Out = g' := by
    unfold c2Out
    rw [heq]
  exact ⟨by rw [hvv]; exact heq, by rw [hvv]; exact hcomp⟩

/-- Output of `solve` on the all-twos grid. -/
def c3Out : Board :=
  match solve twosGrid with
  | some (some g) => g
  | _ => Board.new

set_option maxRecDepth 1000000 in
/-- C3, counterexample: the all-twos grid has the symbol 2 pre-placed in
two distinct cells (0 and 1) of row 0, yet `solve` does not return the
no-solution outcome — it returns `Some` of a grid.  The claim that
`solve` returns `None` on every such input is false as stated. -/
theorem claim_C3_counterexample :
    rowOf 0 = rowOf 1 ∧ twosGrid 0 = Space.Full 2 ∧ twosGrid 1 = Space.Full 2 ∧
    solve twosGrid = some (some c3Out) := ⟨rfl, rfl, rfl, rfl⟩

/-- C3 (amended): on an input with the same symbol pre-placed in two
distinct cells of one row, `solve` never panics, and either reports "no
solution" or returns a grid that still carries the duplicated symbol in
both cells (the duplicate is never repaired; the contradiction is not
always detected). -/
theorem claim_C3_amended : ∀ (b : Board) (i j n : Nat), i < 81 → j < 81 → i ≠ j →
    rowOf i = rowOf j → b i = Space.Full n → b j = Space.Full n →
    solve b ≠ none ∧
    (solve b = some none ∨
      ∃ g, solve b = some (some g) ∧ g i = Space.Full n ∧ g j = Space.Full n) := by
  intro b i j n hi hj hij hrow hfi hfj
  refine ⟨solve_noPanic b, ?_⟩
  cases h : solve b with
  | none => exact absurd h (solve_noPanic b)
  | some r =>
    cases r with
    | none => exact Or.inl rfl
    | some g =>
      right
      rcases solve_full_preserves h with ⟨_, hext⟩
      exact ⟨g, rfl, hext i n hi hfi, hext j n hj hfj⟩

/-- C3 (amended), witness at the all-twos grid. -/
theorem claim_C3_witness :
    solve twosGrid ≠ none ∧
    (solve twosGrid = some none ∨
      ∃ g, solve twosGrid = some (some g) ∧ g 0 = Space.Full 2 ∧ g 1 = Space.Full 2) :=
  claim_C3_amended twosGrid 0 1 2 (by omega) (by omega) (by omega) rfl rfl rfl

/-- C5: `solve` is deterministic (equal inputs give equal outputs), the
branching cell is always the lowest-index open cell — `pick_open_space`
returns an open cell below which no cell is open — and the candidate
numbers of a branch are tried in strictly ascending order. -/
theorem claim_C5 :
    (∀ b₁ b₂ : Board, b₁ = b₂ → solve b₁ = solve b₂) ∧
    (∀ s : BookkeptBoard, Binv s → ∀ c, pickOpenSpace s = some c →
      s.openSpaces.testBit c = true ∧ ∀ j, j < c → s.openSpaces.testBit j = false) ∧
    (∀ m : Nat, List.Sorted (· < ·) (allowedForList m)) := by
  refine ⟨fun b₁ b₂ h => by rw [h], ?_, ?_⟩
  · intro s hB c hc
    exact ⟨(pickOpenSpace_some hB hc).2.1, (pickOpenSpace_some hB hc).2.2⟩
  · intro m
    unfold allowedForList
    by_cases h : m.testBit 0 = true
    · simp [h]
    · simp only [h]
      have : (if (m.testBit 0) = true then ([] : List Nat) else bitsBelow 16 m)
          = bitsBelow 16 m := by simp [h]
      simp [h, bitsBelow_sorted]

/-- C5, witness. -/
theorem claim_C5_witness :
    solve onesGrid = solve onesGrid ∧
    (BookkeptBoard.new.openSpaces.testBit 0 = true ∧
      ∀ j, j < 0 → BookkeptBoard.new.openSpaces.testBit j = false) ∧
    List.Sorted (· < ·) (allowedForList 6) :=
  ⟨claim_C5.1 onesGrid onesGrid rfl,
    claim_C5.2.1 BookkeptBoard.new Binv_new 0 (by decide),
    claim_C5.2.2 6⟩

/-- C6: on a fully filled valid grid, `solve` succeeds and returns the
very same grid, unchanged in every cell. -/
theorem claim_C6 : ∀ b : Board, (∀ i, i < 81 → b i ≠ Space.Empty) → GoodClues b →
    ∃ g, solve b = some (some g) ∧ ∀ i, i < 81 → g i = b i := by
  intro b hfull hGC
  rcases solve_complete (⟨⟨hfull, hGC⟩, fun i n _ h => h⟩ : Completion b b) with ⟨g, h⟩
  refine ⟨g, h, ?_⟩
  intro i hi
  cases hbi : b i with
  | Empty => exact absurd hbi (hfull i hi)
  | Full n => rw [(solve_full_preserves h).2 i n hi hbi]

/-- Output of `solve` on `base2Grid`. -/
def c6Out : Board :=
  match solve base2Grid with
  | some (some g) => g
  | _ => Board.new

/-- C6, witness at `base2Grid`. -/
theorem claim_C6_witness :
    solve base2Grid = some (some c6Out) ∧ ∀ i, i < 81 → c6Out i = base2Grid i := by
  rcases claim_C6 base2Grid base2Grid_fullValid.1 base2Grid_good with ⟨g, heq, hcells⟩
  have hvv : c6Out = g := by
    unfold c6Out
    rw [heq]
  exact ⟨by rw [hvv]; exact heq, by rw [hvv]; exact hcells⟩

/-- C7, counterexample: `Number::new` does not abort on the
out-of-range value 10 — `NonZeroU8::new` only rejects 0, so `new(10)`
returns a `Number`.  The claim that constructing a symbol from any value
greater than 9 aborts is false. -/
theorem claim_C7_counterexample : numberNew 10 = some 10 := rfl

/-- C7 (amended): calling `fill` on a cell that is not `Empty` (or out
of bounds) aborts, and `Number::new` aborts on 0; but `Number::new`
accepts every non-zero value, including values greater than 9. -/
theorem claim_C7_amended :
    (∀ (s : BookkeptBoard) (c num : Nat), s.board c ≠ Space.Empty → fill s c num = none) ∧
    numberNew 0 = none ∧
    (∀ n : Nat, 1 ≤ n → numberNew n = some n) := by
  refine ⟨?_, rfl, ?_⟩
  · intro s c num hne
    unfold fill
    by_cases h81 : 81 ≤ c
    · rw [if_pos h81]
    · rw [if_neg h81, if_neg hne]
  · intro n hn
    unfold numberNew numberSafeNew
    rw [if_neg (by omega)]

/-- C7 (amended), witness. -/
theorem claim_C7_witness :
    fill (fillRaw BookkeptBoard.new 0 5) 0 7 = none ∧
    numberNew 0 = none ∧ numberNew 10 = some 10 :=
  ⟨claim_C7_amended.1 (fillRaw BookkeptBoard.new 0 5) 0 7 (by decide),
    claim_C7_amended.2.1, claim_C7_amended.2.2 10 (by omega)⟩

/-- C10: on any input whose full cells hold symbols in 1..9, `solve`
never panics: every `fill` hits an empty in-bounds cell, the `unwrap`
after `is_one_allowed` always succeeds, and the recursion fuel bounds
are never exhausted. -/
theorem claim_C10 : ∀ b : Board,
    (∀ i n, i < 81 → b i = Space.Full n → 1 ≤ n ∧ n ≤ 9) → solve b ≠ none :=
  fun b _ => solve_noPanic b

/-- C10, witness at `grid79`. -/
theorem claim_C10_witness : solve grid79 ≠ none := by
  apply claim_C10 grid79
  intro i n hi hf
  simp only [grid79] at hf
  by_cases h : i = 40 ∨ i = 41
  · rw [if_pos h] at hf
    exact Space.noConfusion hf
  · rw [if_neg h] at hf
    exact baseGrid_good.1 i n hi hf

/-! ## C4 and C8 -/

theorem canPlace_mono_update {b : Board} {d w : Nat} (hd : b d = Space.Empty) {c v : Nat}
    (h : CanPlace (Function.update b d (Space.Full w)) c v) : CanPlace b c v := by
  rcases h with ⟨h1, h9, hfree⟩
  refine ⟨h1, h9, ?_⟩
  intro i hi hu hcon
  have hne : i ≠ d := by
    intro hx
    rw [hx, hd] at hcon
    exact Space.noConfusion hcon
  apply hfree i hi hu
  rw [Function.update_apply, if_neg hne]
  exact hcon

theorem stepP_keep_dead {sb sb' : Board} (hstep : StepP sb sb') {c : Nat}
    (hemp : sb c = Space.Empty) (hdead : ∀ v, ¬CanPlace sb c v) :
    sb' c = Space.Empty ∧ ∀ v, ¬CanPlace sb' c v := by
  rcases hstep with ⟨d, w, ⟨hd81, hdemp, hdcan, _⟩, hb'⟩
  have hdc : d ≠ c := by
    intro hx
    rw [hx] at hdcan
    exact hdead w hdcan
  constructor
  · rw [hb', Function.update_apply, if_neg (fun hx => hdc hx.symm)]
    exact hemp
  · intro v hv
    rw [hb'] at hv
    exact hdead v (canPlace_mono_update hdemp hv)

theorem steps_keep_dead_full {sb sb' : Board} (hsteps : Steps sb sb') {c : Nat}
    (hemp : sb c = Space.Empty) (hdead : ∀ v, ¬CanPlace sb c v) :
    sb' c = Space.Empty ∧ ∀ v, ¬CanPlace sb' c v := by
  induction hsteps with
  | refl => exact ⟨hemp, hdead⟩
  | tail _ hstep ih => exact stepP_keep_dead hstep ih.1 ih.2

theorem steps_keep_dead {sb sb' : Board} (hsteps : Steps sb sb') {c : Nat}
    (hemp : sb c = Space.Empty) (hdead : ∀ v, ¬CanPlace sb c v) :
    sb' c = Space.Empty :=
  (steps_keep_dead_full hsteps hemp hdead).1

set_option maxRecDepth 1000000 in
/-- C4: under the propagation invariants, a successful
`make_forced_choices` is quiescent — no open cell's effective candidate
mask (column ∧ row ∧ box) is empty or a singleton — and an open cell
with an empty effective mask forces the `None` outcome.  The final
conjunct ties the mask tests of the code to candidate-set cardinality. -/
theorem claim_C4 : ∀ s : BookkeptBoard, Binv s → DirtyInv s → MaskInv s →
    (∀ s', makeForcedChoices s = some (some s') →
      ∀ c, c < 81 → s'.openSpaces.testBit c = true →
        allowedMask s' c ≠ 0 ∧ isOneAllowed (allowedMask s' c) = false) ∧
    (∀ c, c < 81 → s.openSpaces.testBit c = true → allowedMask s c = 0 →
      makeForcedChoices s = some none) ∧
    (∀ m, m < 1024 →
      ((m = 0 ↔ onesBelow 16 m = 0) ∧ (isOneAllowed m = true ↔ onesBelow 16 m = 1))) := by
  intro s hB hD hM
  have hbridge : ∀ m, m < 1024 →
      ((m = 0 ↔ onesBelow 16 m = 0) ∧ (isOneAllowed m = true ↔ onesBelow 16 m = 1)) := by
    decide
  refine ⟨?_, ?_, hbridge⟩
  · intro s' h c hc hopen
    exact makeForcedChoices_noForced hB hD h c hc hopen
  · intro c hc hopen hzero
    have hemp : s.board c = Space.Empty := (hB.openIff c hc).2 hopen
    have hdead : ∀ v, ¬CanPlace s.board c v := by
      intro v hv
      have := (allowedMask_canPlace hM hc v).2 hv
      rw [hzero] at this
      rw [Nat.zero_testBit] at this
      exact Bool.false_ne_true this
    rcases makeForcedChoices_spec hB hD with ⟨hnp, hres⟩
    cases h : makeForcedChoices s with
    | none => exact absurd h hnp
    | some r =>
      cases r with
      | none => rfl
      | some s' =>
        exfalso
        rcases hres s' h with ⟨hB', _, _, _, _, hmsub⟩
        rcases (makeForcedChoices_search hB hD hM).1 s' h with ⟨_, _, _, hsteps⟩
        have hemp' : s'.board c = Space.Empty := steps_keep_dead hsteps hemp hdead
        have hopen' : s'.openSpaces.testBit c = true := (hB'.openIff c hc).1 hemp'
        have hzero' : allowedMask s' c = 0 := by
          apply Nat.zero_of_testBit_eq_false
          intro n
          cases hb : (allowedMask s' c).testBit n with
          | false => rfl
          | true =>
            have := hmsub c n hb
            rw [hzero] at this
            rw [Nat.zero_testBit] at this
            exact absurd this (by simp)
        exact (makeForcedChoices_noForced hB hD h c hc hopen').1 hzero'

/-- C4, witness at the fresh tracker. -/
theorem claim_C4_witness :
    (∀ s', makeForcedChoices BookkeptBoard.new = some (some s') →
      ∀ c, c < 81 → s'.openSpaces.testBit c = true →
        allowedMask s' c ≠ 0 ∧ isOneAllowed (allowedMask s' c) = false) ∧
    (∀ c, c < 81 → BookkeptBoard.new.openSpaces.testBit c = true →
      allowedMask BookkeptBoard.new c = 0 →
      makeForcedChoices BookkeptBoard.new = some none) ∧
    (∀ m, m < 1024 →
      ((m = 0 ↔ onesBelow 16 m = 0) ∧ (isOneAllowed m = true ↔ onesBelow 16 m = 1))) :=
  claim_C4 BookkeptBoard.new Binv_new DirtyInv_new MaskInv_new

theorem onesBelow_le_81 {x : Nat} (hlt : x < 2 ^ 81) : onesBelow 128 x ≤ 81 := by
  have hsub : bitsBelow 128 x ⊆ List.range 81 := by
    intro i hi
    rcases mem_bitsBelow.1 hi with ⟨_, hb⟩
    exact List.mem_range.2 (lt_of_testBit_true hlt hb)
  have hnd := bitsBelow_nodup 128 x
  calc onesBelow 128 x = (bitsBelow 128 x).toFinset.card :=
        (List.toFinset_card_of_nodup hnd).symm
    _ ≤ (List.range 81).toFinset.card :=
        Finset.card_le_card
          (fun i hi => List.mem_toFinset.2 (hsub (List.mem_toFinset.1 hi)))
    _ ≤ 81 := by
        rw [List.toFinset_card_of_nodup (List.nodup_range 81), List.length_range]

/-- C8: the search recursion stabilizes at fuel `open cells + 1` — any
larger recursion budget gives the same result, so the recursion depth of
`solve_helper` is bounded by the number of open cells — and that number
is at most 81. -/
theorem claim_C8 : ∀ (s : BookkeptBoard) (f : Nat), Binv s → DirtyInv s →
    onesBelow 128 s.openSpaces + 1 ≤ f →
    solveHelperGo f s = solveHelper s ∧ onesBelow 128 s.openSpaces ≤ 81 := by
  intro s f hB hD hf
  constructor
  · rw [solveHelper_eq]
    exact solveHelperGo_fuel_eq (onesBelow 128 s.openSpaces) s f
      (onesBelow 128 s.openSpaces + 1) le_rfl hB hD hf le_rfl
  · exact onesBelow_le_81 hB.openLt

/-- C8, witness at the fresh tracker with surplus fuel. -/
theorem claim_C8_witness :
    solveHelperGo 100 BookkeptBoard.new = solveHelper BookkeptBoard.new ∧
    onesBelow 128 BookkeptBoard.new.openSpaces ≤ 81 :=
  claim_C8 BookkeptBoard.new 100 Binv_new DirtyInv_new (by decide)

/-! ## Determinacy of forced-move propagation

Forced moves commute: from any board, all maximal sequences of forced
moves either all reach a contradiction, or all reach the same quiescent
board.  This is what makes the naive and the bookkept propagation loops
agree although they process cells in different orders. -/

theorem forcedAt_unique {b : Board} {c v w : Nat} (h : ForcedAt b c v)
    (hw : CanPlace b c w) : w = v :=
  h.2.2.2 w hw

theorem no_step_of_quiescent {q m : Board} (hq : Quiescent q) (h : StepP q m) : False := by
  rcases h with ⟨c, v, ⟨hc, hemp, hcan, huniq⟩, _⟩
  rcases hq c hc hemp with ⟨x, y, hx, hy, hxy⟩
  have := huniq x hx
  have := huniq y hy
  omega

/-- Two distinct forced moves of the same board with a shared unit and
the same value make the other cell dead after either move. -/
theorem stepP_conflict {a : Board} {c₁ v₁ c₂ v₂ : Nat}
    (h₁ : ForcedAt a c₁ v₁) (h₂ : ForcedAt a c₂ v₂) (hne : c₁ ≠ c₂)
    (hu : sameUnit c₁ c₂) (hv : v₁ = v₂) :
    FailAt (Function.update a c₂ (Space.Full v₂)) := by
  rcases h₁ with ⟨hc₁, hemp₁, hcan₁, huniq₁⟩
  rcases h₂ with ⟨hc₂, hemp₂, _, _⟩
  refine ⟨c₁, hc₁, ?_, ?_⟩
  · rw [Function.update_apply, if_neg hne]
    exact hemp₁
  · intro w hw
    have hw' : CanPlace a c₁ w := canPlace_mono_update hemp₂ hw
    have hwv : w = v₁ := huniq₁ w hw'
    rcases hw with ⟨_, _, hfree⟩
    apply hfree c₂ hc₂ (sameUnit_symm hu)
    rw [Function.update_apply, if_pos rfl, hwv, hv]

/-- Two independent forced moves commute (the diamond property). -/
theorem stepP_diamond {a : Board} {c₁ v₁ c₂ v₂ : Nat}
    (h₁ : ForcedAt a c₁ v₁) (h₂ : ForcedAt a c₂ v₂) (hne : c₁ ≠ c₂)
    (hnc : ¬(sameUnit c₁ c₂ ∧ v₁ = v₂)) :
    StepP (Function.update a c₂ (Space.Full v₂))
      (Function.update (Function.update a c₂ (Space.Full v₂)) c₁ (Space.Full v₁)) ∧
    StepP (Function.update a c₁ (Space.Full v₁))
      (Function.update (Function.update a c₂ (Space.Full v₂)) c₁ (Space.Full v₁)) := by
  rcases h₁ with ⟨hc₁, hemp₁, hcan₁, huniq₁⟩
  rcases h₂ with ⟨hc₂, hemp₂, hcan₂, huniq₂⟩
  have hforced₁ : ForcedAt (Function.update a c₂ (Space.Full v₂)) c₁ v₁ := by
    refine ⟨hc₁, ?_, ?_, ?_⟩
    · rw [Function.update_apply, if_neg hne]
      exact hemp₁
    · rcases hcan₁ with ⟨ha1, ha9, hfree⟩
      refine ⟨ha1, ha9, ?_⟩
      intro i hi hui
      rw [Function.update_apply]
      by_cases hx : i = c₂
      · rw [if_pos hx]
        intro hcon
        injection hcon with hvv
        apply hnc
        rw [hx] at hui
        exact ⟨sameUnit_symm hui, hvv.symm⟩
      · rw [if_neg hx]
        exact hfree i hi hui
    · intro w hw
      exact huniq₁ w (canPlace_mono_update hemp₂ hw)
  have hforced₂ : ForcedAt (Function.update a c₁ (Space.Full v₁)) c₂ v₂ := by
    refine ⟨hc₂, ?_, ?_, ?_⟩
    · rw [Function.update_apply, if_neg (fun hx => hne hx.symm)]
      exact hemp₂
    · rcases hcan₂ with ⟨ha1, ha9, hfree⟩
      refine ⟨ha1, ha9, ?_⟩
      intro i hi hui
      rw [Function.update_apply]
      by_cases hx : i = c₁
      · rw [if_pos hx]
        intro hcon
        injection hcon with hvv
        apply hnc
        rw [hx] at hui
        exact ⟨hui, hvv⟩
      · rw [if_neg hx]
        exact hfree i hi hui
    · intro w hw
      exact huniq₂ w (canPlace_mono_update hemp₁ hw)
  constructor
  · exact ⟨c₁, v₁, hforced₁, rfl⟩
  · refine ⟨c₂, v₂, hforced₂, ?_⟩
    rw [Function.update_comm hne]

/-- Dropping the first forced move of a sequence that reaches a
quiescent board: the remaining moves still reach it. -/
theorem steps_drop_of_quiescent {t : Board} (hq : Quiescent t) :
    ∀ {a : Board}, Steps a t → ∀ {b₁ : Board}, StepP a b₁ → Steps b₁ t := by
  intro a hsteps
  induction hsteps using Relation.ReflTransGen.head_induction_on with
  | refl =>
    intro b₁ hstep
    exact absurd hstep (fun h => no_step_of_quiescent hq h)
  | head hstep₂ hrest ih =>
    rename_i a₀ m
    intro b₁ hstep₁
    rcases hstep₁ with ⟨c₁, v₁, hf₁, hb₁⟩
    rcases hstep₂ with ⟨c₂, v₂, hf₂, hm⟩
    subst hm
    by_cases hcc : c₁ = c₂
    · have hcan₁' : CanPlace a₀ c₂ v₁ := by
        rw [← hcc]
        exact hf₁.2.2.1
      have hveq : v₁ = v₂ := forcedAt_unique hf₂ hcan₁'
      rw [hb₁, hcc, hveq]
      exact hrest
    · by_cases hconf : sameUnit c₁ c₂ ∧ v₁ = v₂
      · exfalso
        have hfail : FailAt (Function.update a₀ c₂ (Space.Full v₂)) :=
          stepP_conflict hf₁ hf₂ hcc hconf.1 hconf.2
        rcases hfail with ⟨d, hd, hdemp, hddead⟩
        have hdt : t d = Space.Empty := steps_keep_dead hrest hdemp hddead
        have hdeadt : ∀ v, ¬CanPlace t d v :=
          (steps_keep_dead_full hrest hdemp hddead).2
        rcases hq d hd hdt with ⟨x, _, hx, _, _⟩
        exact hdeadt x hx
      · rcases stepP_diamond hf₁ hf₂ hcc hconf with ⟨hstepm, hstepb₁⟩
        have hsteps2 : Steps (Function.update (Function.update a₀ c₂ (Space.Full v₂)) c₁
            (Space.Full v₁)) t := ih hstepm
        rw [hb₁]
        exact Relation.ReflTransGen.head hstepb₁ hsteps2

/-- Dropping the first forced move of a failing propagation: the rest
still fails. -/
theorem fails_drop : ∀ {a b₁ : Board}, Fails a → StepP a b₁ → Fails b₁ := by
  intro a b₁ hfails hstep₁
  rcases hfails with ⟨u, hsteps, hfail⟩
  induction hsteps using Relation.ReflTransGen.head_induction_on generalizing b₁ with
  | refl =>
    rcases hfail with ⟨d, hd, hdemp, hddead⟩
    rcases hstep₁ with ⟨c₁, v₁, hf₁, hb₁⟩
    have hdc : c₁ ≠ d := by
      intro hx
      rw [hx] at hf₁
      exact hddead v₁ hf₁.2.2.1
    refine ⟨b₁, Relation.ReflTransGen.refl, d, hd, ?_, ?_⟩
    · rw [hb₁, Function.update_apply, if_neg (fun hx => hdc hx.symm)]
      exact hdemp
    · intro v hv
      rw [hb₁] at hv
      exact hddead v (canPlace_mono_update hf₁.2.1 hv)
  | head hstep₂ hrest ih =>
    rename_i a₀ m
    rcases hstep₁ with ⟨c₁, v₁, hf₁, hb₁⟩
    rcases hstep₂ with ⟨c₂, v₂, hf₂, hm⟩
    subst hm
    by_cases hcc : c₁ = c₂
    · have hcan₁' : CanPlace a₀ c₂ v₁ := by
        rw [← hcc]
        exact hf₁.2.2.1
      have hveq : v₁ = v₂ := forcedAt_unique hf₂ hcan₁'
      rw [hb₁, hcc, hveq]
      exact ⟨u, hrest, hfail⟩
    · by_cases hconf : sameUnit c₁ c₂ ∧ v₁ = v₂
      · have hfailb : FailAt b₁ := by
          rw [hb₁]
          have := stepP_conflict hf₂ hf₁ (fun hx => hcc hx.symm)
            (sameUnit_symm hconf.1) hconf.2.symm
          exact this
        exact ⟨b₁, Relation.ReflTransGen.refl, hfailb⟩
      · rcases stepP_diamond hf₁ hf₂ hcc hconf with ⟨hstepm, hstepb₁⟩
        rcases ih hstepm with ⟨u', hsteps', hfail'⟩
        rw [hb₁]
        exact ⟨u', Relation.ReflTransGen.head hstepb₁ hsteps', hfail'⟩

theorem steps_of_quiescent_eq {q u : Board} (hq : Quiescent q) (h : Steps q u) : u = q := by
  induction h using Relation.ReflTransGen.head_induction_on with
  | refl => rfl
  | head hstep _ _ => exact absurd hstep (fun hx => no_step_of_quiescent hq hx)

/-- Determinacy, success side: all quiescent boards reachable by forced
moves from a common start coincide. -/
theorem quiescent_unique : ∀ {a t₁ : Board}, Steps a t₁ → Quiescent t₁ →
    ∀ {t₂ : Board}, Steps a t₂ → Quiescent t₂ → t₁ = t₂ := by
  intro a t₁ hsteps₁
  induction hsteps₁ using Relation.ReflTransGen.head_induction_on with
  | refl =>
    intro hq₁ t₂ hsteps₂ hq₂
    exact (steps_of_quiescent_eq hq₁ hsteps₂).symm
  | head hstep hrest ih =>
    intro hq₁ t₂ hsteps₂ hq₂
    have hdrop : Steps _ t₂ := steps_drop_of_quiescent hq₂ hsteps₂ hstep
    exact ih hq₁ hdrop hq₂

/-- Determinacy, failure side: if one maximal propagation fails, no
propagation reaches a quiescent board. -/
theorem fails_not_quiescent : ∀ {a t : Board}, Steps a t → Quiescent t → Fails a → False := by
  intro a t hsteps
  induction hsteps using Relation.ReflTransGen.head_induction_on with
  | refl =>
    intro hq hfails
    rcases hfails with ⟨u, hsteps', hfail⟩
    have := steps_of_quiescent_eq hq hsteps'
    subst this
    rcases hfail with ⟨d, hd, hdemp, hddead⟩
    rcases hq d hd hdemp with ⟨x, _, hx, _, _⟩
    exact hddead x hx
  | head hstep _ ih =>
    intro hq hfails
    exact ih hq (fails_drop hfails hstep)

/-! ## Transport along boards that agree on the 81 cells

The bookkept tracker's board function may differ from the naive
solver's board outside the \x7bactual\x7d grid; every notion above only reads
cells below 81, so everything transports. -/

/-- The two boards hold the same 81 cells. -/
def BoardAgree (b b' : Board) : Prop := ∀ i, i < 81 → b i = b' i

theorem boardAgree_symm {b b' : Board} (h : BoardAgree b b') : BoardAgree b' b :=
  fun i hi => (h i hi).symm

theorem canPlace_agree {b b' : Board} (h : BoardAgree b b') (c v : Nat) :
    CanPlace b c v ↔ CanPlace b' c v := by
  unfold CanPlace
  constructor
  · rintro ⟨h1, h9, hfree⟩
    exact ⟨h1, h9, fun i hi hu => (h i hi) ▸ hfree i hi hu⟩
  · rintro ⟨h1, h9, hfree⟩
    exact ⟨h1, h9, fun i hi hu => (h i hi).symm ▸ hfree i hi hu⟩

theorem forcedAt_agree {b b' : Board} (h : BoardAgree b b') (c v : Nat) :
    ForcedAt b c v ↔ ForcedAt b' c v := by
  unfold ForcedAt
  constructor
  · rintro ⟨hc, hemp, hcan, huniq⟩
    refine ⟨hc, (h c hc) ▸ hemp, (canPlace_agree h c v).1 hcan, ?_⟩
    intro w hw
    exact huniq w ((canPlace_agree h c w).2 hw)
  · rintro ⟨hc, hemp, hcan, huniq⟩
    refine ⟨hc, (h c hc).symm ▸ hemp, (canPlace_agree h c v).2 hcan, ?_⟩
    intro w hw
    exact huniq w ((canPlace_agree h c w).1 hw)

theorem boardAgree_update {b b' : Board} (h : BoardAgree b b') (c : Nat) (x : Space) :
    BoardAgree (Function.update b c x) (Function.update b' c x) := by
  intro i hi
  by_cases hx : i = c
  · rw [hx, Function.update_apply, Function.update_apply, if_pos rfl, if_pos rfl]
  · rw [Function.update_apply, Function.update_apply, if_neg hx, if_neg hx]
    exact h i hi

theorem stepP_agree {b₁ b₂ b₁' : Board} (hstep : StepP b₁ b₂) (h : BoardAgree b₁ b₁') :
    ∃ b₂', StepP b₁' b₂' ∧ BoardAgree b₂ b₂' := by
  rcases hstep with ⟨c, v, hf, hb⟩
  refine ⟨Function.update b₁' c (Space.Full v), ⟨c, v, (forcedAt_agree h c v).1 hf, rfl⟩, ?_⟩
  rw [hb]
  exact boardAgree_update h c (Space.Full v)

theorem steps_agree : ∀ {b₁ b₂ : Board}, Steps b₁ b₂ → ∀ {b₁' : Board}, BoardAgree b₁ b₁' →
    ∃ b₂', Steps b₁' b₂' ∧ BoardAgree b₂ b₂' := by
  intro b₁ b₂ hsteps
  induction hsteps using Relation.ReflTransGen.head_induction_on with
  | refl =>
    intro b₁' h
    exact ⟨b₁', Relation.ReflTransGen.refl, h⟩
  | head hstep _ ih =>
    intro b₁' h
    rcases stepP_agree hstep h with ⟨m', hstep', hagree'⟩
    rcases ih hagree' with ⟨b₂', hsteps', hagree₂⟩
    exact ⟨b₂', Relation.ReflTransGen.head hstep' hsteps', hagree₂⟩

theorem failAt_agree {b b' : Board} (h : BoardAgree b b') : FailAt b ↔ FailAt b' := by
  unfold FailAt
  constructor
  · rintro ⟨c, hc, hemp, hdead⟩
    exact ⟨c, hc, (h c hc) ▸ hemp, fun v hv => hdead v ((canPlace_agree h c v).2 hv)⟩
  · rintro ⟨c, hc, hemp, hdead⟩
    exact ⟨c, hc, (h c hc).symm ▸ hemp, fun v hv => hdead v ((canPlace_agree h c v).1 hv)⟩

theorem fails_agree {b b' : Board} (hf : Fails b) (h : BoardAgree b b') : Fails b' := by
  rcases hf with ⟨u, hsteps, hfail⟩
  rcases steps_agree hsteps h with ⟨u', hsteps', hagree⟩
  exact ⟨u', hsteps', (failAt_agree hagree).1 hfail⟩

theorem quiescent_agree {b b' : Board} (h : BoardAgree b b') :
    Quiescent b ↔ Quiescent b' := by
  unfold Quiescent
  constructor
  · intro hq c hc hemp
    rcases hq c hc ((h c hc).symm ▸ hemp) with ⟨v, w, hv, hw, hvw⟩
    exact ⟨v, w, (canPlace_agree h c v).1 hv, (canPlace_agree h c w).1 hw, hvw⟩
  · intro hq c hc hemp
    rcases hq c hc ((h c hc) ▸ hemp) with ⟨v, w, hv, hw, hvw⟩
    exact ⟨v, w, (canPlace_agree h c v).2 hv, (canPlace_agree h c w).2 hw, hvw⟩

/-! ## List utilities for the equivalence proof -/

/-- Two strictly sorted lists with the same members are equal. -/
theorem sorted_mem_ext {l₁ l₂ : List Nat} (h₁ : List.Sorted (· < ·) l₁)
    (h₂ : List.Sorted (· < ·) l₂) (hm : ∀ x, x ∈ l₁ ↔ x ∈ l₂) : l₁ = l₂ :=
  List.eq_of_perm_of_sorted ((List.perm_ext_iff_of_nodup h₁.nodup h₂.nodup).mpr hm) h₁ h₂

theorem find?_append {α : Type} (p : α → Bool) :
    ∀ (l₁ l₂ : List α), (l₁ ++ l₂).find? p =
      match l₁.find? p with
      | some a => some a
      | none => l₂.find? p := by
  intro l₁ l₂
  induction l₁ with
  | nil => simp
  | cons a t ih =>
    by_cases hp : p a
    · simp [List.find?, hp]
    · simp only [Bool.not_eq_true] at hp
      simp [List.find?, hp, ih]

/-- `find?` over `range n` returns exactly the least index satisfying
the predicate. -/
theorem find?_range_first (p : Nat → Bool) :
    ∀ n c, ((List.range n).find? p = some c) ↔
      (c < n ∧ p c = true ∧ ∀ j, j < c → p j = false) := by
  intro n
  induction n with
  | zero => simp
  | succ m ih =>
    intro c
    rw [List.range_succ, find?_append]
    cases hfind : (List.range m).find? p with
    | some a =>
      simp only []
      rw [ih] at hfind
      constructor
      · intro h
        injection h with h
        subst h
        exact ⟨Nat.lt_succ_of_lt hfind.1, hfind.2.1, hfind.2.2⟩
      · rintro ⟨hc, hpc, hmin⟩
        rcases Nat.lt_trichotomy a c with hlt | heq | hgt
        · exact absurd hfind.2.1 (by rw [hmin a hlt]; simp)
        · rw [heq]
        · exact absurd hpc (by rw [hfind.2.2 c hgt]; simp)
    | none =>
      rw [List.find?_eq_none] at hfind
      simp only [List.find?]
      by_cases hp : p m
      · rw [hp]
        simp only []
        constructor
        · intro h
          injection h with h
          subst h
          refine ⟨Nat.lt_succ_self _, hp, ?_⟩
          intro j hj
          by_contra hx
          simp only [Bool.not_eq_false] at hx
          exact (hfind j (List.mem_range.2 hj)) hx
        · rintro ⟨hc, hpc, _⟩
          rcases Nat.lt_succ_iff_lt_or_eq.1 hc with hlt | heq
          · exact absurd hpc (hfind c (List.mem_range.2 hlt))
          · rw [heq]
      · simp only [Bool.not_eq_true] at hp
        rw [hp]
        simp only []
        constructor
        · intro h
          exact absurd h (by simp)
        · rintro ⟨hc, hpc, _⟩
          rcases Nat.lt_succ_iff_lt_or_eq.1 hc with hlt | heq
          · exact absurd hpc (hfind c (List.mem_range.2 hlt))
          · rw [heq] at hpc
            rw [hp] at hpc
            exact absurd hpc (by simp)

/-! ## Bit-level facts about the naive solver's allowed sets -/

theorem naiveGetMask_eq {v : Nat} (h1 : 1 ≤ v) (h9 : v ≤ 9) : naiveGetMask v = 2 ^ (v - 1) := by
  unfold naiveGetMask
  rw [Nat.mod_eq_of_lt (by omega), Nat.shiftLeft_eq, one_mul]

theorem land_pow_ne_zero {m k : Nat} : (m &&& 2 ^ k ≠ 0) ↔ m.testBit k = true := by
  constructor
  · intro h
    by_contra hb
    apply h
    apply Nat.zero_of_testBit_eq_false
    intro i
    rw [Nat.testBit_land, Nat.testBit_two_pow]
    by_cases hik : k = i
    · subst hik
      simp only [Bool.not_eq_true] at hb
      rw [hb]
      simp
    · simp [hik]
  · intro hb h0
    have hx : (m &&& 2 ^ k).testBit k = true := by
      rw [Nat.testBit_land, Nat.testBit_two_pow]
      simp [hb]
    rw [h0] at hx
    simp [Nat.zero_testBit] at hx

theorem naiveDisallow_sub {m n : Nat} (i : Nat) (h : (naiveDisallow m n).testBit i = true) :
    m.testBit i = true := by
  unfold naiveDisallow at h
  rw [Nat.testBit_land, Bool.and_eq_true] at h
  exact h.1

theorem naiveDisallow_testBit {m : Nat} (hm : ∀ i, m.testBit i = true → i < 9) {n : Nat}
    (h1 : 1 ≤ n) (h9 : n ≤ 9) (i : Nat) :
    ((naiveDisallow m n).testBit i = true ↔ (m.testBit i = true ∧ i ≠ n - 1)) := by
  unfold naiveDisallow naiveGetMask
  rw [Nat.mod_eq_of_lt (by omega), Nat.shiftLeft_eq, one_mul]
  rw [Nat.testBit_land, Nat.testBit_xor]
  have h65535 : (65535 : Nat) = 2 ^ 16 - 1 := by norm_num
  rw [h65535, Nat.testBit_two_pow_sub_one, Nat.testBit_two_pow]
  by_cases hi : i < 16
  · rw [decide_eq_true hi, Bool.true_xor]
    rw [Bool.and_eq_true, Bool.not_eq_true', decide_eq_false_iff_not]
    constructor
    · rintro ⟨ha, hb⟩
      exact ⟨ha, by omega⟩
    · rintro ⟨ha, hb⟩
      exact ⟨ha, by omega⟩
  · have hd : decide (i < 16) = false := decide_eq_false hi
    rw [hd, Bool.false_xor, Bool.and_eq_true, decide_eq_true_eq]
    constructor
    · rintro ⟨_, hx⟩
      exact absurd hx (by omega)
    · rintro ⟨ha, _⟩
      exact absurd (hm i ha) (by omega)

theorem naiveFold_bound : ∀ (l : List Space) (m0 : Nat),
    (∀ i, m0.testBit i = true → i < 9) →
    ∀ i, ((l.foldl (fun m sp => match sp with
        | Space.Empty => m
        | Space.Full n => naiveDisallow m n) m0).testBit i = true → i < 9) := by
  intro l
  induction l with
  | nil =>
    intro m0 hm0 i h
    exact hm0 i h
  | cons a t ih =>
    intro m0 hm0 i h
    rw [List.foldl_cons] at h
    cases a with
    | Empty => exact ih m0 hm0 i h
    | Full n =>
      refine ih (naiveDisallow m0 n) ?_ i h
      intro j hj
      exact hm0 j (naiveDisallow_sub j hj)

theorem naiveFold_testBit : ∀ (l : List Space) (m0 : Nat),
    (∀ i, m0.testBit i = true → i < 9) →
    (∀ n, Space.Full n ∈ l → 1 ≤ n ∧ n ≤ 9) → ∀ j,
    ((l.foldl (fun m sp => match sp with
        | Space.Empty => m
        | Space.Full n => naiveDisallow m n) m0).testBit j = true ↔
      (m0.testBit j = true ∧ Space.Full (j + 1) ∉ l)) := by
  intro l
  induction l with
  | nil =>
    intro m0 hm0 hvals j
    simp
  | cons a t ih =>
    intro m0 hm0 hvals j
    rw [List.foldl_cons]
    cases a with
    | Empty =>
      rw [ih m0 hm0 (fun n hn => hvals n (List.mem_cons_of_mem _ hn)) j]
      constructor
      · rintro ⟨h1, h2⟩
        refine ⟨h1, ?_⟩
        intro hmem
        rcases List.mem_cons.1 hmem with hx | hx
        · exact absurd hx (by simp)
        · exact h2 hx
      · rintro ⟨h1, h2⟩
        exact ⟨h1, fun hx => h2 (List.mem_cons_of_mem _ hx)⟩
    | Full n =>
      have hn : 1 ≤ n ∧ n ≤ 9 := hvals n (List.mem_cons_self _ _)
      have hbound' : ∀ i, (naiveDisallow m0 n).testBit i = true → i < 9 :=
        fun i hi => hm0 i (naiveDisallow_sub i hi)
      rw [ih (naiveDisallow m0 n) hbound' (fun x hx => hvals x (List.mem_cons_of_mem _ hx)) j]
      rw [naiveDisallow_testBit hm0 hn.1 hn.2 j]
      constructor
      · rintro ⟨⟨h1, h2⟩, h3⟩
        refine ⟨h1, ?_⟩
        intro hmem
        rcases List.mem_cons.1 hmem with hx | hx
        · injection hx with hx
          omega
        · exact h3 hx
      · rintro ⟨h1, h2⟩
        refine ⟨⟨h1, ?_⟩, ?_⟩
        · intro hx
          apply h2
          have hfull : Space.Full (j + 1) = Space.Full n := by
            rw [hx]
            congr 1
            omega
          rw [hfull]
          exact List.mem_cons_self _ _
        · intro hx
          exact h2 (List.mem_cons_of_mem _ hx)

theorem mem_regionCol {b : Board} {x : Nat} {v : Nat} :
    Space.Full v ∈ regionCol b x ↔ ∃ y, y < 9 ∧ b (y * 9 + x) = Space.Full v := by
  unfold regionCol
  rw [List.mem_map]
  constructor
  · rintro ⟨y, hy, he⟩
    exact ⟨y, List.mem_range.1 hy, he⟩
  · rintro ⟨y, hy, he⟩
    exact ⟨y, List.mem_range.2 hy, he⟩

theorem mem_regionRow {b : Board} {y : Nat} {v : Nat} :
    Space.Full v ∈ regionRow b y ↔ ∃ x, x < 9 ∧ b (y * 9 + x) = Space.Full v := by
  unfold regionRow
  rw [List.mem_map]
  constructor
  · rintro ⟨x, hx, he⟩
    exact ⟨x, List.mem_range.1 hx, he⟩
  · rintro ⟨x, hx, he⟩
    exact ⟨x, List.mem_range.2 hx, he⟩

theorem mem_regionSquare {b : Board} {sq : Nat} {v : Nat} :
    Space.Full v ∈ regionSquare b sq ↔
      ∃ k, k < 9 ∧ b ((3 * (sq / 3) + k % 3) * 9 + (3 * (sq % 3) + k / 3)) = Space.Full v := by
  unfold regionSquare
  rw [List.mem_map]
  constructor
  · rintro ⟨k, hk, he⟩
    exact ⟨k, List.mem_range.1 hk, he⟩
  · rintro ⟨k, hk, he⟩
    exact ⟨k, List.mem_range.2 hk, he⟩

theorem unit_region_decomp : ∀ c, c < 81 → ∀ i, i < 81 →
    (sameUnit i c ↔ ((∃ y ∈ List.range 9, i = y * 9 + colOf c) ∨
      (∃ x ∈ List.range 9, i = rowOf c * 9 + x) ∨
      (∃ k ∈ List.range 9, i = (3 * (boxOf c / 3) + k % 3) * 9 + (3 * (boxOf c % 3) + k / 3)))) := by
  intro c hc i hi
  simp only [List.mem_range]
  unfold sameUnit boxOf rowOf colOf
  have e7 : (3 * (c / 9 / 3) + c % 9 / 3) / 3 = c / 9 / 3 := by omega
  have e8 : (3 * (c / 9 / 3) + c % 9 / 3) % 3 = c % 9 / 3 := by omega
  rw [e7, e8]
  constructor
  · rintro (h | h | h)
    · exact Or.inl ⟨i / 9, by omega, by omega⟩
    · exact Or.inr (Or.inl ⟨i % 9, by omega, by omega⟩)
    · have e9 : (i / 9 % 3 + 3 * (i % 9 % 3)) / 3 = i % 9 % 3 := by omega
      have e10 : (i / 9 % 3 + 3 * (i % 9 % 3)) % 3 = i / 9 % 3 := by omega
      refine Or.inr (Or.inr ⟨i / 9 % 3 + 3 * (i % 9 % 3), by omega, ?_⟩)
      rw [e9, e10]
      omega
  · rintro (⟨y, hy, he⟩ | ⟨x, hx, he⟩ | ⟨k, hk, he⟩)
    · omega
    · omega
    · have hrow_i : i / 9 = 3 * (c / 9 / 3) + k % 3 := by omega
      have hcol_i : i % 9 = 3 * (c % 9 / 3) + k / 3 := by omega
      have hjq : (3 * (c / 9 / 3) + k % 3) / 3 = c / 9 / 3 := by omega
      have hlq : (3 * (c % 9 / 3) + k / 3) / 3 = c % 9 / 3 := by omega
      refine Or.inr (Or.inr ?_)
      rw [hrow_i, hcol_i, hjq, hlq]

theorem mem_naiveRegions {b : Board} {c : Nat} (hc : c < 81) (v : Nat) :
    Space.Full v ∈ (regionCol b (colOf c) ++ regionRow b (rowOf c) ++ regionSquare b (boxOf c)) ↔
      ∃ i, i < 81 ∧ sameUnit i c ∧ b i = Space.Full v := by
  have hcol9 : colOf c < 9 := Nat.mod_lt _ (by norm_num)
  have hrow9 : rowOf c < 9 := by
    unfold rowOf
    omega
  have hbox9 : boxOf c < 9 := by
    unfold boxOf rowOf colOf
    omega
  rw [List.mem_append, List.mem_append, mem_regionCol, mem_regionRow, mem_regionSquare]
  constructor
  · rintro ((⟨y, hy, he⟩ | ⟨x, hx, he⟩) | ⟨k, hk, he⟩)
    · have hi : y * 9 + colOf c < 81 := by omega
      refine ⟨y * 9 + colOf c, hi, ?_, he⟩
      exact (unit_region_decomp c hc _ hi).2 (Or.inl ⟨y, List.mem_range.2 hy, rfl⟩)
    · have hi : rowOf c * 9 + x < 81 := by omega
      refine ⟨rowOf c * 9 + x, hi, ?_, he⟩
      exact (unit_region_decomp c hc _ hi).2 (Or.inr (Or.inl ⟨x, List.mem_range.2 hx, rfl⟩))
    · have hi : (3 * (boxOf c / 3) + k % 3) * 9 + (3 * (boxOf c % 3) + k / 3) < 81 := by omega
      refine ⟨_, hi, ?_, he⟩
      exact (unit_region_decomp c hc _ hi).2 (Or.inr (Or.inr ⟨k, List.mem_range.2 hk, rfl⟩))
  · rintro ⟨i, hi, hu, hbi⟩
    rcases (unit_region_decomp c hc i hi).1 hu with ⟨y, hy, he⟩ | ⟨x, hx, he⟩ | ⟨k, hk, he⟩
    · exact Or.inl (Or.inl ⟨y, List.mem_range.1 hy, by rw [← he]; exact hbi⟩)
    · exact Or.inl (Or.inr ⟨x, List.mem_range.1 hx, by rw [← he]; exact hbi⟩)
    · exact Or.inr ⟨k, List.mem_range.1 hk, by rw [← he]; exact hbi⟩

theorem testBit_511 (i : Nat) : (511 : Nat).testBit i = decide (i < 9) := by
  have h : (511 : Nat) = 2 ^ 9 - 1 := by norm_num
  rw [h, Nat.testBit_two_pow_sub_one]

theorem naiveAllowed_testBit_iff {b : Board} {c : Nat} (hc : c < 81) (hval : ValRange b)
    (j : Nat) :
    ((naiveAllowed b c).testBit j = true ↔
      (j < 9 ∧ ¬∃ i, i < 81 ∧ sameUnit i c ∧ b i = Space.Full (j + 1))) := by
  unfold naiveAllowed
  have hvals : ∀ n, Space.Full n ∈ (regionCol b (colOf c) ++ regionRow b (rowOf c) ++
      regionSquare b (boxOf c)) → 1 ≤ n ∧ n ≤ 9 := by
    intro n hmem
    rcases (mem_naiveRegions hc n).1 hmem with ⟨i, hi, _, hbi⟩
    exact hval i n hi hbi
  have hm0 : ∀ i, (511 : Nat).testBit i = true → i < 9 := by
    intro i hi
    rw [testBit_511] at hi
    exact of_decide_eq_true hi
  rw [naiveFold_testBit _ 511 hm0 hvals j, testBit_511 j, decide_eq_true_eq]
  constructor
  · rintro ⟨h1, h2⟩
    exact ⟨h1, fun hx => h2 ((mem_naiveRegions hc (j + 1)).2 hx)⟩
  · rintro ⟨h1, h2⟩
    exact ⟨h1, fun hx => h2 ((mem_naiveRegions hc (j + 1)).1 hx)⟩

theorem naiveAllowed_bound {b : Board} {c : Nat} :
    ∀ i, (naiveAllowed b c).testBit i = true → i < 9 := by
  intro i
  unfold naiveAllowed
  apply naiveFold_bound
  intro j hj
  rw [testBit_511] at hj
  exact of_decide_eq_true hj

theorem naiveAllowed_canPlace {b : Board} {c : Nat} (hc : c < 81) (hval : ValRange b)
    {v : Nat} (h1 : 1 ≤ v) (h9 : v ≤ 9) :
    ((naiveAllowed b c).testBit (v - 1) = true ↔ CanPlace b c v) := by
  rw [naiveAllowed_testBit_iff hc hval (v - 1)]
  have hv : v - 1 + 1 = v := by omega
  rw [hv]
  unfold CanPlace
  constructor
  · rintro ⟨_, h2⟩
    refine ⟨h1, h9, ?_⟩
    intro i hi hu hbi
    exact h2 ⟨i, hi, hu, hbi⟩
  · rintro ⟨_, _, h3⟩
    refine ⟨by omega, ?_⟩
    rintro ⟨i, hi, hu, hbi⟩
    exact h3 i hi hu hbi

theorem mem_naiveAllowedList {m v : Nat} :
    v ∈ naiveAllowedList m ↔ (1 ≤ v ∧ v ≤ 9 ∧ m.testBit (v - 1) = true) := by
  unfold naiveAllowedList
  rw [List.mem_filter, List.mem_map]
  constructor
  · rintro ⟨⟨y, hy, hyv⟩, hcond⟩
    have hy9 : y < 9 := List.mem_range.1 hy
    have h1 : 1 ≤ v := by omega
    have h9 : v ≤ 9 := by omega
    refine ⟨h1, h9, ?_⟩
    rw [bne_iff_ne, naiveGetMask_eq h1 h9] at hcond
    exact land_pow_ne_zero.1 hcond
  · rintro ⟨h1, h9, hbit⟩
    refine ⟨⟨v - 1, List.mem_range.2 (by omega), by omega⟩, ?_⟩
    rw [bne_iff_ne, naiveGetMask_eq h1 h9]
    exact land_pow_ne_zero.2 hbit

theorem naiveAllowedList_sorted (m : Nat) : List.Sorted (· < ·) (naiveAllowedList m) := by
  unfold naiveAllowedList
  exact (show List.Sorted (· < ·) ((List.range 9).map (· + 1)) by decide).filter _

theorem testBit_false_of_onesBelow_zero {w m : Nat} (h : onesBelow w m = 0) {i : Nat}
    (hi : i < w) : m.testBit i = false := by
  unfold onesBelow at h
  rw [List.length_eq_zero] at h
  by_contra hb
  simp only [Bool.not_eq_false] at hb
  have hmem : i ∈ bitsBelow w m := mem_bitsBelow.2 ⟨hi, hb⟩
  rw [h] at hmem
  exact absurd hmem (List.not_mem_nil i)

theorem onesBelow_one_unique {w m : Nat} (h : onesBelow w m = 1) :
    ∃ k, k < w ∧ m.testBit k = true ∧ ∀ j, j < w → m.testBit j = true → j = k := by
  unfold onesBelow at h
  rcases List.length_eq_one.1 h with ⟨k, hk⟩
  have hkmem : k ∈ bitsBelow w m := by
    rw [hk]
    exact List.mem_cons_self _ _
  rcases mem_bitsBelow.1 hkmem with ⟨hkw, hkb⟩
  refine ⟨k, hkw, hkb, ?_⟩
  intro j hj hjb
  have hjm : j ∈ bitsBelow w m := mem_bitsBelow.2 ⟨hj, hjb⟩
  rw [hk] at hjm
  exact List.mem_singleton.1 hjm

theorem onesBelow_two_bits {w m : Nat} (h : 2 ≤ onesBelow w m) :
    ∃ j k, j < w ∧ k < w ∧ m.testBit j = true ∧ m.testBit k = true ∧ j ≠ k := by
  unfold onesBelow at h
  cases hl : bitsBelow w m with
  | nil =>
    rw [hl] at h
    simp at h
  | cons a t =>
    cases ht : t with
    | nil =>
      rw [hl, ht] at h
      simp at h
    | cons a' t2 =>
      have hnd := bitsBelow_nodup w m
      rw [hl, ht] at hnd
      have haa : a ≠ a' := by
        intro hx
        subst hx
        exact (List.nodup_cons.1 hnd).1 (List.mem_cons_self _ _)
      have ha : a ∈ bitsBelow w m := by
        rw [hl]
        exact List.mem_cons_self _ _
      have ha' : a' ∈ bitsBelow w m := by
        rw [hl, ht]
        exact List.mem_cons_of_mem _ (List.mem_cons_self _ _)
      rcases mem_bitsBelow.1 ha with ⟨hw1, hb1⟩
      rcases mem_bitsBelow.1 ha' with ⟨hw2, hb2⟩
      exact ⟨a, a', hw1, hw2, hb1, hb2, haa⟩

theorem emptyCount_update {b : Board} {c v : Nat} (hc : c < 81) (hemp : b c = Space.Empty) :
    emptyCount (Function.update b c (Space.Full v)) + 1 = emptyCount b := by
  unfold emptyCount
  rw [List.countP_eq_length_filter, List.countP_eq_length_filter]
  have hfun : ∀ i, (Function.update b c (Space.Full v) i == Space.Empty)
      = ((b i == Space.Empty) && !(decide (i = c))) := by
    intro i
    by_cases hx : i = c
    · subst hx
      rw [Function.update_apply, if_pos rfl, hemp]
      simp
    · rw [Function.update_apply, if_neg hx]
      simp [hx]
  have hfilter : (List.range 81).filter (fun i => Function.update b c (Space.Full v) i == Space.Empty)
      = ((List.range 81).filter (fun i => b i == Space.Empty)).filter (fun i => !(decide (i = c))) := by
    rw [List.filter_filter]
    exact List.filter_congr (fun i _ => by rw [hfun i, Bool.and_comm])
  rw [hfilter]
  have hcmem : c ∈ (List.range 81).filter (fun i => b i == Space.Empty) := by
    simp [List.mem_filter, List.mem_range, hc, hemp]
  have hnd : ((List.range 81).filter (fun i => b i == Space.Empty)).Nodup :=
    (List.nodup_range 81).filter _
  have herase : ((List.range 81).filter (fun i => b i == Space.Empty)).filter
        (fun i => !(decide (i = c)))
      = ((List.range 81).filter (fun i => b i == Space.Empty)).erase c := by
    rw [List.Nodup.erase_eq_filter hnd]
    exact List.filter_congr (fun i _ => by
      cases Nat.decEq i c with
      | isTrue h => subst h; simp
      | isFalse h => simp [h])
  rw [herase, List.length_erase_of_mem hcmem]
  have hpos : 0 < ((List.range 81).filter (fun i => b i == Space.Empty)).length :=
    List.length_pos.2 (List.ne_nil_of_mem hcmem)
  omega

theorem onesBelow_shrink {n : Nat} (h : n < 2 ^ 81) : onesBelow 128 n = onesBelow 81 n := by
  unfold onesBelow bitsBelow
  have h128 : (128 : Nat) = 81 + 47 := by norm_num
  rw [h128, List.range_add, List.filter_append, List.length_append]
  have hnil : ((List.range 47).map (fun i => 81 + i)).filter (fun i => n.testBit i) = [] := by
    rw [List.filter_eq_nil]
    intro a ha
    rcases List.mem_map.1 ha with ⟨i, _, hi⟩
    have : n.testBit a = false := testBit_false_of_ge h (by omega)
    simp [this]
  rw [hnil]
  simp

theorem emptyCount_eq_onesBelow {b : Board} {s : BookkeptBoard} (hag : BoardAgree b s.board)
    (hB : Binv s) : emptyCount b = onesBelow 128 s.openSpaces := by
  rw [onesBelow_shrink hB.openLt]
  unfold emptyCount onesBelow bitsBelow
  rw [List.countP_eq_length_filter]
  congr 1
  apply List.filter_congr
  intro i hi
  have hi81 : i < 81 := List.mem_range.1 hi
  have hiff : b i = Space.Empty ↔ s.openSpaces.testBit i = true := by
    rw [hag i hi81]
    exact hB.openIff i hi81
  cases hbit : s.openSpaces.testBit i with
  | true =>
    have : b i = Space.Empty := hiff.2 hbit
    simp [this]
  | false =>
    have : ¬(b i = Space.Empty) := fun hx => by
      rw [hiff.1 hx] at hbit
      exact absurd hbit (by simp)
    simp [this]

/-! ## The naive propagation loop realizes forced moves -/

theorem emptyCount_pos {b : Board} {c : Nat} (hc : c < 81) (hemp : b c = Space.Empty) :
    1 ≤ emptyCount b := by
  unfold emptyCount
  rw [List.countP_eq_length_filter]
  apply List.length_pos.2
  apply List.ne_nil_of_mem (a := c)
  simp [List.mem_filter, List.mem_range, hc, hemp]

theorem naiveScan_cons_full {c : Nat} {rest : List Nat} {b : Board} {n : Nat}
    (h : b c = Space.Full n) : naiveScan (c :: rest) b = naiveScan rest b := by
  conv_lhs => unfold naiveScan
  rw [h]

theorem naiveScan_cons_empty {c : Nat} {rest : List Nat} {b : Board}
    (h : b c = Space.Empty) : naiveScan (c :: rest) b =
      (if onesBelow 16 (naiveAllowed b c) = 0 then some NScan.fail
       else if onesBelow 16 (naiveAllowed b c) = 1 then
         match (naiveAllowedList (naiveAllowed b c)).head? with
         | none => none
         | some v => some (NScan.filled (Function.update b c (Space.Full v)))
       else naiveScan rest b) := by
  conv_lhs => unfold naiveScan
  rw [h]

theorem naiveScan_spec : ∀ (l : List Nat) (b : Board), ValRange b → (∀ c ∈ l, c < 81) →
    (naiveScan l b ≠ none) ∧
    (∀ b', naiveScan l b = some (NScan.filled b') →
      StepP b b' ∧ ValRange b' ∧ emptyCount b' + 1 = emptyCount b) ∧
    (naiveScan l b = some NScan.fail → FailAt b) ∧
    (naiveScan l b = some NScan.clean →
      ∀ c ∈ l, b c = Space.Empty → ∃ v w, CanPlace b c v ∧ CanPlace b c w ∧ v ≠ w) := by
  intro l
  induction l with
  | nil =>
    intro b hval hlt
    refine ⟨by simp [naiveScan], ?_, ?_, ?_⟩
    · intro b' h
      exact absurd h (by simp [naiveScan])
    · intro h
      rw [show naiveScan [] b = some NScan.clean from rfl] at h
      injection h with h
      cases h
    · intro _ c hc
      exact absurd hc (List.not_mem_nil c)
  | cons c rest ih =>
    intro b hval hlt
    have hc81 : c < 81 := hlt c (List.mem_cons_self _ _)
    have hrest : ∀ x ∈ rest, x < 81 := fun x hx => hlt x (List.mem_cons_of_mem _ hx)
    cases hbc : b c with
    | Full n =>
      rw [naiveScan_cons_full hbc]
      rcases ih b hval hrest with ⟨h1, h2, h3, h4⟩
      refine ⟨h1, h2, h3, ?_⟩
      intro h c' hc' hemp'
      rcases List.mem_cons.1 hc' with hx | hx
      · subst hx
        rw [hbc] at hemp'
        cases hemp'
      · exact h4 h c' hx hemp'
    | Empty =>
      rw [naiveScan_cons_empty hbc]
      by_cases h0 : onesBelow 16 (naiveAllowed b c) = 0
      · rw [if_pos h0]
        have hfail : FailAt b := by
          refine ⟨c, hc81, hbc, ?_⟩
          intro v hv
          have h1v : 1 ≤ v := hv.1
          have h9v : v ≤ 9 := hv.2.1
          have hbit : (naiveAllowed b c).testBit (v - 1) = true :=
            (naiveAllowed_canPlace hc81 hval h1v h9v).2 hv
          have : (naiveAllowed b c).testBit (v - 1) = false :=
            testBit_false_of_onesBelow_zero h0 (by omega)
          rw [this] at hbit
          cases hbit
        refine ⟨by simp, ?_, fun _ => hfail, ?_⟩
        · intro b' h
          injection h with h
          cases h
        · intro h
          injection h with h
          cases h
      · rw [if_neg h0]
        by_cases h1 : onesBelow 16 (naiveAllowed b c) = 1
        · rw [if_pos h1]
          rcases onesBelow_one_unique h1 with ⟨k, hk16, hkbit, hkuniq⟩
          have hk9 : k < 9 := naiveAllowed_bound k hkbit
          have hlist : naiveAllowedList (naiveAllowed b c) = [k + 1] := by
            apply sorted_mem_ext (naiveAllowedList_sorted _) (by simp)
            intro x
            rw [mem_naiveAllowedList, List.mem_singleton]
            constructor
            · rintro ⟨hx1, hx9, hxbit⟩
              have := hkuniq (x - 1) (by omega) hxbit
              omega
            · intro hx
              subst hx
              refine ⟨by omega, by omega, ?_⟩
              have : k + 1 - 1 = k := by omega
              rw [this]
              exact hkbit
          rw [hlist]
          simp only [List.head?]
          have hcan : CanPlace b c (k + 1) := by
            have hkk : k + 1 - 1 = k := by omega
            refine (naiveAllowed_canPlace hc81 hval (by omega) (by omega)).1 ?_
            rw [hkk]
            exact hkbit
          have huniq : ∀ w, CanPlace b c w → w = k + 1 := by
            intro w hw
            have hw1 : 1 ≤ w := hw.1
            have hw9 : w ≤ 9 := hw.2.1
            have hbit : (naiveAllowed b c).testBit (w - 1) = true :=
              (naiveAllowed_canPlace hc81 hval hw1 hw9).2 hw
            have := hkuniq (w - 1) (by omega) hbit
            omega
          have hforced : ForcedAt b c (k + 1) := ⟨hc81, hbc, hcan, huniq⟩
          refine ⟨by simp, ?_, ?_, ?_⟩
          · intro b' h
            injection h with h
            injection h with h
            refine ⟨⟨c, k + 1, hforced, h.symm⟩, ?_, ?_⟩
            · intro i nn hi hfull
              rw [← h] at hfull
              by_cases hx : i = c
              · subst hx
                rw [Function.update_apply, if_pos rfl] at hfull
                injection hfull with hfull
                omega
              · rw [Function.update_apply, if_neg hx] at hfull
                exact hval i nn hi hfull
            · rw [← h]
              exact emptyCount_update hc81 hbc
          · intro h
            injection h with h
            cases h
          · intro h
            injection h with h
            cases h
        · rw [if_neg h1]
          rcases ih b hval hrest with ⟨ih1, ih2, ih3, ih4⟩
          refine ⟨ih1, ih2, ih3, ?_⟩
          intro h c' hc' hemp'
          rcases List.mem_cons.1 hc' with hx | hx
          · subst hx
            have h2le : 2 ≤ onesBelow 16 (naiveAllowed b c') := by omega
            rcases onesBelow_two_bits h2le with ⟨j, k, _, _, hjb, hkb, hjk⟩
            have hj9 : j < 9 := naiveAllowed_bound j hjb
            have hk9 : k < 9 := naiveAllowed_bound k hkb
            refine ⟨j + 1, k + 1, ?_, ?_, by omega⟩
            · refine (naiveAllowed_canPlace hc81 hval (by omega) (by omega)).1 ?_
              have : j + 1 - 1 = j := by omega
              rw [this]
              exact hjb
            · refine (naiveAllowed_canPlace hc81 hval (by omega) (by omega)).1 ?_
              have : k + 1 - 1 = k := by omega
              rw [this]
              exact hkb
          · exact ih4 h c' hx hemp'

theorem naiveMfcGo_spec : ∀ (N : Nat) (b : Board) (fuel : Nat), ValRange b →
    emptyCount b ≤ N → N + 1 ≤ fuel →
    (naiveMfcGo fuel b ≠ none) ∧
    (∀ b', naiveMfcGo fuel b = some (some b') →
      Steps b b' ∧ Quiescent b' ∧ ValRange b' ∧ emptyCount b' ≤ emptyCount b) ∧
    (naiveMfcGo fuel b = some none → Fails b) := by
  intro N
  induction N with
  | zero =>
    intro b fuel hval hcnt hfuel
    obtain ⟨f, rfl⟩ : ∃ f, fuel = f + 1 := ⟨fuel - 1, by omega⟩
    rcases naiveScan_spec (List.range 81) b hval (fun x hx => List.mem_range.1 hx) with
      ⟨hs1, hs2, hs3, hs4⟩
    show _ ∧ _ ∧ _
    unfold naiveMfcGo
    cases hscan : naiveScan (List.range 81) b with
    | none => exact absurd hscan hs1
    | some r =>
      cases r with
      | fail =>
        refine ⟨by simp, ?_, ?_⟩
        · intro b' h
          simp at h
        · intro _
          exact ⟨b, Relation.ReflTransGen.refl, hs3 hscan⟩
      | clean =>
        refine ⟨by simp, ?_, ?_⟩
        · intro b' h
          simp only [Option.some.injEq] at h
          subst h
          refine ⟨Relation.ReflTransGen.refl, ?_, hval, le_refl _⟩
          intro c hc hemp
          exact hs4 hscan c (List.mem_range.2 hc) hemp
        · intro h
          simp at h
      | filled b₁ =>
        exfalso
        rcases hs2 b₁ hscan with ⟨⟨c, v, hf, _⟩, _, _⟩
        have := emptyCount_pos hf.1 hf.2.1
        omega
  | succ M ih =>
    intro b fuel hval hcnt hfuel
    obtain ⟨f, rfl⟩ : ∃ f, fuel = f + 1 := ⟨fuel - 1, by omega⟩
    rcases naiveScan_spec (List.range 81) b hval (fun x hx => List.mem_range.1 hx) with
      ⟨hs1, hs2, hs3, hs4⟩
    show _ ∧ _ ∧ _
    unfold naiveMfcGo
    cases hscan : naiveScan (List.range 81) b with
    | none => exact absurd hscan hs1
    | some r =>
      cases r with
      | fail =>
        refine ⟨by simp, ?_, ?_⟩
        · intro b' h
          simp at h
        · intro _
          exact ⟨b, Relation.ReflTransGen.refl, hs3 hscan⟩
      | clean =>
        refine ⟨by simp, ?_, ?_⟩
        · intro b' h
          simp only [Option.some.injEq] at h
          subst h
          refine ⟨Relation.ReflTransGen.refl, ?_, hval, le_refl _⟩
          intro c hc hemp
          exact hs4 hscan c (List.mem_range.2 hc) hemp
        · intro h
          simp at h
      | filled b₁ =>
        rcases hs2 b₁ hscan with ⟨hstep, hval₁, hcnt₁⟩
        have hcnt₁' : emptyCount b₁ ≤ M := by omega
        have hfuel' : M + 1 ≤ f := by omega
        rcases ih b₁ f hval₁ hcnt₁' hfuel' with ⟨ih1, ih2, ih3⟩
        refine ⟨ih1, ?_, ?_⟩
        · intro b' h
          rcases ih2 b' h with ⟨hsteps, hq, hv, hle⟩
          exact ⟨Relation.ReflTransGen.head hstep hsteps, hq, hv, by omega⟩
        · intro h
          rcases ih3 h with ⟨u, hsteps, hfail⟩
          exact ⟨u, Relation.ReflTransGen.head hstep hsteps, hfail⟩

theorem naiveMfc_spec {b : Board} (hval : ValRange b) :
    (naiveMfc b ≠ none) ∧
    (∀ b', naiveMfc b = some (some b') →
      Steps b b' ∧ Quiescent b' ∧ ValRange b' ∧ emptyCount b' ≤ emptyCount b) ∧
    (naiveMfc b = some none → Fails b) :=
  naiveMfcGo_spec (emptyCount b) b (emptyCount b + 1) hval (le_refl _) (le_refl _)

/-! ## The two solvers pick the same cell and the same candidates -/

theorem pick_agree {b : Board} {s : BookkeptBoard} (hag : BoardAgree b s.board) (hB : Binv s) :
    naivePick b = pickOpenSpace s := by
  cases hp : pickOpenSpace s with
  | none =>
    have hzero : s.openSpaces = 0 := (pickOpenSpace_none hB).1 hp
    unfold naivePick
    rw [List.find?_eq_none]
    intro x hx h
    have hx81 : x < 81 := List.mem_range.1 hx
    rw [beq_iff_eq] at h
    have hbit : s.openSpaces.testBit x = true :=
      (hB.openIff x hx81).1 (by rw [← hag x hx81]; exact h)
    rw [hzero, Nat.zero_testBit] at hbit
    exact absurd hbit (by simp)
  | some c =>
    rcases pickOpenSpace_some hB hp with ⟨hc81, hcbit, hcmin⟩
    unfold naivePick
    rw [find?_range_first]
    refine ⟨hc81, ?_, ?_⟩
    · rw [beq_iff_eq, hag c hc81]
      exact (hB.openIff c hc81).2 hcbit
    · intro j hj
      have hj81 : j < 81 := by omega
      have hjbit : s.openSpaces.testBit j = false := hcmin j hj
      have hnej : b j ≠ Space.Empty := by
        intro hx
        have hb : s.openSpaces.testBit j = true :=
          (hB.openIff j hj81).1 (by rw [← hag j hj81]; exact hx)
        rw [hjbit] at hb
        exact absurd hb (by simp)
      exact beq_eq_false_iff_ne.2 hnej

theorem candidates_agree {b : Board} {s : BookkeptBoard} (hag : BoardAgree b s.board)
    (hB : Binv s) (hM : MaskInv s) (hval : ValRange b) {c : Nat} (hc : c < 81) :
    naiveAllowedList (naiveAllowed b c) = allowedForList (allowedMask s c) := by
  have hsorted2 : List.Sorted (· < ·) (allowedForList (allowedMask s c)) := by
    rw [allowedForList_eq hB]
    exact bitsBelow_sorted _ _
  apply sorted_mem_ext (naiveAllowedList_sorted _) hsorted2
  intro x
  rw [mem_naiveAllowedList, mem_allowedForList hB, allowedMask_canPlace hM hc x,
    ← canPlace_agree hag c x]
  constructor
  · rintro ⟨h1, h9, hbit⟩
    exact (naiveAllowed_canPlace hc hval h1 h9).1 hbit
  · intro hcp
    have h1 := hcp.1
    have h9 := hcp.2.1
    exact ⟨h1, h9, (naiveAllowed_canPlace hc hval h1 h9).2 hcp⟩

/-- Relation between a naive-solver result and a bookkept-solver result:
no panic on either side, the no-solution answers coincide, and solution
boards agree on the 81 cells. -/
def resRel : Option (Option Board) → Option (Option BookkeptBoard) → Prop
  | some none, some none => True
  | some (some g), some (some t) => BoardAgree g t.board
  | _, _ => False

/-- The naive and the bookkept search agree step for step: propagation
determinacy makes both reach the same quiescent board, both pick the
first open cell, and both try the same candidates in the same order. -/
theorem solveGo_agree : ∀ (N : Nat) (b : Board) (s : BookkeptBoard) (fn fb : Nat),
    BoardAgree b s.board → Binv s → DirtyInv s → MaskInv s → ValRange b →
    emptyCount b ≤ N → N + 1 ≤ fn → N + 1 ≤ fb →
    resRel (naiveSolveGo fn b) (solveHelperGo fb s) := by
  intro N
  induction N using Nat.strong_induction_on with
  | _ N ih =>
    intro b s fn fb hag hB hD hM hval hcnt hfn hfb
    obtain ⟨fn', rfl⟩ : ∃ f, fn = f + 1 := ⟨fn - 1, by omega⟩
    obtain ⟨fb', rfl⟩ : ∃ f, fb = f + 1 := ⟨fb - 1, by omega⟩
    rcases naiveMfc_spec hval with ⟨hn1, hn2, hn3⟩
    rcases makeForcedChoices_spec hB hD with ⟨hb1, hb2⟩
    rcases makeForcedChoices_search hB hD hM with ⟨hbs1, hbs2⟩
    unfold naiveSolveGo solveHelperGo
    cases hnm : naiveMfc b with
    | none => exact absurd hnm hn1
    | some r =>
      cases hbm : makeForcedChoices s with
      | none => exact absurd hbm hb1
      | some rb =>
        cases r with
        | none =>
          have hfails_b : Fails b := hn3 hnm
          cases rb with
          | none => exact trivial
          | some s₁ =>
            exfalso
            rcases hbs1 s₁ hbm with ⟨hM₁, _, _, hsteps_s⟩
            have hq : Quiescent s₁.board := makeForcedChoices_quiescent hB hD hM hbm
            have hfails_s : Fails s.board := fails_agree hfails_b hag
            exact fails_not_quiescent hsteps_s hq hfails_s
        | some b₁ =>
          rcases hn2 b₁ hnm with ⟨hsteps_b, hq_b, hval₁, hcnt₁⟩
          cases rb with
          | none =>
            exfalso
            have hfails_s : Fails s.board := hbs2 hbm
            have hfails_b2 : Fails b := fails_agree hfails_s (boardAgree_symm hag)
            exact fails_not_quiescent hsteps_b hq_b hfails_b2
          | some s₁ =>
            rcases hb2 s₁ hbm with ⟨hB₁, hD₁, hupd₁, _, _, _⟩
            rcases hbs1 s₁ hbm with ⟨hM₁, _, _, hsteps_s⟩
            have hq_s : Quiescent s₁.board := makeForcedChoices_quiescent hB hD hM hbm
            rcases steps_agree hsteps_b hag with ⟨b₁', hsteps_s', hagree₁'⟩
            have hq_s' : Quiescent b₁' := (quiescent_agree hagree₁').1 hq_b
            have heq : b₁' = s₁.board := quiescent_unique hsteps_s' hq_s' hsteps_s hq_s
            have hag₁ : BoardAgree b₁ s₁.board := by
              rw [← heq]
              exact hagree₁'
            have hpick : naivePick b₁ = pickOpenSpace s₁ := pick_agree hag₁ hB₁
            simp only []
            rw [hpick]
            cases hps : pickOpenSpace s₁ with
            | none => exact hag₁
            | some c =>
              simp only []
              rcases pickOpenSpace_some hB₁ hps with ⟨hc81, hcbit, _⟩
              rw [if_neg (by omega : ¬ 81 ≤ c)]
              have hemp_s : s₁.board c = Space.Empty := (hB₁.openIff c hc81).2 hcbit
              have hemp_b : b₁ c = Space.Empty := by
                rw [hag₁ c hc81]
                exact hemp_s
              have hN1 : 1 ≤ N := by
                have := emptyCount_pos hc81 hemp_b
                omega
              have hlists : naiveAllowedList (naiveAllowed b₁ c)
                  = allowedForList (allowedMask s₁ c) :=
                candidates_agree hag₁ hB₁ hM₁ hval₁ hc81
              rw [hlists]
              have key : ∀ L : List Nat, (∀ v ∈ L, 1 ≤ v ∧ v ≤ 9) →
                  resRel (naiveTryGo (naiveSolveGo fn') b₁ c L)
                    (tryGo (solveHelperGo fb') s₁ c L) := by
                intro L
                induction L with
                | nil => intro _; exact trivial
                | cons v rest ihL =>
                  intro hmem
                  rcases hmem v (List.mem_cons_self _ _) with ⟨hv1, hv9⟩
                  have hfill : fill s₁ c v = some (fillRaw s₁ c v) :=
                    fill_eq_some.2 ⟨hc81, hemp_s, rfl⟩
                  unfold naiveTryGo tryGo
                  rw [hfill]
                  simp only []
                  have hagU : BoardAgree (Function.update b₁ c (Space.Full v))
                      (fillRaw s₁ c v).board := by
                    intro i hi
                    rw [Function.update_apply, fillRaw_board_apply]
                    by_cases hx : i = c
                    · rw [if_pos hx, if_pos hx]
                    · rw [if_neg hx, if_neg hx]
                      exact hag₁ i hi
                  have hvalU : ValRange (Function.update b₁ c (Space.Full v)) := by
                    intro i n hi hfi
                    rw [Function.update_apply] at hfi
                    by_cases hx : i = c
                    · rw [if_pos hx] at hfi
                      injection hfi with hfi
                      omega
                    · rw [if_neg hx] at hfi
                      exact hval₁ i n hi hfi
                  have hcntU : emptyCount (Function.update b₁ c (Space.Full v)) ≤ N - 1 := by
                    have := emptyCount_update (v := v) hc81 hemp_b
                    omega
                  have hrel : resRel (naiveSolveGo fn' (Function.update b₁ c (Space.Full v)))
                      (solveHelperGo fb' (fillRaw s₁ c v)) := by
                    apply ih (N - 1) (by omega) _ _ _ _ hagU (Binv_fillRaw hB₁ hc81 hemp_s v)
                      (DirtyInv_fillRaw hB₁ hD₁ hc81 v)
                      (MaskInv_fillRaw hM₁ hc81 hemp_s hv1 hv9) hvalU hcntU
                      (by omega) (by omega)
                  cases hres_n : naiveSolveGo fn' (Function.update b₁ c (Space.Full v)) with
                  | none =>
                    rw [hres_n] at hrel
                    cases hres_b : solveHelperGo fb' (fillRaw s₁ c v) with
                    | none =>
                      rw [hres_b] at hrel
                      exact absurd hrel (by simp [resRel])
                    | some x =>
                      rw [hres_b] at hrel
                      cases x with
                      | none => exact absurd hrel (by simp [resRel])
                      | some t => exact absurd hrel (by simp [resRel])
                  | some x =>
                    cases hres_b : solveHelperGo fb' (fillRaw s₁ c v) with
                    | none =>
                      rw [hres_n, hres_b] at hrel
                      cases x with
                      | none => exact absurd hrel (by simp [resRel])
                      | some g => exact absurd hrel (by simp [resRel])
                    | some y =>
                      rw [hres_n, hres_b] at hrel
                      cases x with
                      | none =>
                        cases y with
                        | none =>
                          simp only []
                          exact ihL (fun w hw => hmem w (List.mem_cons_of_mem _ hw))
                        | some t => exact absurd hrel (by simp [resRel])
                      | some g =>
                        cases y with
                        | none => exact absurd hrel (by simp [resRel])
                        | some t =>
                          simp only []
                          exact hrel
              apply key
              intro v hv
              rw [mem_allowedForList hB₁] at hv
              have hsub : ∀ i, (allowedMask s₁ c).testBit i = true →
                  allAllowed.testBit i = true := allowedMask_maskSub hB₁ c
              have := (allAllowed_testBit v).1 (hsub v hv)
              exact this

/-- C9: the naive solver of `main.rs` and the bookkept solver of
`sudoku/solve.rs` are equivalent: on every input board whose `Full`
cells hold symbols in `[1, 9]`, neither panics, they return the
no-solution answer together, and when they return solutions the two
grids have identical cell contents. -/
theorem claim_C9 (b : Board) (hval : ValRange b) :
    (naiveSolve b = some none ↔ solve b = some none) ∧
    (∀ g, naiveSolve b = some (some g) →
      ∃ t, solve b = some (some t) ∧ ∀ i, i < 81 → g i = t i) ∧
    (∀ t, solve b = some (some t) →
      ∃ g, naiveSolve b = some (some g) ∧ ∀ i, i < 81 → g i = t i) ∧
    naiveSolve b ≠ none ∧ solve b ≠ none := by
  rcases fromBoard_spec b with ⟨hfb_ne, hfb⟩
  cases hfrom : fromBoard b with
  | none => exact absurd hfrom hfb_ne
  | some s =>
    rcases hfb s hfrom with ⟨hB, hD, hagree, _, hMval, _, _⟩
    have hM : MaskInv s := hMval hval
    have hag : BoardAgree b s.board := fun i hi => (hagree i hi).symm
    have hcounts : emptyCount b = onesBelow 128 s.openSpaces := emptyCount_eq_onesBelow hag hB
    have hrel : resRel (naiveSolveGo (emptyCount b + 1) b)
        (solveHelperGo (onesBelow 128 s.openSpaces + 1) s) :=
      solveGo_agree (emptyCount b) b s (emptyCount b + 1) (onesBelow 128 s.openSpaces + 1)
        hag hB hD hM hval (le_refl _) (le_refl _) (by omega)
    have hns : naiveSolve b = naiveSolveGo (emptyCount b + 1) b := rfl
    cases hres_n : naiveSolveGo (emptyCount b + 1) b with
    | none =>
      rw [hres_n] at hrel
      exfalso
      cases hres_b : solveHelperGo (onesBelow 128 s.openSpaces + 1) s with
      | none =>
        rw [hres_b] at hrel
        exact hrel
      | some y =>
        rw [hres_b] at hrel
        cases y with
        | none => exact hrel
        | some t => exact hrel
    | some x =>
      cases hres_b : solveHelperGo (onesBelow 128 s.openSpaces + 1) s with
      | none =>
        rw [hres_n, hres_b] at hrel
        exfalso
        cases x with
        | none => exact hrel
        | some g => exact hrel
      | some y =>
        rw [hres_n, hres_b] at hrel
        have hsolve : solve b = (match some y with
            | none => none
            | some none => some none
            | some (some t) => some (some t.board)) := by
          unfold solve
          rw [hfrom]
          simp only []
          rw [show solveHelper s = solveHelperGo (onesBelow 128 s.openSpaces + 1) s from rfl,
            hres_b]
        cases x with
        | none =>
          cases y with
          | some t => exact absurd hrel (by simp [resRel])
          | none =>
            simp only [] at hsolve
            rw [hns, hres_n, hsolve]
            refine ⟨Iff.rfl, ?_, ?_, by simp, by simp⟩
            · intro g h
              exact absurd h (by simp)
            · intro t h
              exact absurd h (by simp)
        | some g =>
          cases y with
          | none => exact absurd hrel (by simp [resRel])
          | some t =>
            simp only [] at hsolve
            rw [hns, hres_n, hsolve]
            have hgt : BoardAgree g t.board := hrel
            refine ⟨?_, ?_, ?_, by simp, by simp⟩
            · constructor
              · intro h
                exact absurd h (by simp)
              · intro h
                exact absurd h (by simp)
            · intro g' h
              simp only [Option.some.injEq] at h
              subst h
              exact ⟨t.board, rfl, fun i hi => hgt i hi⟩
            · intro t' h
              simp only [Option.some.injEq] at h
              subst h
              exact ⟨g, rfl, fun i hi => hgt i hi⟩

/-- A fully filled board used only to witness C9. -/
def c9Grid : Board := fun _ => Space.Full 3

/-- Witness for C9 at a concrete board with symbols in range. -/
theorem claim_C9_witness :
    ValRange c9Grid ∧
    ((naiveSolve c9Grid = some none ↔ solve c9Grid = some none) ∧
    (∀ g, naiveSolve c9Grid = some (some g) →
      ∃ t, solve c9Grid = some (some t) ∧ ∀ i, i < 81 → g i = t i) ∧
    (∀ t, solve c9Grid = some (some t) →
      ∃ g, naiveSolve c9Grid = some (some g) ∧ ∀ i, i < 81 → g i = t i) ∧
    naiveSolve c9Grid ≠ none ∧ solve c9Grid ≠ none) := by
  have hv : ValRange c9Grid := by
    intro i n _ h
    injection h with h
    omega
  exact ⟨hv, claim_C9 c9Grid hv⟩
